import Mathlib

/-!
# Stock portfolio manager (`Stock_portfolio.c`)

A shallow embedding of the open-addressing tables (market catalog and user
holdings), the bounded transaction history, the buy / sell / catalog insert
operations, the catalog search and the portfolio statistics of
`Stock_portfolio.c`, with the properties proved about them.

Modelling conventions

* A C string is the list of its `unsigned char` codes up to the terminating
  NUL (`CStr`).  `tolower` / `toupper` are those of the "C" locale.
* `int` is a 32-bit two's-complement integer, `unsigned long` is 64 bits wide
  (LP64).  Values are carried in `Int` / `Nat`; an addition that can leave the
  range is reduced explicitly (`wrapInt32`, `% 2 ^ 64`).
* `double` values are carried as rationals: prices are finite and the
  arithmetic on them is exact.  A division by zero, which yields an infinity
  in the code, has no counterpart; see `buyStockInteractive`.
* A global array is a function from indices to cells; only indices below the
  array size are read or written.
* A function that returns the `int` slot index or `-1` returns
  `Option Nat` here, `none` standing for `-1` (see `slotCode`); its `int *found`
  out-parameter is the second component of the result.
* The interactive functions take the values their `scanf` / `fgets` calls
  deliver as arguments and return the message they print as a result value.
-/

namespace StockPortfolio

/-! ## Constants and records -/

abbrev TABLE_SIZE : Nat := 101
abbrev MAX_SYMBOL_LEN : Nat := 16
abbrev MAX_SECTOR_LEN : Nat := 20
abbrev MAX_DATE_LEN : Nat := 32
abbrev MAX_TRANSACTIONS : Nat := 1000

/-- The enum `EntryStatus`. -/
inductive EntryStatus where
  | EMPTY
  | OCCUPIED
  | DELETED
deriving DecidableEq, Repr

open EntryStatus

/-- Content of a NUL-terminated `char` buffer, as `unsigned char` codes. -/
abbrev CStr := List Nat

/-- The struct `MarketEntry`. -/
structure MarketEntry where
  symbol : CStr
  sector : CStr
  price : ℚ
  status : EntryStatus
deriving DecidableEq

/-- The struct `HoldingEntry`. -/
structure HoldingEntry where
  symbol : CStr
  sector : CStr
  quantity : Int
  avgBuyPrice : ℚ
  lastBuyDate : CStr
  status : EntryStatus
deriving DecidableEq

/-- The struct `TransactionEntry`; `type` is 0 for a buy and 1 for a sell. -/
structure TransactionEntry where
  symbol : CStr
  quantity : Int
  pricePerShare : ℚ
  date : CStr
  type : Int
deriving DecidableEq

/-- The global `marketTable[TABLE_SIZE]`. -/
abbrev MarketTable := Nat → MarketEntry

/-- The global `holdingTable[TABLE_SIZE]`. -/
abbrev HoldingTable := Nat → HoldingEntry

/-! ## Utilities -/

/-- The C-locale `tolower` on an `unsigned char` code. -/
def tolower (c : Nat) : Nat := if 65 ≤ c ∧ c ≤ 90 then c + 32 else c

/-- The C-locale `toupper` on an `unsigned char` code. -/
def toupper (c : Nat) : Nat := if 97 ≤ c ∧ c ≤ 122 then c - 32 else c

/-- `toUpperStr`: upper-cases every character of the buffer in place. -/
def toUpperStr (s : CStr) : CStr := s.map toupper

/-- `equalsIgnoreCase`: walks both strings while neither has ended, fails on
the first pair that differs after `tolower`, and finally requires both to have
ended. -/
def equalsIgnoreCase : CStr → CStr → Bool
  | a :: as, b :: bs => if tolower a ≠ tolower b then false else equalsIgnoreCase as bs
  | [], [] => true
  | _, _ => false

/-- `strncpy(dst, src, n - 1); dst[n - 1] = 0` into a buffer of `n` chars. -/
def strncpyBuf (n : Nat) (src : CStr) : CStr := src.take (n - 1)

/-- `hash`: polynomial hash with multiplier 31 in an `unsigned long`
accumulator, reduced modulo `TABLE_SIZE`. -/
def hash (symbol : CStr) : Nat :=
  (symbol.foldl (fun hashValue c => (hashValue * 31 + c) % 2 ^ 64) 0) % TABLE_SIZE

/-- The probe position `(index + i) % TABLE_SIZE`. -/
def probeSlot (index i : Nat) : Nat := (index + i) % TABLE_SIZE

/-- The `int` a slot result stands for: `-1` for `none`. -/
def slotCode : Option Nat → Int
  | none => -1
  | some k => (k : Int)

/-! ## Market table -/

/-- `initMarketTable`. -/
def initMarketTable : MarketTable :=
  fun _ => { symbol := [], sector := [], price := 0, status := EMPTY }

/-- The `for` loop of `findMarketSlot`; the first argument counts the
iterations that remain, `i` is the loop variable. -/
def findMarketSlotLoop (marketTable : MarketTable) (symbol : CStr) (index : Nat) :
    Nat → Nat → Option Nat → Option Nat × Bool
  | 0, _, firstDeletedIndex => (firstDeletedIndex, false)
  | n + 1, i, firstDeletedIndex =>
    let current := probeSlot index i
    if (marketTable current).status = EMPTY then
      if firstDeletedIndex ≠ none then (firstDeletedIndex, false) else (some current, false)
    else if (marketTable current).status = DELETED then
      findMarketSlotLoop marketTable symbol index n (i + 1)
        (if firstDeletedIndex = none then some current else firstDeletedIndex)
    else if (marketTable current).status = OCCUPIED ∧
        equalsIgnoreCase (marketTable current).symbol symbol = true then
      (some current, true)
    else
      findMarketSlotLoop marketTable symbol index n (i + 1) firstDeletedIndex

/-- `findMarketSlot`: the slot and the `found` flag. -/
def findMarketSlot (marketTable : MarketTable) (symbol : CStr) : Option Nat × Bool :=
  findMarketSlotLoop marketTable symbol (hash symbol) TABLE_SIZE 0 none

/-- The `for` loop of `searchMarketStockExact`. -/
def searchMarketLoop (marketTable : MarketTable) (symbol : CStr) (index : Nat) :
    Nat → Nat → Option (ℚ × CStr)
  | 0, _ => none
  | n + 1, i =>
    let current := probeSlot index i
    if (marketTable current).status = EMPTY then none
    else if (marketTable current).status = OCCUPIED ∧
        equalsIgnoreCase (marketTable current).symbol symbol = true then
      some ((marketTable current).price, (marketTable current).sector)
    else searchMarketLoop marketTable symbol index n (i + 1)

/-- `searchMarketStockExact`: `some (price, sector)` for return value 1 with
the two out-parameters, `none` for return value 0. -/
def searchMarketStockExact (marketTable : MarketTable) (symbolRaw : CStr) : Option (ℚ × CStr) :=
  let symbol := toUpperStr (strncpyBuf MAX_SYMBOL_LEN symbolRaw)
  searchMarketLoop marketTable symbol (hash symbol) TABLE_SIZE 0

/-! ## Holdings table -/

/-- `initHoldingTable`. -/
def initHoldingTable : HoldingTable :=
  fun _ => { symbol := [], sector := [], quantity := 0, avgBuyPrice := 0, lastBuyDate := [],
             status := EMPTY }

/-- The `for` loop of `findHoldingSlot`. -/
def findHoldingSlotLoop (holdingTable : HoldingTable) (symbol : CStr) (index : Nat) :
    Nat → Nat → Option Nat → Option Nat × Bool
  | 0, _, firstDeletedIndex => (firstDeletedIndex, false)
  | n + 1, i, firstDeletedIndex =>
    let current := probeSlot index i
    if (holdingTable current).status = EMPTY then
      (if firstDeletedIndex ≠ none then firstDeletedIndex else some current, false)
    else if (holdingTable current).status = DELETED then
      findHoldingSlotLoop holdingTable symbol index n (i + 1)
        (if firstDeletedIndex = none then some current else firstDeletedIndex)
    else if (holdingTable current).status = OCCUPIED ∧
        equalsIgnoreCase (holdingTable current).symbol symbol = true then
      (some current, true)
    else
      findHoldingSlotLoop holdingTable symbol index n (i + 1) firstDeletedIndex

/-- `findHoldingSlot`: the slot and the `found` flag. -/
def findHoldingSlot (holdingTable : HoldingTable) (symbol : CStr) : Option Nat × Bool :=
  findHoldingSlotLoop holdingTable symbol (hash symbol) TABLE_SIZE 0 none

/-! ## Program state -/

/-- The global tables, the global `transactionHistory[MAX_TRANSACTIONS]` and
`transactionCount`. -/
structure State where
  marketTable : MarketTable
  holdingTable : HoldingTable
  transactionHistory : Nat → TransactionEntry
  transactionCount : Nat

/-- Assignment to one array cell. -/
def setCell {α : Type} (arr : Nat → α) (k : Nat) (v : α) : Nat → α :=
  fun j => if j = k then v else arr j

/-- The state `main` builds before any file is loaded: both tables
initialised, `transactionCount = 0`. -/
def initState : State :=
  { marketTable := initMarketTable
    holdingTable := initHoldingTable
    transactionHistory := fun _ => { symbol := [], quantity := 0, pricePerShare := 0, date := [],
                                     type := 0 }
    transactionCount := 0 }

/-! ## Transaction history -/

/-- The shifting loop of `addTransaction`:
`transactionHistory[i] = transactionHistory[i + 1]` for `i` upwards; the first
argument counts the iterations that remain. -/
def shiftLoop (transactionHistory : Nat → TransactionEntry) : Nat → Nat → (Nat → TransactionEntry)
  | 0, _ => transactionHistory
  | n + 1, i => shiftLoop (setCell transactionHistory i (transactionHistory (i + 1))) n (i + 1)

/-- `addTransaction`. -/
def addTransaction (s : State) (symbol : CStr) (quantity : Int) (price : ℚ) (date : CStr)
    (type : Int) : State :=
  let s1 : State :=
    if s.transactionCount ≥ MAX_TRANSACTIONS then
      { s with transactionHistory := shiftLoop s.transactionHistory (MAX_TRANSACTIONS - 1) 0
               transactionCount := MAX_TRANSACTIONS - 1 }
    else s
  let entry : TransactionEntry :=
    { symbol := symbol, quantity := quantity, pricePerShare := price, date := date, type := type }
  { s1 with
    transactionHistory := setCell s1.transactionHistory s1.transactionCount entry
    transactionCount := s1.transactionCount + 1 }

/-- The records the history holds, oldest first: cells `0 .. transactionCount - 1`. -/
def ledgerRecords (s : State) : List TransactionEntry :=
  (List.range s.transactionCount).map s.transactionHistory

/-! ## Catalog insert -/

/-- What `insertMarketStockInteractive` prints before it returns. -/
inductive InsertResult where
  | declined
  | invalidPrice
  | tableFull
  | updated
  | added
deriving DecidableEq, Repr

/-- The store step of `insertMarketStockInteractive`: find the slot, fail when
there is none, else write the four fields.  The flag is `found`. -/
def storeMarketStock (marketTable : MarketTable) (symbol sector : CStr) (price : ℚ) :
    Option (MarketTable × Bool) :=
  match findMarketSlot marketTable symbol with
  | (none, _) => none
  | (some slot, found) =>
    some (setCell marketTable slot
            { symbol := symbol, sector := sector, price := price, status := OCCUPIED }, found)

/-- `insertMarketStockInteractive`, on the symbol token, the answer character
to the update question, the sector line as `fgets` delivers it and the price. -/
def insertMarketStockInteractive (s : State) (symbolIn : CStr) (choice : Nat) (sectorIn : CStr)
    (price : ℚ) : InsertResult × State :=
  let symbol := toUpperStr symbolIn
  if (searchMarketStockExact s.marketTable symbol).isSome ∧ choice ≠ 121 ∧ choice ≠ 89 then
    (InsertResult.declined, s)
  else
    let sector := (toUpperStr sectorIn).takeWhile (fun c => c ≠ 10)
    if price ≤ 0 then (InsertResult.invalidPrice, s)
    else
      match storeMarketStock s.marketTable symbol sector price with
      | none => (InsertResult.tableFull, s)
      | some (marketTable, found) =>
        (if found then InsertResult.updated else InsertResult.added,
         { s with marketTable := marketTable })

/-! ## Buy -/

/-- The value an `int` addition leaves in a 32-bit two's-complement `int`. -/
def wrapInt32 (x : Int) : Int := (x + 2 ^ 31) % 2 ^ 32 - 2 ^ 31

/-- The largest `int`. -/
abbrev INT_MAX : Int := 2147483647

/-- What `buyStockInteractive` prints before it returns; the two successes
carry the printed figures. -/
inductive BuyResult where
  | notInMarket
  | invalidQuantity
  | invalidPrice
  | tableFull
  | boughtMore (newQty : Int) (newAvg : ℚ)
  | holdingCreated
deriving DecidableEq

/-- The string "now". -/
def nowKeyword : CStr := [110, 111, 119]

/-- `buyStockInteractive`, on the symbol token, the quantity, the price and
the date token read from the terminal; `now` is what `getCurrentDateTime`
writes.  `oldQty + qty` is an `int` addition of two values the user controls,
hence `wrapInt32`.  The quotient is that of the rationals; it stands for the
`double` quotient only where `newQty ≠ 0`.  With `newQty = 0`, which takes an
addition that left the `int` range before, the code divides by zero and stores
an infinity; the value held here in that case describes nothing, and what is
proved about averages and investments is stated for `newQty ≠ 0` or for runs
within the `int` range. -/
def buyStockInteractive (s : State) (symbolRaw : CStr) (qty : Int) (buyPrice : ℚ)
    (dateIn now : CStr) : BuyResult × State :=
  match searchMarketStockExact s.marketTable symbolRaw with
  | none => (BuyResult.notInMarket, s)
  | some (_, sector) =>
    if qty ≤ 0 then (BuyResult.invalidQuantity, s)
    else if buyPrice ≤ 0 then (BuyResult.invalidPrice, s)
    else
      let dateStr := if dateIn = nowKeyword then now else dateIn
      let symbol := toUpperStr (strncpyBuf MAX_SYMBOL_LEN symbolRaw)
      match findHoldingSlot s.holdingTable symbol with
      | (none, _) => (BuyResult.tableFull, s)
      | (some slot, found) =>
        let s1 := addTransaction s symbol qty buyPrice dateStr 0
        if found then
          let oldQty := (s1.holdingTable slot).quantity
          let oldAvg := (s1.holdingTable slot).avgBuyPrice
          let newQty := wrapInt32 (oldQty + qty)
          let newAvg := ((oldAvg * oldQty) + (buyPrice * qty)) / newQty
          let entry : HoldingEntry :=
            { (s1.holdingTable slot) with
              quantity := newQty
              avgBuyPrice := newAvg
              lastBuyDate := strncpyBuf MAX_DATE_LEN dateStr }
          (BuyResult.boughtMore newQty newAvg,
           { s1 with holdingTable := setCell s1.holdingTable slot entry })
        else
          let entry : HoldingEntry :=
            { symbol := symbol
              sector := sector
              quantity := qty
              avgBuyPrice := buyPrice
              lastBuyDate := strncpyBuf MAX_DATE_LEN dateStr
              status := OCCUPIED }
          (BuyResult.holdingCreated,
           { s1 with holdingTable := setCell s1.holdingTable slot entry })

/-! ## Sell -/

/-- The profit line `sellStockInteractive` prints. -/
inductive ProfitLine where
  | profit (amount : ℚ)
  | loss (amount : ℚ)
  | breakEven
deriving DecidableEq

/-- The signed amount a profit line reports. -/
def ProfitLine.signed : ProfitLine → ℚ
  | ProfitLine.profit amount => amount
  | ProfitLine.loss amount => -amount
  | ProfitLine.breakEven => 0

/-- What `sellStockInteractive` prints before it returns; the success carries
the printed market price, profit line and remaining quantity. -/
inductive SellResult where
  | notHeld
  | invalidQuantity
  | tooMany
  | priceNotFound
  | sold (currentPrice : ℚ) (line : ProfitLine) (remaining : Int)
deriving DecidableEq

/-- `sellStockInteractive`, on the symbol token and the quantity read from the
terminal; `now` is what `getCurrentDateTime` writes.  The subtraction
`quantity -= qty` is reached with `0 < qty ≤ quantity` only and cannot leave
the `int` range. -/
def sellStockInteractive (s : State) (symbolRaw : CStr) (qty : Int) (now : CStr) :
    SellResult × State :=
  let symbol := toUpperStr (strncpyBuf MAX_SYMBOL_LEN symbolRaw)
  match findHoldingSlot s.holdingTable symbol with
  | (some slot, true) =>
    if (s.holdingTable slot).status ≠ OCCUPIED then (SellResult.notHeld, s)
    else if qty ≤ 0 then (SellResult.invalidQuantity, s)
    else if qty > (s.holdingTable slot).quantity then (SellResult.tooMany, s)
    else
      match searchMarketStockExact s.marketTable symbol with
      | none => (SellResult.priceNotFound, s)
      | some (currentPrice, _) =>
        let s1 := addTransaction s symbol qty currentPrice now 1
        let avg := (s1.holdingTable slot).avgBuyPrice
        let profitPerShare := currentPrice - avg
        let totalProfit := profitPerShare * qty
        let line :=
          if totalProfit > 0 then ProfitLine.profit totalProfit
          else if totalProfit < 0 then ProfitLine.loss (-totalProfit)
          else ProfitLine.breakEven
        let quantity := (s1.holdingTable slot).quantity - qty
        let entry : HoldingEntry :=
          if quantity = 0 then
            { (s1.holdingTable slot) with quantity := quantity, status := DELETED }
          else
            { (s1.holdingTable slot) with quantity := quantity }
        (SellResult.sold currentPrice line quantity,
         { s1 with holdingTable := setCell s1.holdingTable slot entry })
  | _ => (SellResult.notHeld, s)

/-! ## Return codes and error kinds -/

/-- The `int` that `buyStockInteractive` returns. -/
def BuyResult.code : BuyResult → Int
  | BuyResult.boughtMore _ _ => 1
  | BuyResult.holdingCreated => 1
  | _ => 0

/-- The `int` that `sellStockInteractive` returns. -/
def SellResult.code : SellResult → Int
  | SellResult.sold _ _ _ => 1
  | _ => 0

/-- The error kinds of the specification. -/
inductive ErrorKind where
  | NotFound
  | InvalidInput
  | InsufficientHoldings
  | Full
deriving DecidableEq, Repr

/-- The error kind a buy failure message stands for: "Stock not found in
MARKET data." is NotFound, "Invalid quantity." and "Invalid price." are
InvalidInput, "Error: Holdings table is full." is Full. -/
def BuyResult.errorKind : BuyResult → Option ErrorKind
  | BuyResult.notInMarket => some ErrorKind.NotFound
  | BuyResult.invalidQuantity => some ErrorKind.InvalidInput
  | BuyResult.invalidPrice => some ErrorKind.InvalidInput
  | BuyResult.tableFull => some ErrorKind.Full
  | _ => none

/-- The error kind a sell failure message stands for: "You do not hold any"
and "Current market price not found" are NotFound, "Invalid quantity." is
InvalidInput, "You cannot sell more than you hold." is InsufficientHoldings. -/
def SellResult.errorKind : SellResult → Option ErrorKind
  | SellResult.notHeld => some ErrorKind.NotFound
  | SellResult.invalidQuantity => some ErrorKind.InvalidInput
  | SellResult.tooMany => some ErrorKind.InsufficientHoldings
  | SellResult.priceNotFound => some ErrorKind.NotFound
  | _ => none

/-! ## Probing, in general -/

/-- Generic form of the two slot-finding loops, on the status of a slot and on
whether its symbol equals the key ignoring case. -/
def probeLoop (status : Nat → EntryStatus) (isMatch : Nat → Bool) (index : Nat) :
    Nat → Nat → Option Nat → Option Nat × Bool
  | 0, _, firstDeletedIndex => (firstDeletedIndex, false)
  | n + 1, i, firstDeletedIndex =>
    match status (probeSlot index i) with
    | EMPTY => (some (firstDeletedIndex.getD (probeSlot index i)), false)
    | DELETED =>
      probeLoop status isMatch index n (i + 1) (some (firstDeletedIndex.getD (probeSlot index i)))
    | OCCUPIED =>
      if isMatch (probeSlot index i) = true then (some (probeSlot index i), true)
      else probeLoop status isMatch index n (i + 1) firstDeletedIndex

/-- Position `k` of the walk stops the search for a key: the slot is Empty, or
Occupied with a matching symbol. -/
def StopsAt (status : Nat → EntryStatus) (isMatch : Nat → Bool) (index k : Nat) : Prop :=
  status (probeSlot index k) = EMPTY ∨
    (status (probeSlot index k) = OCCUPIED ∧ isMatch (probeSlot index k) = true)

instance instDecidableStopsAt (st : Nat → EntryStatus) (mt : Nat → Bool) (index k : Nat) :
    Decidable (StopsAt st mt index k) := by
  unfold StopsAt
  infer_instance

/-- No slot of the table is Empty, Deleted or an Occupied match. -/
def TableFull (st : Nat → EntryStatus) (mt : Nat → Bool) : Prop :=
  ∀ k, k < TABLE_SIZE → st k ≠ EMPTY ∧ st k ≠ DELETED ∧ ¬ (st k = OCCUPIED ∧ mt k = true)

/-- Slot `k` of the holdings table is Occupied and its symbol equals `symbol`
ignoring case. -/
def holdingMatches (holdingTable : HoldingTable) (symbol : CStr) (k : Nat) : Prop :=
  (holdingTable k).status = OCCUPIED ∧ equalsIgnoreCase (holdingTable k).symbol symbol = true

/-- Slot `k` of the market table is Occupied and its symbol equals `symbol`
ignoring case. -/
def marketMatches (marketTable : MarketTable) (symbol : CStr) (k : Nat) : Prop :=
  (marketTable k).status = OCCUPIED ∧ equalsIgnoreCase (marketTable k).symbol symbol = true

instance instDecidableHoldingMatches (t : HoldingTable) (symbol : CStr) (k : Nat) :
    Decidable (holdingMatches t symbol k) := by
  unfold holdingMatches
  infer_instance

instance instDecidableMarketMatches (t : MarketTable) (symbol : CStr) (k : Nat) :
    Decidable (marketMatches t symbol k) := by
  unfold marketMatches
  infer_instance

/-- A symbol as `scanf("%15s")` followed by `toUpperStr` leaves it in a
`char[MAX_SYMBOL_LEN]` buffer: at most 15 characters, none of them a lower-case
letter. -/
def validSymbol (symbol : CStr) : Prop :=
  symbol.length < MAX_SYMBOL_LEN ∧ toUpperStr symbol = symbol

instance instDecidableValidSymbol (symbol : CStr) : Decidable (validSymbol symbol) := by
  unfold validSymbol
  infer_instance

/-! ## Runs of the program -/

/-- The state-changing choices of `userMenu`, with the values the chosen
function reads: 10 (insert / update market stock), 1 (buy), 2 (sell). -/
inductive Op where
  | insert (symbolIn : CStr) (choice : Nat) (sectorIn : CStr) (price : ℚ)
  | buy (symbolRaw : CStr) (qty : Int) (buyPrice : ℚ) (dateIn now : CStr)
  | sell (symbolRaw : CStr) (qty : Int) (now : CStr)

/-- The state after one menu choice. -/
def step (s : State) : Op → State
  | Op.insert symbolIn choice sectorIn price =>
    (insertMarketStockInteractive s symbolIn choice sectorIn price).2
  | Op.buy symbolRaw qty buyPrice dateIn now =>
    (buyStockInteractive s symbolRaw qty buyPrice dateIn now).2
  | Op.sell symbolRaw qty now => (sellStockInteractive s symbolRaw qty now).2

/-- The state after a sequence of menu choices. -/
def run (s : State) (ops : List Op) : State := ops.foldl step s

/-- The states the program reaches from `initState` (no file loaded) through
catalog inserts, buys and sells. -/
inductive Reachable : State → Prop where
  | init : Reachable initState
  | step (s : State) (op : Op) : Reachable s → Reachable (step s op)

/-- The symbol as `buyStockInteractive`, `sellStockInteractive` and
`searchMarketStockExact` normalise it: copied into a 16-char buffer and
upper-cased. -/
def normalizeSymbol (symbolRaw : CStr) : CStr :=
  toUpperStr (strncpyBuf MAX_SYMBOL_LEN symbolRaw)

/-- Every Occupied slot of the holdings table holds a valid symbol and is the
slot `findHoldingSlot` finds for that symbol. -/
def HoldingsInv (holdingTable : HoldingTable) : Prop :=
  ∀ i, (holdingTable i).status = OCCUPIED →
    validSymbol (holdingTable i).symbol ∧
    findHoldingSlot holdingTable (holdingTable i).symbol = (some i, true)

/-- An operation that is not a buy of `symbol`: a catalog insert, a sell, or a
buy of a symbol that normalises to something else. -/
def Op.leavesUnbought (symbol : CStr) : Op → Prop
  | Op.buy symbolRaw _ _ _ _ => normalizeSymbol symbolRaw ≠ symbol
  | _ => True

/-- What the history holds after one more record is added to `records`: the
oldest record is dropped when `MAX_TRANSACTIONS` are there already. -/
def recordsAfterAdd (records : List TransactionEntry) (entry : TransactionEntry) :
    List TransactionEntry :=
  (if records.length ≥ MAX_TRANSACTIONS then (records.drop 1).take (MAX_TRANSACTIONS - 1)
   else records) ++ [entry]

/-! ## Sequences of additions -/

/-- The records appended one after the other with `addTransaction`. -/
def addRecords (s : State) (records : List TransactionEntry) : State :=
  records.foldl
    (fun st r => addTransaction st r.symbol r.quantity r.pricePerShare r.date r.type) s

/-! ## Prefix search -/

/-- The `for` loop of `startsWithIgnoreCase`; the first argument counts the
iterations that remain, `i` is the loop variable.  A read past the end of a
string would see the terminating NUL. -/
def startsWithLoop (text pfx : CStr) : Nat → Nat → Bool
  | 0, _ => true
  | n + 1, i =>
    if tolower (text.getD i 0) ≠ tolower (pfx.getD i 0) then false
    else startsWithLoop text pfx n (i + 1)

/-- `startsWithIgnoreCase`; the second parameter is the one the source calls
`prefix`. -/
def startsWithIgnoreCase (text pfx : CStr) : Bool :=
  if pfx.length > text.length then false else startsWithLoop text pfx pfx.length 0

/-- What `searchMarketStocksInteractive` prints: the result of the exact
search, the lines (symbol, sector, price) of the prefix search (with none, the
"No stocks found" message), or "Invalid choice.". -/
inductive SearchOutput where
  | exactFound (price : ℚ) (sector : CStr)
  | exactNotFound
  | prefixLines (lines : List (CStr × CStr × ℚ))
  | invalidChoice
deriving DecidableEq

/-- The `for` loop of the prefix search of `searchMarketStocksInteractive`. -/
def prefixSearchLoop (marketTable : MarketTable) (input : CStr) :
    Nat → Nat → List (CStr × CStr × ℚ)
  | 0, _ => []
  | n + 1, i =>
    if (marketTable i).status = OCCUPIED ∧
        startsWithIgnoreCase (marketTable i).symbol input = true then
      ((marketTable i).symbol, (marketTable i).sector, (marketTable i).price) ::
        prefixSearchLoop marketTable input n (i + 1)
    else prefixSearchLoop marketTable input n (i + 1)

/-- `searchMarketStocksInteractive`, on the menu choice and the token read. -/
def searchMarketStocksInteractive (marketTable : MarketTable) (choice : Int) (input : CStr) :
    SearchOutput :=
  if choice = 1 then
    match searchMarketStockExact marketTable input with
    | some (price, sector) => SearchOutput.exactFound price sector
    | none => SearchOutput.exactNotFound
  else if choice = 2 then
    SearchOutput.prefixLines (prefixSearchLoop marketTable input TABLE_SIZE 0)
  else SearchOutput.invalidChoice

/-! ## The catalog invariant -/

/-- Every Occupied slot of the market table holds an upper-case symbol and is
the slot `findMarketSlot` finds for that symbol. -/
def MarketInv (marketTable : MarketTable) : Prop :=
  ∀ i, (marketTable i).status = OCCUPIED →
    toUpperStr (marketTable i).symbol = (marketTable i).symbol ∧
    findMarketSlot marketTable (marketTable i).symbol = (some i, true)

/-! ## Runs within the `int` range -/

/-- The operation does not take a held quantity past `INT_MAX`: for a buy of
a symbol that is held, the old quantity plus the bought one fits an `int`. -/
def Op.inRange (s : State) : Op → Prop
  | Op.buy symbolRaw qty _ _ _ =>
    ∀ slot, findHoldingSlot s.holdingTable (normalizeSymbol symbolRaw) = (some slot, true) →
      (s.holdingTable slot).quantity + qty ≤ INT_MAX
  | _ => True

/-- The states reached from `initState` through catalog inserts, buys and
sells none of which takes a held quantity past `INT_MAX`. -/
inductive ReachableInRange : State → Prop where
  | init : ReachableInRange initState
  | step (s : State) (op : Op) : ReachableInRange s → op.inRange s →
      ReachableInRange (step s op)


/-! ## Holdings within the catalog -/

/-- The symbol of every Occupied holding is the symbol of an Occupied slot of
the market table. -/
def HeldInCatalog (marketTable : MarketTable) (holdingTable : HoldingTable) : Prop :=
  ∀ i, (holdingTable i).status = OCCUPIED →
    ∃ j, j < TABLE_SIZE ∧ (marketTable j).status = OCCUPIED ∧
      (marketTable j).symbol = (holdingTable i).symbol

/-! ## Storing holdings, table by table -/

/-- The values `buyStockInteractive` has in hand when it turns to the holdings
table: the normalised symbol, the sector the catalog gave, the quantity, the
price and the date string. -/
structure Purchase where
  symbol : CStr
  sector : CStr
  qty : Int
  buyPrice : ℚ
  dateStr : CStr

/-- The holdings-table part of `buyStockInteractive`: find the slot, fail with
"Holdings table is full" when there is none, else update the holding found or
write a new Occupied one. -/
def storeHolding (holdingTable : HoldingTable) (p : Purchase) : Option HoldingTable :=
  match findHoldingSlot holdingTable p.symbol with
  | (none, _) => none
  | (some slot, found) =>
    if found then
      let oldQty := (holdingTable slot).quantity
      let oldAvg := (holdingTable slot).avgBuyPrice
      let newQty := wrapInt32 (oldQty + p.qty)
      let newAvg := ((oldAvg * oldQty) + (p.buyPrice * p.qty)) / newQty
      some (setCell holdingTable slot
        { (holdingTable slot) with
          quantity := newQty
          avgBuyPrice := newAvg
          lastBuyDate := strncpyBuf MAX_DATE_LEN p.dateStr })
    else
      some (setCell holdingTable slot
        { symbol := p.symbol
          sector := p.sector
          quantity := p.qty
          avgBuyPrice := p.buyPrice
          lastBuyDate := strncpyBuf MAX_DATE_LEN p.dateStr
          status := OCCUPIED })

/-- One `storeHolding` after the other; `none` as soon as one of them fails. -/
def storeHoldings (holdingTable : HoldingTable) : List Purchase → Option HoldingTable
  | [] => some holdingTable
  | p :: ps =>
    match storeHolding holdingTable p with
    | none => none
    | some t => storeHoldings t ps

/-- The number of Occupied slots of a holdings table. -/
def occupiedCount (holdingTable : HoldingTable) : Nat :=
  ((Finset.range TABLE_SIZE).filter (fun k => (holdingTable k).status = OCCUPIED)).card

/-! ## Portfolio statistics -/

/-- The local variables of `showPortfolioStatistics`. -/
structure StatsAcc where
  count : Nat
  totalInvestment : ℚ
  totalCurrentValue : ℚ
  bestProfit : ℚ
  worstProfit : ℚ
  bestStock : CStr
  worstStock : CStr

/-- The initial values of the local variables: `bestProfit = -1e9`,
`worstProfit = 1e9`, both names empty. -/
def statsInit : StatsAcc :=
  { count := 0, totalInvestment := 0, totalCurrentValue := 0, bestProfit := -1000000000,
    worstProfit := 1000000000, bestStock := [], worstStock := [] }

/-- The body of the loop of `showPortfolioStatistics` for slot `i`. -/
def statsBody (marketTable : MarketTable) (holdingTable : HoldingTable) (acc : StatsAcc)
    (i : Nat) : StatsAcc :=
  if (holdingTable i).status = OCCUPIED then
    let investment := (holdingTable i).avgBuyPrice * (holdingTable i).quantity
    let acc1 : StatsAcc :=
      { acc with count := acc.count + 1, totalInvestment := acc.totalInvestment + investment }
    match searchMarketStockExact marketTable (holdingTable i).symbol with
    | some (currentPrice, _) =>
      let currentValue := currentPrice * (holdingTable i).quantity
      let profit := currentValue - investment
      let acc2 : StatsAcc :=
        { acc1 with totalCurrentValue := acc1.totalCurrentValue + currentValue }
      let acc3 : StatsAcc :=
        if profit > acc2.bestProfit then
          { acc2 with bestProfit := profit, bestStock := (holdingTable i).symbol }
        else acc2
      if profit < acc3.worstProfit then
        { acc3 with worstProfit := profit, worstStock := (holdingTable i).symbol }
      else acc3
    | none => acc1
  else acc

/-- The `for` loop of `showPortfolioStatistics`; the first argument counts the
iterations that remain, `i` is the loop variable. -/
def statsLoop (marketTable : MarketTable) (holdingTable : HoldingTable) :
    Nat → Nat → StatsAcc → StatsAcc
  | 0, _, acc => acc
  | n + 1, i, acc =>
    statsLoop marketTable holdingTable n (i + 1) (statsBody marketTable holdingTable acc i)

/-- What `showPortfolioStatistics` prints: the number of holdings, the total
investment, the current value, the net profit or loss, the ROI figure (a
percentage, printed only when the total investment is > 0) and the best and
worst performing symbol with its profit (printed only when there is a
holding). -/
structure StatsReport where
  count : Nat
  totalInvestment : ℚ
  currentValue : ℚ
  netProfit : ℚ
  roiPercent : Option ℚ
  best : Option (CStr × ℚ)
  worst : Option (CStr × ℚ)
deriving DecidableEq

/-- `showPortfolioStatistics`. -/
def showPortfolioStatistics (s : State) : StatsReport :=
  let acc := statsLoop s.marketTable s.holdingTable TABLE_SIZE 0 statsInit
  { count := acc.count
    totalInvestment := acc.totalInvestment
    currentValue := acc.totalCurrentValue
    netProfit := acc.totalCurrentValue - acc.totalInvestment
    roiPercent :=
      if acc.totalInvestment > 0 then
        some (((acc.totalCurrentValue - acc.totalInvestment) / acc.totalInvestment) * 100)
      else none
    best := if acc.count > 0 then some (acc.bestStock, acc.bestProfit) else none
    worst := if acc.count > 0 then some (acc.worstStock, acc.worstProfit) else none }

/-- The signed profit of the holding in slot `k`, as the statistics compute
it: current catalog price times quantity minus average cost times quantity;
`none` when the slot is not Occupied or the catalog has no price for it. -/
def profitOf (s : State) (k : Nat) : Option ℚ :=
  if (s.holdingTable k).status = OCCUPIED then
    match searchMarketStockExact s.marketTable (s.holdingTable k).symbol with
    | some (currentPrice, _) =>
      some (currentPrice * (s.holdingTable k).quantity -
        (s.holdingTable k).avgBuyPrice * (s.holdingTable k).quantity)
    | none => none
  else none

/-- The Occupied slots of the holdings table. -/
def occupiedSlots (holdingTable : HoldingTable) : Finset Nat :=
  (Finset.range TABLE_SIZE).filter (fun k => (holdingTable k).status = OCCUPIED)

/-- The symbol "A"; its hash is 65. -/
def symA : CStr := [65]

/-- The symbol "a". -/
def symLowerA : CStr := [97]

/-- The symbol "B"; its hash is 66. -/
def symB : CStr := [66]

/-- An Occupied holding of one share of `symbol`. -/
def holdingOf (symbol : CStr) : HoldingEntry :=
  { symbol := symbol, sector := [], quantity := 1, avgBuyPrice := 1, lastBuyDate := [],
    status := OCCUPIED }

/-- A tombstone of the holdings table. -/
def holdingTombstone : HoldingEntry :=
  { symbol := symB, sector := [], quantity := 0, avgBuyPrice := 1, lastBuyDate := [],
    status := DELETED }

/-- An Occupied catalog entry for `symbol`. -/
def marketOf (symbol : CStr) : MarketEntry :=
  { symbol := symbol, sector := [], price := 1, status := OCCUPIED }

/-- A tombstone of the market table. -/
def marketTombstone : MarketEntry :=
  { symbol := symB, sector := [], price := 1, status := DELETED }

/-- Holdings with "A" stored in slots 65 and 66, everything else Empty. -/
def twiceHoldings : HoldingTable :=
  setCell (setCell initHoldingTable 65 (holdingOf symA)) 66 (holdingOf symA)

/-- Catalog with "A" stored in slots 65 and 66, everything else Empty. -/
def twiceMarket : MarketTable :=
  setCell (setCell initMarketTable 65 (marketOf symA)) 66 (marketOf symA)

/-- Holdings with tombstones in slots 65 and 66 and "a" in slot 67. -/
def tombstonedHoldings : HoldingTable :=
  setCell (setCell (setCell initHoldingTable 65 holdingTombstone) 66 holdingTombstone) 67
    (holdingOf symLowerA)

/-- Catalog with tombstones in slots 65 and 66 and "a" in slot 67. -/
def tombstonedMarket : MarketTable :=
  setCell (setCell (setCell initMarketTable 65 marketTombstone) 66 marketTombstone) 67
    (marketOf symLowerA)

/-- Holdings with "B" in slot 65, tombstones in slots 66 and 67, slot 68 Empty. -/
def reuseHoldings : HoldingTable :=
  setCell (setCell (setCell initHoldingTable 65 (holdingOf symB)) 66 holdingTombstone) 67
    holdingTombstone

/-- Catalog with "B" in slot 65, tombstones in slots 66 and 67, slot 68 Empty. -/
def reuseMarket : MarketTable :=
  setCell (setCell (setCell initMarketTable 65 (marketOf symB)) 66 marketTombstone) 67
    marketTombstone

/-- The symbol "AAPL"; its hash is 20. -/
def symAAPL : CStr := [65, 65, 80, 76]

/-- The symbol "aapl". -/
def symLowerAAPL : CStr := [97, 97, 112, 108]

/-- The sector "TECH". -/
def sectorTECH : CStr := [84, 69, 67, 72]

/-- The date token "2025-11-27_14:05". -/
def dateToken : CStr := [50, 48, 50, 53, 45, 49, 49, 45, 50, 55, 95, 49, 52, 58, 48, 53]

/-- The catalog holds AAPL (TECH) at 150; nothing is held. -/
def stateCatalog : State :=
  step initState (Op.insert symLowerAAPL 0 (sectorTECH ++ [10]) 150)

/-- After buying 10 AAPL at 150. -/
def stateBought10 : State :=
  step stateCatalog (Op.buy symLowerAAPL 10 150 dateToken dateToken)

/-- After buying 10 more AAPL at 170. -/
def stateBought20 : State :=
  step stateBought10 (Op.buy symAAPL 10 170 nowKeyword dateToken)

/-- After the catalog price of AAPL is updated to 200. -/
def statePrice200 : State :=
  step stateBought20 (Op.insert symAAPL 121 (sectorTECH ++ [10]) 200)

/-- Operations after a full sale of AAPL, none of them a buy of AAPL: a sell
of AAPL, a catalog insert of "B" and a buy of "B". -/
def laterOps : List Op :=
  [Op.sell symAAPL 1 dateToken, Op.insert symB 0 sectorTECH 5,
   Op.buy symB 3 5 dateToken dateToken]

/-- One share of AAPL is held (slot 20) and the catalog is empty, as after
loading a holdings file without a market file. -/
def stateUnpriced : State :=
  { initState with holdingTable := setCell initHoldingTable 20 (holdingOf symAAPL) }

/-- The catalog holds AAPL and every slot of the holdings table holds "B", as
a holdings file of 101 lines can leave it. -/
def stateHoldingsFull : State :=
  { stateCatalog with holdingTable := fun _ => holdingOf symB }

/-- The Buy record of `n` shares of AAPL at price 1. -/
def recordOf (n : Nat) : TransactionEntry :=
  { symbol := symAAPL, quantity := n, pricePerShare := 1, date := dateToken, type := 0 }

/-- The token "AA". -/
def tokenAA : CStr := [65, 65]

/-- After AAPL is catalogued and 1073741824 shares of it are bought twice. -/
def stateOverflow : State :=
  step (step stateCatalog (Op.buy symAAPL 1073741824 150 dateToken dateToken))
    (Op.buy symAAPL 1073741824 150 dateToken dateToken)

/-- The purchase of one share of the two-character symbol number `n`:
"A0", "A1", ..., "K1". -/
def purchaseOf (n : Nat) : Purchase :=
  { symbol := [65 + n / 10, 48 + n % 10], sector := sectorTECH, qty := 1, buyPrice := 1,
    dateStr := dateToken }

/-- The purchases of 102 different symbols. -/
def purchases102 : List Purchase := (List.range (TABLE_SIZE + 1)).map purchaseOf

/-- The catalog holds "B" and "A" at 10, and one share of each was bought at
5: "A" is held in slot 65, "B" in slot 66, both with profit 5. -/
def stateTie : State :=
  run initState
    [Op.insert symB 0 sectorTECH 10, Op.insert symA 0 sectorTECH 10,
     Op.buy symB 1 5 dateToken dateToken, Op.buy symA 1 5 dateToken dateToken]

/-- The state `stateTie` after the price of "B" went up to 12 and two shares
of AAPL were bought at 150 and priced at 140: profits 5, 7 and -20. -/
def stateThree : State :=
  run stateTie
    [Op.insert symB 121 sectorTECH 12, Op.insert symAAPL 0 sectorTECH 150,
     Op.buy symAAPL 2 150 dateToken dateToken, Op.insert symAAPL 121 sectorTECH 140]

/-- After AAPL is catalogued, 2000000000 shares of it are bought at 1 and its
catalog price is updated to 2/5: the profit is -1200000000. -/
def stateBigLoss : State :=
  run stateCatalog
    [Op.buy symAAPL 2000000000 1 dateToken dateToken,
     Op.insert symAAPL 121 sectorTECH (2 / 5)]

/-! ## The probe walk -/

theorem probeSlot_lt (index i : Nat) : probeSlot index i < TABLE_SIZE :=
  Nat.mod_lt _ (by decide)

theorem probeSlot_inj {index j k : Nat} (hj : j < TABLE_SIZE) (hk : k < TABLE_SIZE)
    (h : probeSlot index j = probeSlot index k) : j = k := by
  simp only [probeSlot, TABLE_SIZE] at h hj hk
  omega

theorem probeSlot_surj (index : Nat) {k : Nat} (hk : k < TABLE_SIZE) :
    ∃ j, j < TABLE_SIZE ∧ probeSlot index j = k := by
  refine ⟨(k + TABLE_SIZE - index % TABLE_SIZE) % TABLE_SIZE, Nat.mod_lt _ (by decide), ?_⟩
  simp only [probeSlot, TABLE_SIZE] at hk ⊢
  omega

theorem findHoldingSlotLoop_eq_probeLoop (t : HoldingTable) (key : CStr) (index : Nat) :
    ∀ (n i : Nat) (fd : Option Nat),
      findHoldingSlotLoop t key index n i fd =
        probeLoop (fun k => (t k).status) (fun k => equalsIgnoreCase (t k).symbol key) index n i fd
  | 0, _, _ => rfl
  | n + 1, i, fd => by
    have ih := findHoldingSlotLoop_eq_probeLoop t key index n (i + 1)
    simp only [findHoldingSlotLoop, probeLoop]
    cases hs : (t (probeSlot index i)).status <;> cases fd <;> simp [ih]

theorem findMarketSlotLoop_eq_probeLoop (t : MarketTable) (key : CStr) (index : Nat) :
    ∀ (n i : Nat) (fd : Option Nat),
      findMarketSlotLoop t key index n i fd =
        probeLoop (fun k => (t k).status) (fun k => equalsIgnoreCase (t k).symbol key) index n i fd
  | 0, _, _ => rfl
  | n + 1, i, fd => by
    have ih := findMarketSlotLoop_eq_probeLoop t key index n (i + 1)
    simp only [findMarketSlotLoop, probeLoop]
    cases hs : (t (probeSlot index i)).status <;> cases fd <;> simp [ih]

theorem probeLoop_hit (st : Nat → EntryStatus) (mt : Nat → Bool) (index : Nat) :
    ∀ (n i : Nat) (fd : Option Nat) (j : Nat), i ≤ j → j < i + n →
      st (probeSlot index j) = OCCUPIED → mt (probeSlot index j) = true →
      (∀ k, i ≤ k → k < j → ¬ StopsAt st mt index k) →
      probeLoop st mt index n i fd = (some (probeSlot index j), true) := by
  intro n
  induction n with
  | zero => intro i fd j h1 h2; omega
  | succ n ih =>
    intro i fd j hij hjn hocc hm hbefore
    by_cases hEq : i = j
    · subst hEq
      simp [probeLoop, hocc, hm]
    · have hi := hbefore i (Nat.le_refl i) (by omega)
      have hrec : ∀ fd1, probeLoop st mt index n (i + 1) fd1 = (some (probeSlot index j), true) :=
        fun fd1 => ih (i + 1) fd1 j (by omega) (by omega) hocc hm
          (fun k hk1 hk2 => hbefore k (by omega) hk2)
      simp only [StopsAt, not_or, not_and] at hi
      cases hs : st (probeSlot index i) with
      | EMPTY => exact absurd hs hi.1
      | DELETED => simp [probeLoop, hs, hrec]
      | OCCUPIED =>
        have hmf : mt (probeSlot index i) ≠ true := hi.2 hs
        simp [probeLoop, hs, hmf, hrec]

theorem probeLoop_empty (st : Nat → EntryStatus) (mt : Nat → Bool) (index : Nat) :
    ∀ (n i : Nat) (fd : Option Nat) (e : Nat), i ≤ e → e < i + n →
      st (probeSlot index e) = EMPTY →
      (∀ k, i ≤ k → k < e → ¬ StopsAt st mt index k) →
      ∃ r, probeLoop st mt index n i fd = (some r, false) ∧
        (∀ d, fd = some d → r = d) ∧
        (fd = none →
          (∀ d, i ≤ d → d < e → st (probeSlot index d) = DELETED →
            (∀ k, i ≤ k → k < d → st (probeSlot index k) ≠ DELETED) → r = probeSlot index d) ∧
          ((∀ k, i ≤ k → k < e → st (probeSlot index k) ≠ DELETED) → r = probeSlot index e)) := by
  intro n
  induction n with
  | zero => intro i fd e h1 h2; omega
  | succ n ih =>
    intro i fd e hie hen hemp hbefore
    by_cases hEq : i = e
    · subst hEq
      refine ⟨fd.getD (probeSlot index i), by simp [probeLoop, hemp], ?_, ?_⟩
      · intro d hd; simp [hd]
      · intro hfd
        subst hfd
        refine ⟨fun d h1 h2 => by omega, fun _ => rfl⟩
    · have hi := hbefore i (Nat.le_refl i) (by omega)
      simp only [StopsAt, not_or, not_and] at hi
      cases hs : st (probeSlot index i) with
      | EMPTY => exact absurd hs hi.1
      | DELETED =>
        obtain ⟨r, hr, hsome, -⟩ := ih (i + 1) (some (fd.getD (probeSlot index i))) e (by omega)
          (by omega) hemp (fun k hk1 hk2 => hbefore k (by omega) hk2)
        have hrv : r = fd.getD (probeSlot index i) := hsome _ rfl
        refine ⟨r, by simp [probeLoop, hs, hr], ?_, ?_⟩
        · intro d hd; simp [hrv, hd]
        · intro hfd
          subst hfd
          refine ⟨?_, ?_⟩
          · intro d hd1 hd2 hdel hfirst
            have : d = i := by
              by_contra hne
              exact hfirst i (Nat.le_refl i) (by omega) hs
            subst this
            simpa using hrv
          · intro hnone
            exact absurd hs (hnone i (Nat.le_refl i) (by omega))
      | OCCUPIED =>
        have hmf : mt (probeSlot index i) ≠ true := hi.2 hs
        obtain ⟨r, hr, hsome, hnone⟩ := ih (i + 1) fd e (by omega) (by omega) hemp
          (fun k hk1 hk2 => hbefore k (by omega) hk2)
        refine ⟨r, by simp [probeLoop, hs, hmf, hr], hsome, ?_⟩
        intro hfd
        obtain ⟨h1, h2⟩ := hnone hfd
        refine ⟨?_, ?_⟩
        · intro d hd1 hd2 hdel hfirst
          have hne : d ≠ i := by
            intro hdi
            rw [hdi, hs] at hdel
            exact absurd hdel (by decide)
          exact h1 d (by omega) hd2 hdel (fun k hk1 hk2 => hfirst k (by omega) hk2)
        · intro hnd
          exact h2 (fun k hk1 hk2 => hnd k (by omega) hk2)

theorem probeLoop_exhaust (st : Nat → EntryStatus) (mt : Nat → Bool) (index : Nat) :
    ∀ (n i : Nat) (fd : Option Nat),
      (∀ k, i ≤ k → k < i + n → ¬ StopsAt st mt index k) →
      ∃ r, probeLoop st mt index n i fd = (r, false) ∧
        (∀ d, fd = some d → r = some d) ∧
        (fd = none →
          (∀ d, i ≤ d → d < i + n → st (probeSlot index d) = DELETED →
            (∀ k, i ≤ k → k < d → st (probeSlot index k) ≠ DELETED) →
            r = some (probeSlot index d)) ∧
          ((∀ k, i ≤ k → k < i + n → st (probeSlot index k) ≠ DELETED) → r = none)) := by
  intro n
  induction n with
  | zero =>
    intro i fd _
    refine ⟨fd, rfl, fun d hd => hd, fun hfd => ⟨fun d h1 h2 => by omega, fun _ => hfd⟩⟩
  | succ n ih =>
    intro i fd hall
    have hi := hall i (Nat.le_refl i) (by omega)
    simp only [StopsAt, not_or, not_and] at hi
    cases hs : st (probeSlot index i) with
    | EMPTY => exact absurd hs hi.1
    | DELETED =>
      obtain ⟨r, hr, hsome, -⟩ := ih (i + 1) (some (fd.getD (probeSlot index i)))
        (fun k hk1 hk2 => hall k (by omega) (by omega))
      have hrv : r = some (fd.getD (probeSlot index i)) := hsome _ rfl
      refine ⟨r, by simp [probeLoop, hs, hr], ?_, ?_⟩
      · intro d hd; simp [hrv, hd]
      · intro hfd
        subst hfd
        refine ⟨?_, ?_⟩
        · intro d hd1 hd2 hdel hfirst
          have : d = i := by
            by_contra hne
            exact hfirst i (Nat.le_refl i) (by omega) hs
          subst this
          simpa using hrv
        · intro hnone
          exact absurd hs (hnone i (Nat.le_refl i) (by omega))
    | OCCUPIED =>
      have hmf : mt (probeSlot index i) ≠ true := hi.2 hs
      obtain ⟨r, hr, hsome, hnone⟩ := ih (i + 1) fd
        (fun k hk1 hk2 => hall k (by omega) (by omega))
      refine ⟨r, by simp [probeLoop, hs, hmf, hr], hsome, ?_⟩
      intro hfd
      obtain ⟨h1, h2⟩ := hnone hfd
      refine ⟨?_, ?_⟩
      · intro d hd1 hd2 hdel hfirst
        have hne : d ≠ i := by
          intro hdi
          rw [hdi, hs] at hdel
          exact absurd hdel (by decide)
        exact h1 d (by omega) (by omega) hdel (fun k hk1 hk2 => hfirst k (by omega) hk2)
      · intro hnd
        exact h2 (fun k hk1 hk2 => hnd k (by omega) (by omega))

/-- The outcome of a whole walk (`TABLE_SIZE` probes from `index`, no
tombstone remembered yet), by what the walk meets. -/
theorem probeLoop_cases (st : Nat → EntryStatus) (mt : Nat → Bool) (index : Nat) :
    (∃ j, j < TABLE_SIZE ∧ st (probeSlot index j) = OCCUPIED ∧ mt (probeSlot index j) = true ∧
        (∀ k, k < j → ¬ StopsAt st mt index k) ∧
        probeLoop st mt index TABLE_SIZE 0 none = (some (probeSlot index j), true)) ∨
    (∃ e d, e < TABLE_SIZE ∧ d < e ∧ st (probeSlot index e) = EMPTY ∧
        (∀ k, k < e → ¬ StopsAt st mt index k) ∧ st (probeSlot index d) = DELETED ∧
        (∀ k, k < d → st (probeSlot index k) ≠ DELETED) ∧
        probeLoop st mt index TABLE_SIZE 0 none = (some (probeSlot index d), false)) ∨
    (∃ e, e < TABLE_SIZE ∧ st (probeSlot index e) = EMPTY ∧
        (∀ k, k < e → ¬ StopsAt st mt index k) ∧
        (∀ k, k < e → st (probeSlot index k) ≠ DELETED) ∧
        probeLoop st mt index TABLE_SIZE 0 none = (some (probeSlot index e), false)) ∨
    (∃ d, d < TABLE_SIZE ∧ (∀ k, k < TABLE_SIZE → ¬ StopsAt st mt index k) ∧
        st (probeSlot index d) = DELETED ∧
        (∀ k, k < d → st (probeSlot index k) ≠ DELETED) ∧
        probeLoop st mt index TABLE_SIZE 0 none = (some (probeSlot index d), false)) ∨
    ((∀ k, k < TABLE_SIZE → ¬ StopsAt st mt index k) ∧
        (∀ k, k < TABLE_SIZE → st (probeSlot index k) ≠ DELETED) ∧
        probeLoop st mt index TABLE_SIZE 0 none = (none, false)) := by
  by_cases hstop : ∃ k, k < TABLE_SIZE ∧ StopsAt st mt index k
  · -- the first position that stops the walk
    have hlt := (Nat.find_spec hstop).1
    have hst := (Nat.find_spec hstop).2
    have hmin : ∀ k, k < Nat.find hstop → ¬ StopsAt st mt index k := fun k hk hs =>
      Nat.find_min hstop hk ⟨by omega, hs⟩
    generalize Nat.find hstop = e at hlt hst hmin
    rcases hst with hemp | ⟨hocc, hm⟩
    · obtain ⟨r, hr, -, hnone⟩ := probeLoop_empty st mt index TABLE_SIZE 0 none e (Nat.zero_le _)
        (by omega) hemp (fun k _ hk => hmin k hk)
      obtain ⟨h1, h2⟩ := hnone rfl
      by_cases hdel : ∃ d, d < e ∧ st (probeSlot index d) = DELETED
      · have hdlt := (Nat.find_spec hdel).1
        have hdst := (Nat.find_spec hdel).2
        have hdmin : ∀ k, k < Nat.find hdel → st (probeSlot index k) ≠ DELETED := fun k hk hs =>
          Nat.find_min hdel hk ⟨by omega, hs⟩
        generalize Nat.find hdel = d at hdlt hdst hdmin
        right; left
        refine ⟨e, d, hlt, hdlt, hemp, hmin, hdst, hdmin, ?_⟩
        rw [hr, h1 d (Nat.zero_le _) hdlt hdst (fun k _ hk => hdmin k hk)]
      · right; right; left
        have hnd : ∀ k, k < e → st (probeSlot index k) ≠ DELETED := fun k hk hs =>
          hdel ⟨k, hk, hs⟩
        refine ⟨e, hlt, hemp, hmin, hnd, ?_⟩
        rw [hr, h2 (fun k _ hk => hnd k hk)]
    · left
      exact ⟨e, hlt, hocc, hm, hmin, probeLoop_hit st mt index TABLE_SIZE 0 none e (Nat.zero_le _)
        (by omega) hocc hm (fun k _ hk => hmin k hk)⟩
  · have hall : ∀ k, k < TABLE_SIZE → ¬ StopsAt st mt index k := fun k hk hs => hstop ⟨k, hk, hs⟩
    obtain ⟨r, hr, -, hnone⟩ := probeLoop_exhaust st mt index TABLE_SIZE 0 none
      (fun k _ hk => hall k (by omega))
    obtain ⟨h1, h2⟩ := hnone rfl
    by_cases hdel : ∃ d, d < TABLE_SIZE ∧ st (probeSlot index d) = DELETED
    · have hdlt := (Nat.find_spec hdel).1
      have hdst := (Nat.find_spec hdel).2
      have hdmin : ∀ k, k < Nat.find hdel → st (probeSlot index k) ≠ DELETED := fun k hk hs =>
        Nat.find_min hdel hk ⟨by omega, hs⟩
      generalize Nat.find hdel = d at hdlt hdst hdmin
      right; right; right; left
      refine ⟨d, hdlt, hall, hdst, hdmin, ?_⟩
      rw [hr, h1 d (Nat.zero_le _) (by omega) hdst (fun k _ hk => hdmin k hk)]
    · right; right; right; right
      have hnd : ∀ k, k < TABLE_SIZE → st (probeSlot index k) ≠ DELETED := fun k hk hs =>
        hdel ⟨k, hk, hs⟩
      refine ⟨hall, hnd, ?_⟩
      rw [hr, h2 (fun k _ hk => hnd k (by omega))]

theorem findHoldingSlot_eq_probeLoop (t : HoldingTable) (key : CStr) :
    findHoldingSlot t key =
      probeLoop (fun k => (t k).status) (fun k => equalsIgnoreCase (t k).symbol key) (hash key)
        TABLE_SIZE 0 none :=
  findHoldingSlotLoop_eq_probeLoop t key (hash key) TABLE_SIZE 0 none

theorem findMarketSlot_eq_probeLoop (t : MarketTable) (key : CStr) :
    findMarketSlot t key =
      probeLoop (fun k => (t k).status) (fun k => equalsIgnoreCase (t k).symbol key) (hash key)
        TABLE_SIZE 0 none :=
  findMarketSlotLoop_eq_probeLoop t key (hash key) TABLE_SIZE 0 none

/-- A walk returns the first Occupied matching slot it meets before any Empty
slot, whatever tombstones precede it. -/
theorem probeLoop_first_match (st : Nat → EntryStatus) (mt : Nat → Bool) (index j : Nat)
    (hj : j < TABLE_SIZE)
    (hhit : st (probeSlot index j) = OCCUPIED ∧ mt (probeSlot index j) = true)
    (hne : ∀ i, i < j → st (probeSlot index i) ≠ EMPTY)
    (hfirst : ∀ i, i < j → ¬ (st (probeSlot index i) = OCCUPIED ∧ mt (probeSlot index i) = true)) :
    probeLoop st mt index TABLE_SIZE 0 none = (some (probeSlot index j), true) :=
  probeLoop_hit st mt index TABLE_SIZE 0 none j (Nat.zero_le _) (by omega) hhit.1 hhit.2
    (fun k _ hk hs => hs.elim (hne k hk) (hfirst k hk))

/-- A walk that meets an Empty slot before any match reports not found and
returns the first tombstone met, or else the Empty slot. -/
theorem probeLoop_insertion_point (st : Nat → EntryStatus) (mt : Nat → Bool) (index e : Nat)
    (he : e < TABLE_SIZE) (hemp : st (probeSlot index e) = EMPTY)
    (hne : ∀ i, i < e → st (probeSlot index i) ≠ EMPTY)
    (hnm : ∀ i, i < e → ¬ (st (probeSlot index i) = OCCUPIED ∧ mt (probeSlot index i) = true)) :
    (probeLoop st mt index TABLE_SIZE 0 none).2 = false ∧
    (∀ d, d < e → st (probeSlot index d) = DELETED →
      (∀ i, i < d → st (probeSlot index i) ≠ DELETED) →
      (probeLoop st mt index TABLE_SIZE 0 none).1 = some (probeSlot index d)) ∧
    ((∀ i, i < e → st (probeSlot index i) ≠ DELETED) →
      (probeLoop st mt index TABLE_SIZE 0 none).1 = some (probeSlot index e)) := by
  obtain ⟨r, hr, -, hnone⟩ := probeLoop_empty st mt index TABLE_SIZE 0 none e (Nat.zero_le _)
    (by omega) hemp (fun k _ hk hs => hs.elim (hne k hk) (hnm k hk))
  obtain ⟨h1, h2⟩ := hnone rfl
  rw [hr]
  refine ⟨rfl, ?_, ?_⟩
  · intro d hd hdel hfirst
    simp [h1 d (Nat.zero_le _) hd hdel (fun k _ hk => hfirst k hk)]
  · intro hnd
    simp [h2 (fun k _ hk => hnd k hk)]

theorem probeLoop_full_iff (st : Nat → EntryStatus) (mt : Nat → Bool) (index : Nat) :
    ((slotCode (probeLoop st mt index TABLE_SIZE 0 none).1 = -1 ∧
        (probeLoop st mt index TABLE_SIZE 0 none).2 = false) ↔ TableFull st mt) ∧
    (¬ TableFull st mt →
      0 ≤ slotCode (probeLoop st mt index TABLE_SIZE 0 none).1 ∧
      slotCode (probeLoop st mt index TABLE_SIZE 0 none).1 < TABLE_SIZE) := by
  have key : ∀ k, k < TABLE_SIZE →
      ((0 : Int) ≤ slotCode (some (probeSlot index k)) ∧
        slotCode (some (probeSlot index k)) < TABLE_SIZE) ∧
      slotCode (some (probeSlot index k)) ≠ -1 := by
    intro k _
    have := probeSlot_lt index k
    simp only [slotCode]
    omega
  rcases probeLoop_cases st mt index with
    ⟨j, hj, hocc, hm, -, hr⟩ | ⟨e, d, he, hd, hemp, -, hdel, -, hr⟩ | ⟨e, he, hemp, -, -, hr⟩ |
    ⟨d, hd, -, hdel, -, hr⟩ | ⟨hns, hnd, hr⟩
  · have hnf : ¬ TableFull st mt := fun hf =>
      (hf _ (probeSlot_lt index j)).2.2 ⟨hocc, hm⟩
    rw [hr]
    exact ⟨⟨fun h => absurd h.1 (key j hj).2, fun h => absurd h hnf⟩, fun _ => (key j hj).1⟩
  · have hnf : ¬ TableFull st mt := fun hf => (hf _ (probeSlot_lt index e)).1 hemp
    rw [hr]
    exact ⟨⟨fun h => absurd h.1 (key d (by omega)).2, fun h => absurd h hnf⟩,
      fun _ => (key d (by omega)).1⟩
  · have hnf : ¬ TableFull st mt := fun hf => (hf _ (probeSlot_lt index e)).1 hemp
    rw [hr]
    exact ⟨⟨fun h => absurd h.1 (key e he).2, fun h => absurd h hnf⟩, fun _ => (key e he).1⟩
  · have hnf : ¬ TableFull st mt := fun hf => (hf _ (probeSlot_lt index d)).2.1 hdel
    rw [hr]
    exact ⟨⟨fun h => absurd h.1 (key d hd).2, fun h => absurd h hnf⟩, fun _ => (key d hd).1⟩
  · have hf : TableFull st mt := by
      intro k hk
      obtain ⟨j, hj, hjk⟩ := probeSlot_surj index hk
      have h1 := hns j hj
      have h2 := hnd j hj
      simp only [StopsAt, not_or] at h1
      rw [hjk] at h1 h2
      exact ⟨h1.1, h2, h1.2⟩
    rw [hr]
    exact ⟨⟨fun _ => hf, fun _ => ⟨rfl, rfl⟩⟩, fun h => absurd hf h⟩

/-! ## Slot resolution (`findHoldingSlot`, `findMarketSlot`) -/

/-- C1 (as amended): for every table state and key, an Occupied slot whose
symbol equals the key ignoring case, lying on the probe path from `hash key`
with no Empty slot and no other Occupied match before it, is the slot that
`findHoldingSlot` / `findMarketSlot` returns, with `found = 1`; Deleted slots
before it do not matter. -/
theorem findSlot_returns_first_match :
    (∀ (holdingTable : HoldingTable) (symbol : CStr) (j : Nat), j < TABLE_SIZE →
      holdingMatches holdingTable symbol (probeSlot (hash symbol) j) →
      (∀ i, i < j → (holdingTable (probeSlot (hash symbol) i)).status ≠ EMPTY) →
      (∀ i, i < j → ¬ holdingMatches holdingTable symbol (probeSlot (hash symbol) i)) →
      findHoldingSlot holdingTable symbol = (some (probeSlot (hash symbol) j), true)) ∧
    (∀ (marketTable : MarketTable) (symbol : CStr) (j : Nat), j < TABLE_SIZE →
      marketMatches marketTable symbol (probeSlot (hash symbol) j) →
      (∀ i, i < j → (marketTable (probeSlot (hash symbol) i)).status ≠ EMPTY) →
      (∀ i, i < j → ¬ marketMatches marketTable symbol (probeSlot (hash symbol) i)) →
      findMarketSlot marketTable symbol = (some (probeSlot (hash symbol) j), true)) := by
  constructor
  · intro t key j hj hhit hne hfirst
    rw [findHoldingSlot_eq_probeLoop]
    exact probeLoop_first_match _ _ _ j hj hhit hne hfirst
  · intro t key j hj hhit hne hfirst
    rw [findMarketSlot_eq_probeLoop]
    exact probeLoop_first_match _ _ _ j hj hhit hne hfirst

/-- Witness for C1: the key "A" hashes to slot 65; slots 65 and 66 hold
tombstones and slot 67 holds "a", which is returned as found. -/
theorem findSlot_returns_first_match_witness :
    findHoldingSlot tombstonedHoldings symA = (some 67, true) ∧
    findMarketSlot tombstonedMarket symA = (some 67, true) :=
  ⟨findSlot_returns_first_match.1 tombstonedHoldings symA 2 (by decide) (by decide) (by decide)
      (by decide),
   findSlot_returns_first_match.2 tombstonedMarket symA 2 (by decide) (by decide) (by decide)
      (by decide)⟩

/-- C1 as stated fails: with "A" stored in slots 65 and 66, slot 66 is an
Occupied match on the path of "A" before the first Empty slot, and the slot
returned is 65. -/
theorem findSlot_any_match_counterexample :
    ¬ (∀ (holdingTable : HoldingTable) (symbol : CStr) (j : Nat), j < TABLE_SIZE →
        holdingMatches holdingTable symbol (probeSlot (hash symbol) j) →
        (∀ i, i < j → (holdingTable (probeSlot (hash symbol) i)).status ≠ EMPTY) →
        findHoldingSlot holdingTable symbol = (some (probeSlot (hash symbol) j), true)) ∧
    ¬ (∀ (marketTable : MarketTable) (symbol : CStr) (j : Nat), j < TABLE_SIZE →
        marketMatches marketTable symbol (probeSlot (hash symbol) j) →
        (∀ i, i < j → (marketTable (probeSlot (hash symbol) i)).status ≠ EMPTY) →
        findMarketSlot marketTable symbol = (some (probeSlot (hash symbol) j), true)) := by
  constructor
  · intro h
    have h1 := h twiceHoldings symA 1 (by decide) (by decide) (by decide)
    exact absurd h1 (by decide)
  · intro h
    have h1 := h twiceMarket symA 1 (by decide) (by decide) (by decide)
    exact absurd h1 (by decide)

/-- C2: for every table state and key, when the probe path from `hash key`
reaches its first Empty slot (position `e`) without meeting an Occupied match,
`findHoldingSlot` / `findMarketSlot` reports `found = 0` and returns the first
Deleted slot met before it, or that Empty slot when no Deleted slot was met. -/
theorem findSlot_insertion_point :
    (∀ (holdingTable : HoldingTable) (symbol : CStr) (e : Nat), e < TABLE_SIZE →
      (holdingTable (probeSlot (hash symbol) e)).status = EMPTY →
      (∀ i, i < e → (holdingTable (probeSlot (hash symbol) i)).status ≠ EMPTY) →
      (∀ i, i < e → ¬ holdingMatches holdingTable symbol (probeSlot (hash symbol) i)) →
      (findHoldingSlot holdingTable symbol).2 = false ∧
      (∀ d, d < e → (holdingTable (probeSlot (hash symbol) d)).status = DELETED →
        (∀ i, i < d → (holdingTable (probeSlot (hash symbol) i)).status ≠ DELETED) →
        (findHoldingSlot holdingTable symbol).1 = some (probeSlot (hash symbol) d)) ∧
      ((∀ i, i < e → (holdingTable (probeSlot (hash symbol) i)).status ≠ DELETED) →
        (findHoldingSlot holdingTable symbol).1 = some (probeSlot (hash symbol) e))) ∧
    (∀ (marketTable : MarketTable) (symbol : CStr) (e : Nat), e < TABLE_SIZE →
      (marketTable (probeSlot (hash symbol) e)).status = EMPTY →
      (∀ i, i < e → (marketTable (probeSlot (hash symbol) i)).status ≠ EMPTY) →
      (∀ i, i < e → ¬ marketMatches marketTable symbol (probeSlot (hash symbol) i)) →
      (findMarketSlot marketTable symbol).2 = false ∧
      (∀ d, d < e → (marketTable (probeSlot (hash symbol) d)).status = DELETED →
        (∀ i, i < d → (marketTable (probeSlot (hash symbol) i)).status ≠ DELETED) →
        (findMarketSlot marketTable symbol).1 = some (probeSlot (hash symbol) d)) ∧
      ((∀ i, i < e → (marketTable (probeSlot (hash symbol) i)).status ≠ DELETED) →
        (findMarketSlot marketTable symbol).1 = some (probeSlot (hash symbol) e))) := by
  constructor
  · intro t key e he hemp hne hnm
    rw [findHoldingSlot_eq_probeLoop]
    exact probeLoop_insertion_point _ _ _ e he hemp hne hnm
  · intro t key e he hemp hne hnm
    rw [findMarketSlot_eq_probeLoop]
    exact probeLoop_insertion_point _ _ _ e he hemp hne hnm

/-- Witness for C2: on the path of "A" slot 65 holds "B", slots 66 and 67 are
tombstones and slot 68 is Empty: the result is slot 66, not found; in an
all-Empty table it is the Empty slot 65 itself. -/
theorem findSlot_insertion_point_witness :
    (findHoldingSlot reuseHoldings symA = (some 66, false) ∧
      findHoldingSlot initHoldingTable symA = (some 65, false)) ∧
    (findMarketSlot reuseMarket symA = (some 66, false) ∧
      findMarketSlot initMarketTable symA = (some 65, false)) := by
  have h1 := findSlot_insertion_point.1 reuseHoldings symA 3 (by decide) (by decide) (by decide)
    (by decide)
  have h2 := findSlot_insertion_point.1 initHoldingTable symA 0 (by decide) (by decide)
    (by decide) (by decide)
  have h3 := findSlot_insertion_point.2 reuseMarket symA 3 (by decide) (by decide) (by decide)
    (by decide)
  have h4 := findSlot_insertion_point.2 initMarketTable symA 0 (by decide) (by decide)
    (by decide) (by decide)
  refine ⟨⟨Prod.ext ?_ h1.1, Prod.ext ?_ h2.1⟩, ⟨Prod.ext ?_ h3.1, Prod.ext ?_ h4.1⟩⟩
  · exact h1.2.1 1 (by decide) (by decide) (by decide)
  · exact h2.2.2 (by decide)
  · exact h3.2.1 1 (by decide) (by decide) (by decide)
  · exact h4.2.2 (by decide)

/-- C3: `findHoldingSlot` / `findMarketSlot` returns the Full result
(`-1`, `found = 0`) exactly when no slot of the table is Empty, Deleted or an
Occupied match of the key; in every other case the slot returned is an index in
`0 .. TABLE_SIZE - 1`. -/
theorem findSlot_full_result :
    (∀ (holdingTable : HoldingTable) (symbol : CStr),
      ((slotCode (findHoldingSlot holdingTable symbol).1 = -1 ∧
          (findHoldingSlot holdingTable symbol).2 = false) ↔
        ∀ k, k < TABLE_SIZE → (holdingTable k).status ≠ EMPTY ∧
          (holdingTable k).status ≠ DELETED ∧ ¬ holdingMatches holdingTable symbol k) ∧
      (¬ (∀ k, k < TABLE_SIZE → (holdingTable k).status ≠ EMPTY ∧
          (holdingTable k).status ≠ DELETED ∧ ¬ holdingMatches holdingTable symbol k) →
        0 ≤ slotCode (findHoldingSlot holdingTable symbol).1 ∧
        slotCode (findHoldingSlot holdingTable symbol).1 < TABLE_SIZE)) ∧
    (∀ (marketTable : MarketTable) (symbol : CStr),
      ((slotCode (findMarketSlot marketTable symbol).1 = -1 ∧
          (findMarketSlot marketTable symbol).2 = false) ↔
        ∀ k, k < TABLE_SIZE → (marketTable k).status ≠ EMPTY ∧
          (marketTable k).status ≠ DELETED ∧ ¬ marketMatches marketTable symbol k) ∧
      (¬ (∀ k, k < TABLE_SIZE → (marketTable k).status ≠ EMPTY ∧
          (marketTable k).status ≠ DELETED ∧ ¬ marketMatches marketTable symbol k) →
        0 ≤ slotCode (findMarketSlot marketTable symbol).1 ∧
        slotCode (findMarketSlot marketTable symbol).1 < TABLE_SIZE)) := by
  constructor
  · intro t key
    rw [findHoldingSlot_eq_probeLoop]
    exact probeLoop_full_iff (fun k => (t k).status)
      (fun k => equalsIgnoreCase (t k).symbol key) (hash key)
  · intro t key
    rw [findMarketSlot_eq_probeLoop]
    exact probeLoop_full_iff (fun k => (t k).status)
      (fun k => equalsIgnoreCase (t k).symbol key) (hash key)

/-! ## Strings -/

theorem equalsIgnoreCase_refl : ∀ (a : CStr), equalsIgnoreCase a a = true
  | [] => rfl
  | c :: cs => by simp [equalsIgnoreCase, equalsIgnoreCase_refl cs]

theorem toupper_toupper (c : Nat) : toupper (toupper c) = toupper c := by
  unfold toupper
  split_ifs <;> omega

theorem toUpperStr_idem (s : CStr) : toUpperStr (toUpperStr s) = toUpperStr s := by
  simp [toUpperStr, toupper_toupper]

theorem strncpyBuf_of_short {n : Nat} {s : CStr} (h : s.length < n) : strncpyBuf n s = s := by
  unfold strncpyBuf
  exact List.take_of_length_le (by omega)

theorem validSymbol_normalize (raw : CStr) :
    validSymbol (toUpperStr (strncpyBuf MAX_SYMBOL_LEN raw)) := by
  refine ⟨?_, toUpperStr_idem _⟩
  simp only [toUpperStr, strncpyBuf, List.length_map, List.length_take, MAX_SYMBOL_LEN]
  omega

theorem normalize_of_validSymbol {symbol : CStr} (h : validSymbol symbol) :
    toUpperStr (strncpyBuf MAX_SYMBOL_LEN symbol) = symbol := by
  rw [strncpyBuf_of_short h.1, h.2]


/-! ## Exact search in the catalog -/

theorem searchMarketLoop_hit (t : MarketTable) (key : CStr) (index : Nat) :
    ∀ (n i j : Nat), i ≤ j → j < i + n →
      marketMatches t key (probeSlot index j) →
      (∀ k, i ≤ k → k < j →
        ¬ StopsAt (fun k => (t k).status) (fun k => equalsIgnoreCase (t k).symbol key) index k) →
      searchMarketLoop t key index n i =
        some ((t (probeSlot index j)).price, (t (probeSlot index j)).sector) := by
  intro n
  induction n with
  | zero => intro i j h1 h2; omega
  | succ n ih =>
    intro i j hij hjn hhit hbefore
    by_cases hEq : i = j
    · subst hEq
      simp [searchMarketLoop, hhit.1, hhit.2]
    · have hi := hbefore i (Nat.le_refl i) (by omega)
      simp only [StopsAt, not_or, not_and] at hi
      have hrec := ih (i + 1) j (by omega) (by omega) hhit
        (fun k hk1 hk2 => hbefore k (by omega) hk2)
      have hne : ¬ ((t (probeSlot index i)).status = OCCUPIED ∧
          equalsIgnoreCase (t (probeSlot index i)).symbol key = true) := fun h => hi.2 h.1 h.2
      simp [searchMarketLoop, hi.1, hne, hrec]

theorem searchMarketLoop_empty (t : MarketTable) (key : CStr) (index : Nat) :
    ∀ (n i e : Nat), i ≤ e → e < i + n → (t (probeSlot index e)).status = EMPTY →
      (∀ k, i ≤ k → k < e →
        ¬ StopsAt (fun k => (t k).status) (fun k => equalsIgnoreCase (t k).symbol key) index k) →
      searchMarketLoop t key index n i = none := by
  intro n
  induction n with
  | zero => intro i e h1 h2; omega
  | succ n ih =>
    intro i e hie hen hemp hbefore
    by_cases hEq : i = e
    · subst hEq
      simp [searchMarketLoop, hemp]
    · have hi := hbefore i (Nat.le_refl i) (by omega)
      simp only [StopsAt, not_or, not_and] at hi
      have hrec := ih (i + 1) e (by omega) (by omega) hemp
        (fun k hk1 hk2 => hbefore k (by omega) hk2)
      have hne : ¬ ((t (probeSlot index i)).status = OCCUPIED ∧
          equalsIgnoreCase (t (probeSlot index i)).symbol key = true) := fun h => hi.2 h.1 h.2
      simp [searchMarketLoop, hi.1, hne, hrec]

theorem searchMarketLoop_exhaust (t : MarketTable) (key : CStr) (index : Nat) :
    ∀ (n i : Nat),
      (∀ k, i ≤ k → k < i + n →
        ¬ StopsAt (fun k => (t k).status) (fun k => equalsIgnoreCase (t k).symbol key) index k) →
      searchMarketLoop t key index n i = none := by
  intro n
  induction n with
  | zero => intro i _; rfl
  | succ n ih =>
    intro i hall
    have hi := hall i (Nat.le_refl i) (by omega)
    simp only [StopsAt, not_or, not_and] at hi
    have hrec := ih (i + 1) (fun k hk1 hk2 => hall k (by omega) (by omega))
    have hne : ¬ ((t (probeSlot index i)).status = OCCUPIED ∧
        equalsIgnoreCase (t (probeSlot index i)).symbol key = true) := fun h => hi.2 h.1 h.2
    simp [searchMarketLoop, hi.1, hne, hrec]

/-- The search loop agrees with `findMarketSlot`: it succeeds exactly when the
slot is found, and then reads the price and sector of that slot. -/
theorem searchMarketLoop_eq_find (t : MarketTable) (key : CStr) :
    searchMarketLoop t key (hash key) TABLE_SIZE 0 =
      match findMarketSlot t key with
      | (some slot, true) => some ((t slot).price, (t slot).sector)
      | _ => none := by
  rw [findMarketSlot_eq_probeLoop]
  rcases probeLoop_cases (fun k => (t k).status) (fun k => equalsIgnoreCase (t k).symbol key)
      (hash key) with
    ⟨j, hj, hocc, hm, hmin, hr⟩ | ⟨e, d, he, hd, hemp, hmin, -, -, hr⟩ |
    ⟨e, he, hemp, hmin, -, hr⟩ | ⟨d, hd, hall, -, -, hr⟩ | ⟨hall, -, hr⟩
  · rw [hr]
    exact searchMarketLoop_hit t key (hash key) TABLE_SIZE 0 j (Nat.zero_le _) (by omega)
      ⟨hocc, hm⟩ (fun k _ hk => hmin k hk)
  · rw [hr]
    exact searchMarketLoop_empty t key (hash key) TABLE_SIZE 0 e (Nat.zero_le _) (by omega) hemp
      (fun k _ hk => hmin k hk)
  · rw [hr]
    exact searchMarketLoop_empty t key (hash key) TABLE_SIZE 0 e (Nat.zero_le _) (by omega) hemp
      (fun k _ hk => hmin k hk)
  · rw [hr]
    exact searchMarketLoop_exhaust t key (hash key) TABLE_SIZE 0 (fun k _ hk => hall k (by omega))
  · rw [hr]
    exact searchMarketLoop_exhaust t key (hash key) TABLE_SIZE 0 (fun k _ hk => hall k (by omega))

theorem searchMarketStockExact_eq_find (t : MarketTable) (symbolRaw : CStr) :
    searchMarketStockExact t symbolRaw =
      match findMarketSlot t (toUpperStr (strncpyBuf MAX_SYMBOL_LEN symbolRaw)) with
      | (some slot, true) => some ((t slot).price, (t slot).sector)
      | _ => none :=
  searchMarketLoop_eq_find t _

/-- Where a whole walk ends: a returned slot is a probe position with nothing
that stops the walk before it; it is an Occupied match when found, and Empty
or Deleted when not found. -/
theorem probeLoop_result_position (st : Nat → EntryStatus) (mt : Nat → Bool) (index : Nat)
    {slot : Nat} {found : Bool}
    (h : probeLoop st mt index TABLE_SIZE 0 none = (some slot, found)) :
    ∃ j, j < TABLE_SIZE ∧ slot = probeSlot index j ∧
      (∀ k, k < j → ¬ StopsAt st mt index k) ∧
      (found = true → st slot = OCCUPIED ∧ mt slot = true) ∧
      (found = false → st slot ≠ OCCUPIED) := by
  rcases probeLoop_cases st mt index with
    ⟨j, hj, hocc, hm, hmin, hr⟩ | ⟨e, d, he, hd, hemp, hmin, hdel, -, hr⟩ |
    ⟨e, he, hemp, hmin, -, hr⟩ | ⟨d, hd, hall, hdel, -, hr⟩ | ⟨hall, -, hr⟩
  all_goals
    rw [hr] at h
    simp only [Prod.mk.injEq, Option.some.injEq] at h
  · obtain ⟨h1, h2⟩ := h
    subst h1 h2
    exact ⟨j, hj, rfl, hmin, fun _ => ⟨hocc, hm⟩, fun hf => by simp at hf⟩
  · obtain ⟨h1, h2⟩ := h
    subst h1 h2
    exact ⟨d, by omega, rfl, fun k hk => hmin k (by omega), fun hf => by simp at hf,
      fun _ => by rw [hdel]; decide⟩
  · obtain ⟨h1, h2⟩ := h
    subst h1 h2
    exact ⟨e, he, rfl, hmin, fun hf => by simp at hf, fun _ => by rw [hemp]; decide⟩
  · obtain ⟨h1, h2⟩ := h
    subst h1 h2
    exact ⟨d, hd, rfl, fun k hk => hall k (by omega), fun hf => by simp at hf,
      fun _ => by rw [hdel]; decide⟩
  · exact absurd h.1 (by simp)

/-! ## Catalog insert, then search -/

theorem setCell_same {α : Type} (arr : Nat → α) (k : Nat) (v : α) : setCell arr k v k = v := by
  simp [setCell]

theorem setCell_other {α : Type} (arr : Nat → α) {k j : Nat} (v : α) (h : j ≠ k) :
    setCell arr k v j = arr j := by
  simp [setCell, h]

/-- Writing an Occupied matching entry into the slot a walk returned makes the
same walk return that slot as found. -/
theorem probeLoop_after_store (st st2 : Nat → EntryStatus) (mt mt2 : Nat → Bool) (index : Nat)
    {slot : Nat} {found : Bool}
    (h : probeLoop st mt index TABLE_SIZE 0 none = (some slot, found))
    (hother : ∀ k, k ≠ slot → st2 k = st k ∧ mt2 k = mt k)
    (hocc : st2 slot = OCCUPIED) (hm : mt2 slot = true) :
    ∃ j, j < TABLE_SIZE ∧ slot = probeSlot index j ∧
      (∀ k, k < j → ¬ StopsAt st2 mt2 index k) ∧
      probeLoop st2 mt2 index TABLE_SIZE 0 none = (some slot, true) := by
  obtain ⟨j, hj, hslot, hmin, -, -⟩ := probeLoop_result_position st mt index h
  have hmin2 : ∀ k, k < j → ¬ StopsAt st2 mt2 index k := by
    intro k hk hs
    have hne : probeSlot index k ≠ slot := by
      rw [hslot]
      intro heq
      have := probeSlot_inj (by omega) hj heq
      omega
    unfold StopsAt at hs
    rw [(hother _ hne).1, (hother _ hne).2] at hs
    exact hmin k hk hs
  refine ⟨j, hj, hslot, hmin2, ?_⟩
  rw [hslot]
  rw [hslot] at hocc hm
  exact probeLoop_hit st2 mt2 index TABLE_SIZE 0 none j (Nat.zero_le _) (by omega) hocc hm
    (fun k _ hk => hmin2 k hk)

/-- The store step, then the search: the entry written is the one found. -/
theorem search_after_store (marketTable newTable : MarketTable) (symbol sector : CStr)
    (price : ℚ) (found : Bool) (hsym : validSymbol symbol)
    (hstore : storeMarketStock marketTable symbol sector price = some (newTable, found)) :
    searchMarketStockExact newTable symbol = some (price, sector) := by
  unfold storeMarketStock at hstore
  rcases hfind : findMarketSlot marketTable symbol with ⟨_ | slot, fnd⟩
  · rw [hfind] at hstore
    simp at hstore
  · rw [hfind] at hstore
    simp only [Option.some.injEq, Prod.mk.injEq] at hstore
    obtain ⟨htab, -⟩ := hstore
    subst htab
    rw [findMarketSlot_eq_probeLoop] at hfind
    obtain ⟨j, hj, hslot, hmin, hres⟩ := probeLoop_after_store _
      (fun k => (setCell marketTable slot
        ({ symbol := symbol, sector := sector, price := price, status := OCCUPIED } :
          MarketEntry) k).status) _
      (fun k => equalsIgnoreCase (setCell marketTable slot
        ({ symbol := symbol, sector := sector, price := price, status := OCCUPIED } :
          MarketEntry) k).symbol symbol) (hash symbol) hfind
      (fun k hk => by simp [setCell_other _ _ hk])
      (by simp [setCell_same]) (by simp [setCell_same, equalsIgnoreCase_refl])
    rw [searchMarketStockExact_eq_find, normalize_of_validSymbol hsym,
      findMarketSlot_eq_probeLoop, hres]
    simp [setCell_same]

theorem validSymbol_toUpperStr {symbolIn : CStr} (h : symbolIn.length < MAX_SYMBOL_LEN) :
    validSymbol (toUpperStr symbolIn) := by
  refine ⟨?_, toUpperStr_idem _⟩
  simpa [toUpperStr] using h

theorem searchMarketStockExact_toUpperStr (t : MarketTable) {symbolIn : CStr}
    (h : symbolIn.length < MAX_SYMBOL_LEN) :
    searchMarketStockExact t symbolIn = searchMarketStockExact t (toUpperStr symbolIn) := by
  unfold searchMarketStockExact
  simp only []
  rw [normalize_of_validSymbol (validSymbol_toUpperStr h), strncpyBuf_of_short h]

/-- C4: for every catalog state and every valid triple (a symbol in the form
the function holds it in, upper-case and at most 15 characters, any sector,
a price > 0), when the store step of `insertMarketStockInteractive` succeeds
(the table is not Full), `searchMarketStockExact` on the new table with that
symbol succeeds and returns exactly that price and that sector.  For the whole
function, on a symbol token of at most 15 characters in any letter case: when
it reports added or updated, the search for the token as typed returns the
price entered and the sector as the function stored it (upper-cased, cut at the
line end). -/
theorem upsert_then_search :
    (∀ (marketTable newTable : MarketTable) (symbol sector : CStr) (price : ℚ) (found : Bool),
      validSymbol symbol → 0 < price →
      storeMarketStock marketTable symbol sector price = some (newTable, found) →
      searchMarketStockExact newTable symbol = some (price, sector)) ∧
    (∀ (s : State) (symbolIn : CStr) (choice : Nat) (sectorIn : CStr) (price : ℚ),
      symbolIn.length < MAX_SYMBOL_LEN →
      ((insertMarketStockInteractive s symbolIn choice sectorIn price).1 = InsertResult.added ∨
        (insertMarketStockInteractive s symbolIn choice sectorIn price).1 =
          InsertResult.updated) →
      0 < price ∧
      searchMarketStockExact
          (insertMarketStockInteractive s symbolIn choice sectorIn price).2.marketTable symbolIn =
        some (price, (toUpperStr sectorIn).takeWhile (fun c => c ≠ 10))) := by
  constructor
  · intro marketTable newTable symbol sector price found hsym _ hstore
    exact search_after_store marketTable newTable symbol sector price found hsym hstore
  · intro s symbolIn choice sectorIn price hlen hres
    unfold insertMarketStockInteractive at hres ⊢
    simp only [] at hres ⊢
    by_cases h1 : (searchMarketStockExact s.marketTable (toUpperStr symbolIn)).isSome = true ∧
        choice ≠ 121 ∧ choice ≠ 89
    · rw [if_pos h1] at hres
      simp at hres
    · rw [if_neg h1] at hres ⊢
      by_cases h2 : price ≤ 0
      · rw [if_pos h2] at hres
        simp at hres
      · rw [if_neg h2] at hres ⊢
        cases hstore : storeMarketStock s.marketTable (toUpperStr symbolIn)
            ((toUpperStr sectorIn).takeWhile (fun c => c ≠ 10)) price with
        | none =>
          rw [hstore] at hres
          simp at hres
        | some v =>
          obtain ⟨newTable, found⟩ := v
          simp only []
          rw [searchMarketStockExact_toUpperStr _ hlen]
          exact ⟨not_le.mp h2, search_after_store _ _ _ _ _ _ (validSymbol_toUpperStr hlen)
            hstore⟩

/-- Witness for C4: storing AAPL / TECH / 150 into the empty catalog, and
inserting "aapl" with the sector line "TECH" and price 150 through the whole
function. -/
theorem upsert_then_search_witness :
    searchMarketStockExact
        (setCell initMarketTable 20
          { symbol := symAAPL, sector := sectorTECH, price := 150, status := OCCUPIED })
        symAAPL = some (150, sectorTECH) ∧
      ((0 : ℚ) < 150 ∧
        searchMarketStockExact stateCatalog.marketTable symLowerAAPL =
          some (150, (toUpperStr (sectorTECH ++ [10])).takeWhile (fun c => c ≠ 10))) :=
  ⟨upsert_then_search.1 initMarketTable _ symAAPL sectorTECH 150 false (by decide)
      (by norm_num) rfl,
   upsert_then_search.2 initState symLowerAAPL 0 (sectorTECH ++ [10]) 150 (by decide)
      (Or.inl (by decide))⟩

/-! ## Transaction history -/

theorem shiftLoop_apply (n : Nat) :
    ∀ (h : Nat → TransactionEntry) (i k : Nat),
      shiftLoop h n i k = if i ≤ k ∧ k < i + n then h (k + 1) else h k := by
  induction n with
  | zero =>
    intro h i k
    have : ¬ (i ≤ k ∧ k < i) := by omega
    simp [shiftLoop, this]
  | succ n ih =>
    intro h i k
    rw [shiftLoop, ih]
    by_cases h1 : i + 1 ≤ k ∧ k < i + 1 + n
    · have h2 : i ≤ k ∧ k < i + (n + 1) := by omega
      have h3 : k + 1 ≠ i := by omega
      simp [h1, h2, setCell, h3]
    · by_cases h4 : k = i
      · subst h4
        have h2 : k ≤ k ∧ k < k + (n + 1) := by omega
        simp [h1, h2, setCell]
      · have h2 : ¬ (i ≤ k ∧ k < i + (n + 1)) := by omega
        simp [h1, h2, setCell, h4]

theorem addTransaction_tables (s : State) (symbol : CStr) (quantity : Int) (price : ℚ)
    (date : CStr) (type : Int) :
    (addTransaction s symbol quantity price date type).marketTable = s.marketTable ∧
    (addTransaction s symbol quantity price date type).holdingTable = s.holdingTable := by
  unfold addTransaction
  split_ifs <;> exact ⟨rfl, rfl⟩

theorem ledgerRecords_length (s : State) : (ledgerRecords s).length = s.transactionCount := by
  simp [ledgerRecords]

theorem map_setCell_range (h : Nat → TransactionEntry) (c : Nat) (entry : TransactionEntry) :
    (List.range (c + 1)).map (setCell h c entry) = (List.range c).map h ++ [entry] := by
  rw [List.range_succ, List.map_append]
  congr 1
  · apply List.map_congr_left
    intro k hk
    have : k ≠ c := by
      have := List.mem_range.mp hk
      omega
    simp [setCell, this]
  · simp [setCell]

theorem map_shiftLoop_range (h : Nat → TransactionEntry) (c n : Nat) (hn : c < n) :
    (List.range c).map (shiftLoop h c 0) = (((List.range n).map h).drop 1).take c := by
  apply List.ext_getElem
  · simp only [List.length_map, List.length_range, List.length_take, List.length_drop]
    omega
  · intro k h1 h2
    simp only [List.length_map, List.length_range] at h1
    have hk2 : 0 ≤ k ∧ k < 0 + c := by omega
    simp only [List.getElem_map, List.getElem_range, List.getElem_take, List.getElem_drop,
      shiftLoop_apply]
    rw [if_pos hk2, Nat.add_comm]

/-- The records after `addTransaction`: the old ones, without the oldest when
the history was full, followed by the new record. -/
theorem ledgerRecords_addTransaction (s : State) (symbol : CStr) (quantity : Int) (price : ℚ)
    (date : CStr) (type : Int) :
    ledgerRecords (addTransaction s symbol quantity price date type) =
      recordsAfterAdd (ledgerRecords s)
        { symbol := symbol, quantity := quantity, pricePerShare := price, date := date,
          type := type } := by
  unfold recordsAfterAdd
  rw [ledgerRecords_length]
  unfold addTransaction ledgerRecords
  by_cases hfull : s.transactionCount ≥ MAX_TRANSACTIONS
  · simp only [hfull, if_true]
    have hlt : MAX_TRANSACTIONS - 1 < s.transactionCount := by
      simp only [MAX_TRANSACTIONS] at hfull ⊢
      omega
    generalize MAX_TRANSACTIONS - 1 = c at hlt ⊢
    rw [map_setCell_range, map_shiftLoop_range _ _ _ hlt]
  · simp only [hfull, if_false]
    rw [map_setCell_range]

/-! ## Symbols in canonical form -/

theorem eq_of_tolower_eq {x y : Nat} (hx : toupper x = x) (hy : toupper y = y)
    (h : tolower x = tolower y) : x = y := by
  unfold toupper at hx hy
  unfold tolower at h
  split_ifs at hx hy h <;> omega

theorem eq_of_equalsIgnoreCase : ∀ (a b : CStr), toUpperStr a = a → toUpperStr b = b →
    equalsIgnoreCase a b = true → a = b
  | [], [], _, _, _ => rfl
  | [], _ :: _, _, _, h => by simp [equalsIgnoreCase] at h
  | _ :: _, [], _, _, h => by simp [equalsIgnoreCase] at h
  | x :: xs, y :: ys, hx, hy, h => by
    simp only [toUpperStr, List.map_cons, List.cons.injEq] at hx hy
    simp only [equalsIgnoreCase, ne_eq, ite_not, Bool.if_false_right, Bool.and_eq_true,
      decide_eq_true_eq] at h
    have h1 := eq_of_tolower_eq hx.1 hy.1 h.1
    have h2 := eq_of_equalsIgnoreCase xs ys hx.2 hy.2 h.2
    rw [h1, h2]

theorem eq_of_valid_match {a b : CStr} (ha : validSymbol a) (hb : validSymbol b)
    (h : equalsIgnoreCase a b = true) : a = b :=
  eq_of_equalsIgnoreCase a b ha.2 hb.2 h

theorem validSymbol_normalizeSymbol (raw : CStr) : validSymbol (normalizeSymbol raw) :=
  validSymbol_normalize raw

/-! ## Buy and sell, case by case -/

theorem buy_of_absent (s : State) (symbolRaw : CStr) (qty : Int) (buyPrice : ℚ)
    (dateIn now : CStr) (h : searchMarketStockExact s.marketTable symbolRaw = none) :
    buyStockInteractive s symbolRaw qty buyPrice dateIn now = (BuyResult.notInMarket, s) := by
  simp [buyStockInteractive, h]

theorem buy_of_bad_quantity (s : State) (symbolRaw : CStr) (qty : Int) (buyPrice : ℚ)
    (dateIn now : CStr) {found : ℚ × CStr}
    (h : searchMarketStockExact s.marketTable symbolRaw = some found) (hq : qty ≤ 0) :
    buyStockInteractive s symbolRaw qty buyPrice dateIn now = (BuyResult.invalidQuantity, s) := by
  simp [buyStockInteractive, h, hq]

theorem buy_of_bad_price (s : State) (symbolRaw : CStr) (qty : Int) (buyPrice : ℚ)
    (dateIn now : CStr) {found : ℚ × CStr}
    (h : searchMarketStockExact s.marketTable symbolRaw = some found) (hq : 0 < qty)
    (hp : buyPrice ≤ 0) :
    buyStockInteractive s symbolRaw qty buyPrice dateIn now = (BuyResult.invalidPrice, s) := by
  have hq2 : ¬ qty ≤ 0 := by omega
  simp [buyStockInteractive, h, hq2, hp]

theorem buy_of_full (s : State) (symbolRaw : CStr) (qty : Int) (buyPrice : ℚ)
    (dateIn now : CStr) {found : ℚ × CStr} {flag : Bool}
    (h : searchMarketStockExact s.marketTable symbolRaw = some found) (hq : 0 < qty)
    (hp : 0 < buyPrice)
    (hslot : findHoldingSlot s.holdingTable (normalizeSymbol symbolRaw) = (none, flag)) :
    buyStockInteractive s symbolRaw qty buyPrice dateIn now = (BuyResult.tableFull, s) := by
  have hq2 : ¬ qty ≤ 0 := by omega
  have hp2 : ¬ buyPrice ≤ 0 := not_le.mpr hp
  unfold normalizeSymbol at hslot
  simp [buyStockInteractive, h, hq2, hp2, hslot]

theorem buy_of_new (s : State) (symbolRaw : CStr) (qty : Int) (buyPrice : ℚ)
    (dateIn now : CStr) {currentPrice : ℚ} {sector : CStr} {slot : Nat}
    (h : searchMarketStockExact s.marketTable symbolRaw = some (currentPrice, sector))
    (hq : 0 < qty) (hp : 0 < buyPrice)
    (hslot : findHoldingSlot s.holdingTable (normalizeSymbol symbolRaw) = (some slot, false)) :
    buyStockInteractive s symbolRaw qty buyPrice dateIn now =
      (BuyResult.holdingCreated,
       { addTransaction s (normalizeSymbol symbolRaw) qty buyPrice
           (if dateIn = nowKeyword then now else dateIn) 0 with
         holdingTable := setCell s.holdingTable slot
           { symbol := normalizeSymbol symbolRaw
             sector := sector
             quantity := qty
             avgBuyPrice := buyPrice
             lastBuyDate := strncpyBuf MAX_DATE_LEN (if dateIn = nowKeyword then now else dateIn)
             status := OCCUPIED } }) := by
  have hq2 : ¬ qty ≤ 0 := by omega
  have hp2 : ¬ buyPrice ≤ 0 := not_le.mpr hp
  unfold normalizeSymbol at hslot ⊢
  simp [buyStockInteractive, h, hq2, hp2, hslot, (addTransaction_tables _ _ _ _ _ _).2]

theorem buy_of_held (s : State) (symbolRaw : CStr) (qty : Int) (buyPrice : ℚ)
    (dateIn now : CStr) {found : ℚ × CStr} {slot : Nat}
    (h : searchMarketStockExact s.marketTable symbolRaw = some found)
    (hq : 0 < qty) (hp : 0 < buyPrice)
    (hslot : findHoldingSlot s.holdingTable (normalizeSymbol symbolRaw) = (some slot, true)) :
    buyStockInteractive s symbolRaw qty buyPrice dateIn now =
      (BuyResult.boughtMore (wrapInt32 ((s.holdingTable slot).quantity + qty))
          (((s.holdingTable slot).avgBuyPrice * (s.holdingTable slot).quantity + buyPrice * qty) /
            wrapInt32 ((s.holdingTable slot).quantity + qty)),
       { addTransaction s (normalizeSymbol symbolRaw) qty buyPrice
           (if dateIn = nowKeyword then now else dateIn) 0 with
         holdingTable := setCell s.holdingTable slot
           { (s.holdingTable slot) with
             quantity := wrapInt32 ((s.holdingTable slot).quantity + qty)
             avgBuyPrice :=
               ((s.holdingTable slot).avgBuyPrice * (s.holdingTable slot).quantity +
                 buyPrice * qty) / wrapInt32 ((s.holdingTable slot).quantity + qty)
             lastBuyDate :=
               strncpyBuf MAX_DATE_LEN (if dateIn = nowKeyword then now else dateIn) } }) := by
  have hq2 : ¬ qty ≤ 0 := by omega
  have hp2 : ¬ buyPrice ≤ 0 := not_le.mpr hp
  unfold normalizeSymbol at hslot ⊢
  simp [buyStockInteractive, h, hq2, hp2, hslot, (addTransaction_tables _ _ _ _ _ _).2]

theorem sell_of_not_found (s : State) (symbolRaw : CStr) (qty : Int) (now : CStr)
    (h : (findHoldingSlot s.holdingTable (normalizeSymbol symbolRaw)).2 = false) :
    sellStockInteractive s symbolRaw qty now = (SellResult.notHeld, s) := by
  unfold normalizeSymbol at h
  simp only [sellStockInteractive]
  rcases hf : findHoldingSlot s.holdingTable (toUpperStr (strncpyBuf MAX_SYMBOL_LEN symbolRaw))
    with ⟨slot, found⟩
  rw [hf] at h
  simp only at h
  subst h
  cases slot <;> rfl

theorem sell_of_found (s : State) (symbolRaw : CStr) (qty : Int) (now : CStr) {slot : Nat}
    (h : findHoldingSlot s.holdingTable (normalizeSymbol symbolRaw) = (some slot, true))
    (hocc : (s.holdingTable slot).status = OCCUPIED) :
    sellStockInteractive s symbolRaw qty now =
      if qty ≤ 0 then (SellResult.invalidQuantity, s)
      else if qty > (s.holdingTable slot).quantity then (SellResult.tooMany, s)
      else
        match searchMarketStockExact s.marketTable (normalizeSymbol symbolRaw) with
        | none => (SellResult.priceNotFound, s)
        | some (currentPrice, _) =>
          (SellResult.sold currentPrice
              (if (currentPrice - (s.holdingTable slot).avgBuyPrice) * qty > 0 then
                ProfitLine.profit ((currentPrice - (s.holdingTable slot).avgBuyPrice) * qty)
              else if (currentPrice - (s.holdingTable slot).avgBuyPrice) * qty < 0 then
                ProfitLine.loss (-((currentPrice - (s.holdingTable slot).avgBuyPrice) * qty))
              else ProfitLine.breakEven)
              ((s.holdingTable slot).quantity - qty),
           { addTransaction s (normalizeSymbol symbolRaw) qty currentPrice now 1 with
             holdingTable := setCell s.holdingTable slot
               (if (s.holdingTable slot).quantity - qty = 0 then
                 { (s.holdingTable slot) with
                   quantity := (s.holdingTable slot).quantity - qty, status := DELETED }
               else
                 { (s.holdingTable slot) with
                   quantity := (s.holdingTable slot).quantity - qty }) }) := by
  unfold normalizeSymbol at h ⊢
  simp only [sellStockInteractive]
  rw [h]
  have hc : ¬ ((s.holdingTable slot).status ≠ OCCUPIED) := by simp [hocc]
  simp only []
  rw [if_neg hc]
  by_cases h1 : qty ≤ 0
  · simp only [h1, if_true]
  · by_cases h2 : qty > (s.holdingTable slot).quantity
    · simp only [h1, h2, if_true, if_false]
    · simp only [h1, h2, if_false]
      cases hs : searchMarketStockExact s.marketTable
        (toUpperStr (strncpyBuf MAX_SYMBOL_LEN symbolRaw)) with
      | none => rfl
      | some v =>
        obtain ⟨currentPrice, sector⟩ := v
        simp only [(addTransaction_tables _ _ _ _ _ _).2]

/-! ## The holdings invariant -/

/-- A found result survives any change of the table that keeps the found slot
an Occupied match and creates no new Empty slot or match elsewhere. -/
theorem probeLoop_hit_stable (st st2 : Nat → EntryStatus) (mt mt2 : Nat → Bool) (index : Nat)
    {i : Nat} (h : probeLoop st mt index TABLE_SIZE 0 none = (some i, true))
    (hocc : st2 i = OCCUPIED) (hm : mt2 i = true)
    (hother : ∀ k, k ≠ i → (st2 k = EMPTY → st k = EMPTY) ∧
      (st2 k = OCCUPIED → mt2 k = true → st k = OCCUPIED ∧ mt k = true)) :
    probeLoop st2 mt2 index TABLE_SIZE 0 none = (some i, true) := by
  obtain ⟨j, hj, hslot, hmin, -, -⟩ := probeLoop_result_position st mt index h
  subst hslot
  refine probeLoop_hit st2 mt2 index TABLE_SIZE 0 none j (Nat.zero_le _) (by omega) hocc hm ?_
  intro k _ hk hs
  have hne : probeSlot index k ≠ probeSlot index j := by
    intro heq
    have := probeSlot_inj (by omega) hj heq
    omega
  apply hmin k hk
  rcases hs with h1 | ⟨h1, h2⟩
  · exact Or.inl ((hother _ hne).1 h1)
  · exact Or.inr ((hother _ hne).2 h1 h2)

theorem holdingsInv_init : HoldingsInv initHoldingTable := by
  intro i hi
  simp [initHoldingTable] at hi

/-- A write that keeps the status and the symbol of the slot keeps the invariant. -/
theorem holdingsInv_of_same_keys (h : HoldingTable) (slot : Nat) (entry : HoldingEntry)
    (hinv : HoldingsInv h) (hst : entry.status = (h slot).status)
    (hsym : entry.symbol = (h slot).symbol) : HoldingsInv (setCell h slot entry) := by
  have hs : ∀ k, (setCell h slot entry k).status = (h k).status := by
    intro k
    by_cases hk : k = slot
    · subst hk; rw [setCell_same, hst]
    · rw [setCell_other _ _ hk]
  have hy : ∀ k, (setCell h slot entry k).symbol = (h k).symbol := by
    intro k
    by_cases hk : k = slot
    · subst hk; rw [setCell_same, hsym]
    · rw [setCell_other _ _ hk]
  intro i hi
  rw [hs] at hi
  obtain ⟨hv, hf⟩ := hinv i hi
  rw [hy]
  refine ⟨hv, ?_⟩
  rw [findHoldingSlot_eq_probeLoop] at hf ⊢
  simp only [hs, hy]
  exact hf

/-- Creating a holding in the slot `findHoldingSlot` returned as not found
keeps the invariant. -/
theorem holdingsInv_of_create (h : HoldingTable) (symbol : CStr) (slot : Nat)
    (entry : HoldingEntry) (hinv : HoldingsInv h) (hvalid : validSymbol symbol)
    (hfind : findHoldingSlot h symbol = (some slot, false))
    (hst : entry.status = OCCUPIED) (hsym : entry.symbol = symbol) :
    HoldingsInv (setCell h slot entry) := by
  intro i hi
  by_cases his : i = slot
  · subst his
    rw [setCell_same, hsym]
    refine ⟨hvalid, ?_⟩
    rw [findHoldingSlot_eq_probeLoop] at hfind ⊢
    obtain ⟨j, -, -, -, hres⟩ := probeLoop_after_store _
      (fun k => (setCell h i entry k).status) _
      (fun k => equalsIgnoreCase (setCell h i entry k).symbol symbol) (hash symbol) hfind
      (fun k hk => by simp [setCell_other _ _ hk])
      (by simp [setCell_same, hst]) (by simp [setCell_same, hsym, equalsIgnoreCase_refl])
    exact hres
  · rw [setCell_other _ _ his] at hi ⊢
    obtain ⟨hv, hf⟩ := hinv i hi
    refine ⟨hv, ?_⟩
    rw [findHoldingSlot_eq_probeLoop] at hf ⊢
    refine probeLoop_hit_stable _ _ _ _ _ hf (by simp [setCell_other _ _ his, hi])
      (by simp [setCell_other _ _ his, equalsIgnoreCase_refl]) ?_
    intro k hk
    by_cases hks : k = slot
    · subst hks
      simp only [setCell_same, hst, hsym]
      refine ⟨fun hc => absurd hc (by decide), fun _ hm => ?_⟩
      have heq : symbol = (h i).symbol := eq_of_valid_match hvalid hv hm
      rw [heq, (hinv i hi).2] at hfind
      simp at hfind
    · simp only [setCell_other _ _ hks]
      exact ⟨fun hc => hc, fun h1 h2 => ⟨h1, h2⟩⟩

/-- Turning a slot into a tombstone keeps the invariant. -/
theorem holdingsInv_of_delete (h : HoldingTable) (slot : Nat) (entry : HoldingEntry)
    (hinv : HoldingsInv h) (hst : entry.status = DELETED) :
    HoldingsInv (setCell h slot entry) := by
  intro i hi
  by_cases his : i = slot
  · subst his
    rw [setCell_same, hst] at hi
    exact absurd hi (by decide)
  · rw [setCell_other _ _ his] at hi ⊢
    obtain ⟨hv, hf⟩ := hinv i hi
    refine ⟨hv, ?_⟩
    rw [findHoldingSlot_eq_probeLoop] at hf ⊢
    refine probeLoop_hit_stable _ _ _ _ _ hf (by simp [setCell_other _ _ his, hi])
      (by simp [setCell_other _ _ his, equalsIgnoreCase_refl]) ?_
    intro k hk
    by_cases hks : k = slot
    · subst hks
      simp only [setCell_same, hst]
      exact ⟨fun hc => absurd hc (by decide), fun hc => absurd hc (by decide)⟩
    · simp only [setCell_other _ _ hks]
      exact ⟨fun hc => hc, fun h1 h2 => ⟨h1, h2⟩⟩

theorem insert_holdingTable (s : State) (symbolIn : CStr) (choice : Nat) (sectorIn : CStr)
    (price : ℚ) :
    (insertMarketStockInteractive s symbolIn choice sectorIn price).2.holdingTable =
      s.holdingTable := by
  unfold insertMarketStockInteractive
  simp only []
  split_ifs
  · rfl
  · rfl
  · cases storeMarketStock s.marketTable (toUpperStr symbolIn)
      ((toUpperStr sectorIn).takeWhile (fun c => c ≠ 10)) price with
    | none => rfl
    | some v => rfl

/-- The found flag of `findHoldingSlot` is set only on an Occupied match. -/
theorem findHoldingSlot_found {h : HoldingTable} {symbol : CStr} {slot : Option Nat}
    (hf : findHoldingSlot h symbol = (slot, true)) :
    ∃ k, slot = some k ∧ k < TABLE_SIZE ∧ holdingMatches h symbol k := by
  rw [findHoldingSlot_eq_probeLoop] at hf
  cases slot with
  | none =>
    rcases probeLoop_cases (fun k => (h k).status)
        (fun k => equalsIgnoreCase (h k).symbol symbol) (hash symbol) with
      ⟨j, _, _, _, _, hr⟩ | ⟨e, d, _, _, _, _, _, _, hr⟩ | ⟨e, _, _, _, _, hr⟩ |
      ⟨d, _, _, _, _, hr⟩ | ⟨_, _, hr⟩ <;> rw [hr] at hf <;> simp at hf
  | some k =>
    obtain ⟨j, -, hslot, -, hfound, -⟩ := probeLoop_result_position _ _ _ hf
    refine ⟨k, rfl, ?_, hfound rfl⟩
    rw [hslot]
    exact probeSlot_lt _ _

theorem step_holdingsInv (s : State) (op : Op) (hinv : HoldingsInv s.holdingTable) :
    HoldingsInv (step s op).holdingTable := by
  cases op with
  | insert symbolIn choice sectorIn price =>
    simp only [step, insert_holdingTable]
    exact hinv
  | buy symbolRaw qty buyPrice dateIn now =>
    simp only [step]
    cases hsearch : searchMarketStockExact s.marketTable symbolRaw with
    | none => rw [buy_of_absent _ _ _ _ _ _ hsearch]; exact hinv
    | some v =>
      obtain ⟨currentPrice, sector⟩ := v
      by_cases hq : qty ≤ 0
      · rw [buy_of_bad_quantity _ _ _ _ _ _ hsearch hq]; exact hinv
      · by_cases hp : buyPrice ≤ 0
        · rw [buy_of_bad_price _ _ _ _ _ _ hsearch (by omega) hp]; exact hinv
        · rcases hfind : findHoldingSlot s.holdingTable (normalizeSymbol symbolRaw) with
            ⟨_ | slot, found⟩
          · rw [buy_of_full _ _ _ _ _ _ hsearch (by omega) (not_le.mp hp) hfind]; exact hinv
          · cases found with
            | false =>
              rw [buy_of_new _ _ _ _ _ _ hsearch (by omega) (not_le.mp hp) hfind]
              exact holdingsInv_of_create _ _ _ _ hinv (validSymbol_normalizeSymbol _) hfind
                rfl rfl
            | true =>
              rw [buy_of_held _ _ _ _ _ _ hsearch (by omega) (not_le.mp hp) hfind]
              exact holdingsInv_of_same_keys _ _ _ hinv rfl rfl
  | sell symbolRaw qty now =>
    simp only [step]
    rcases hfind : findHoldingSlot s.holdingTable (normalizeSymbol symbolRaw) with
      ⟨slot, found⟩
    cases found with
    | false =>
      rw [sell_of_not_found _ _ _ _ (by rw [hfind])]; exact hinv
    | true =>
      obtain ⟨k, hk, -, hmatch⟩ := findHoldingSlot_found hfind
      subst hk
      rw [sell_of_found _ _ _ _ hfind hmatch.1]
      by_cases h1 : qty ≤ 0
      · rw [if_pos h1]; exact hinv
      · rw [if_neg h1]
        by_cases h2 : qty > (s.holdingTable k).quantity
        · rw [if_pos h2]; exact hinv
        · rw [if_neg h2]
          cases searchMarketStockExact s.marketTable (normalizeSymbol symbolRaw) with
          | none => exact hinv
          | some v =>
            obtain ⟨currentPrice, sector⟩ := v
            simp only []
            by_cases h3 : (s.holdingTable k).quantity - qty = 0
            · rw [if_pos h3]
              exact holdingsInv_of_delete _ _ _ hinv rfl
            · rw [if_neg h3]
              exact holdingsInv_of_same_keys _ _ _ hinv rfl rfl

/-- In every reachable state the holdings invariant holds. -/
theorem reachable_holdingsInv {s : State} (h : Reachable s) : HoldingsInv s.holdingTable := by
  induction h with
  | init => exact holdingsInv_init
  | step s op _ ih => exact step_holdingsInv s op ih

/-- Under the invariant a holding that exists is the one `findHoldingSlot`
finds for a valid symbol. -/
theorem findHoldingSlot_of_match {h : HoldingTable} (hinv : HoldingsInv h) {symbol : CStr}
    (hvalid : validSymbol symbol) {k : Nat} (hm : holdingMatches h symbol k) :
    findHoldingSlot h symbol = (some k, true) := by
  obtain ⟨hv, hf⟩ := hinv k hm.1
  rw [← eq_of_valid_match hv hvalid hm.2]
  exact hf

/-! ## Buying: the weighted average -/

theorem wrapInt32_of_range {x : Int} (h1 : -2147483648 ≤ x) (h2 : x ≤ INT_MAX) :
    wrapInt32 x = x := by
  unfold wrapInt32
  simp only [INT_MAX] at h2
  omega

theorem findHoldingSlot_setCell_same_keys (h : HoldingTable) (slot : Nat) (entry : HoldingEntry)
    (key : CStr) (hst : entry.status = (h slot).status) (hsym : entry.symbol = (h slot).symbol) :
    findHoldingSlot (setCell h slot entry) key = findHoldingSlot h key := by
  have hs : ∀ k, (setCell h slot entry k).status = (h k).status := by
    intro k
    by_cases hk : k = slot
    · subst hk; rw [setCell_same, hst]
    · rw [setCell_other _ _ hk]
  have hy : ∀ k, (setCell h slot entry k).symbol = (h k).symbol := by
    intro k
    by_cases hk : k = slot
    · subst hk; rw [setCell_same, hsym]
    · rw [setCell_other _ _ hk]
  rw [findHoldingSlot_eq_probeLoop, findHoldingSlot_eq_probeLoop]
  simp only [hs, hy]

theorem setCell_noMatch (h : HoldingTable) (slot : Nat) (entry : HoldingEntry) (symbol : CStr)
    (hno : ∀ k, ¬ holdingMatches h symbol k)
    (hentry : ¬ (entry.status = OCCUPIED ∧ equalsIgnoreCase entry.symbol symbol = true)) :
    ∀ k, ¬ holdingMatches (setCell h slot entry) symbol k := by
  intro k hk
  unfold holdingMatches at hk
  by_cases hks : k = slot
  · subst hks
    rw [setCell_same] at hk
    exact hentry hk
  · rw [setCell_other _ _ hks] at hk
    exact hno k hk

/-- No operation other than a buy of the symbol makes the symbol held. -/
theorem step_noMatch (s : State) (op : Op) (symbol : CStr) (hvalid : validSymbol symbol)
    (hop : op.leavesUnbought symbol) (hno : ∀ k, ¬ holdingMatches s.holdingTable symbol k) :
    ∀ k, ¬ holdingMatches (step s op).holdingTable symbol k := by
  cases op with
  | insert symbolIn choice sectorIn price =>
    simp only [step, insert_holdingTable]
    exact hno
  | buy symbolRaw qty buyPrice dateIn now =>
    simp only [step]
    simp only [Op.leavesUnbought] at hop
    cases hsearch : searchMarketStockExact s.marketTable symbolRaw with
    | none => rw [buy_of_absent _ _ _ _ _ _ hsearch]; exact hno
    | some v =>
      obtain ⟨currentPrice, sector⟩ := v
      by_cases hq : qty ≤ 0
      · rw [buy_of_bad_quantity _ _ _ _ _ _ hsearch hq]; exact hno
      · by_cases hp : buyPrice ≤ 0
        · rw [buy_of_bad_price _ _ _ _ _ _ hsearch (by omega) hp]; exact hno
        · rcases hfind : findHoldingSlot s.holdingTable (normalizeSymbol symbolRaw) with
            ⟨_ | slot, found⟩
          · rw [buy_of_full _ _ _ _ _ _ hsearch (by omega) (not_le.mp hp) hfind]; exact hno
          · cases found with
            | false =>
              rw [buy_of_new _ _ _ _ _ _ hsearch (by omega) (not_le.mp hp) hfind]
              apply setCell_noMatch _ _ _ _ hno
              intro hm
              exact hop (eq_of_valid_match (validSymbol_normalizeSymbol _) hvalid hm.2)
            | true =>
              rw [buy_of_held _ _ _ _ _ _ hsearch (by omega) (not_le.mp hp) hfind]
              apply setCell_noMatch _ _ _ _ hno
              intro hm
              exact hno slot hm
  | sell symbolRaw qty now =>
    simp only [step]
    rcases hfind : findHoldingSlot s.holdingTable (normalizeSymbol symbolRaw) with
      ⟨slot, found⟩
    cases found with
    | false =>
      rw [sell_of_not_found _ _ _ _ (by rw [hfind])]; exact hno
    | true =>
      obtain ⟨k, hk, -, hmatch⟩ := findHoldingSlot_found hfind
      subst hk
      rw [sell_of_found _ _ _ _ hfind hmatch.1]
      by_cases h1 : qty ≤ 0
      · rw [if_pos h1]; exact hno
      · rw [if_neg h1]
        by_cases h2 : qty > (s.holdingTable k).quantity
        · rw [if_pos h2]; exact hno
        · rw [if_neg h2]
          cases searchMarketStockExact s.marketTable (normalizeSymbol symbolRaw) with
          | none => exact hno
          | some v =>
            obtain ⟨currentPrice, sector⟩ := v
            simp only []
            apply setCell_noMatch _ _ _ _ hno
            by_cases h3 : (s.holdingTable k).quantity - qty = 0
            · rw [if_pos h3]
              intro hm
              exact EntryStatus.noConfusion hm.1
            · rw [if_neg h3]
              intro hm
              exact hno k hm

theorem run_noMatch (symbol : CStr) (hvalid : validSymbol symbol) :
    ∀ (ops : List Op) (s : State), (∀ op, op ∈ ops → op.leavesUnbought symbol) →
      (∀ k, ¬ holdingMatches s.holdingTable symbol k) →
      ∀ k, ¬ holdingMatches (run s ops).holdingTable symbol k
  | [], _, _, hno => hno
  | op :: ops, s, hops, hno =>
    run_noMatch symbol hvalid ops (step s op)
      (fun o ho => hops o (List.mem_cons_of_mem _ ho))
      (step_noMatch s op symbol hvalid (hops op (List.mem_cons_self _ _)) hno)

theorem not_found_of_noMatch {h : HoldingTable} {symbol : CStr}
    (hno : ∀ k, k < TABLE_SIZE → ¬ holdingMatches h symbol k) :
    (findHoldingSlot h symbol).2 = false := by
  rcases hf : findHoldingSlot h symbol with ⟨slot, found⟩
  cases found with
  | false => rfl
  | true =>
    obtain ⟨k, -, hk, hm⟩ := findHoldingSlot_found hf
    exact absurd hm (hno k hk)

/-- What a successful sell means, read off the code. -/
theorem sell_success_iff (s : State) (symbolRaw : CStr) (qty : Int) (now : CStr) {slot : Nat}
    (hfind : findHoldingSlot s.holdingTable (normalizeSymbol symbolRaw) = (some slot, true)) :
    (sellStockInteractive s symbolRaw qty now).1.code = 1 ↔
      0 < qty ∧ qty ≤ (s.holdingTable slot).quantity ∧
      (searchMarketStockExact s.marketTable (normalizeSymbol symbolRaw)).isSome = true := by
  obtain ⟨k, hk, -, hmatch⟩ := findHoldingSlot_found hfind
  simp only [Option.some.injEq] at hk
  subst hk
  rw [sell_of_found _ _ _ _ hfind hmatch.1]
  by_cases h1 : qty ≤ 0
  · rw [if_pos h1]
    simp only [SellResult.code]
    constructor
    · intro h; exact absurd h (by decide)
    · intro h; omega
  · rw [if_neg h1]
    by_cases h2 : qty > (s.holdingTable slot).quantity
    · rw [if_pos h2]
      simp only [SellResult.code]
      constructor
      · intro h; exact absurd h (by decide)
      · intro h; omega
    · rw [if_neg h2]
      cases searchMarketStockExact s.marketTable (normalizeSymbol symbolRaw) with
      | none => simp [SellResult.code]
      | some v =>
        obtain ⟨currentPrice, sector⟩ := v
        simp only [SellResult.code, Option.isSome_some, and_true, true_iff]
        omega

/-- C6: in every state whose holdings table satisfies `HoldingsInv` (every
reachable state does, `reachable_holdingsInv`), a successful sell of the full
held quantity of a symbol turns its slot into a tombstone, and every later
holdings lookup of that symbol reports not found, through any sequence of
operations that contains no buy of that symbol; a successful sell of a partial
quantity `q`, `0 < q < held`, leaves the holding Occupied and found, its
average cost unchanged and its quantity reduced by exactly `q`. -/
theorem sell_all_or_part :
    (∀ (s : State) (symbolRaw : CStr) (qty : Int) (now : CStr) (slot : Nat) (ops : List Op),
      HoldingsInv s.holdingTable →
      findHoldingSlot s.holdingTable (normalizeSymbol symbolRaw) = (some slot, true) →
      qty = (s.holdingTable slot).quantity →
      (sellStockInteractive s symbolRaw qty now).1.code = 1 →
      (∀ op, op ∈ ops → op.leavesUnbought (normalizeSymbol symbolRaw)) →
      ((sellStockInteractive s symbolRaw qty now).2.holdingTable slot).status = DELETED ∧
      (findHoldingSlot (run (sellStockInteractive s symbolRaw qty now).2 ops).holdingTable
        (normalizeSymbol symbolRaw)).2 = false) ∧
    (∀ (s : State) (symbolRaw : CStr) (qty : Int) (now : CStr) (slot : Nat),
      findHoldingSlot s.holdingTable (normalizeSymbol symbolRaw) = (some slot, true) →
      0 < qty → qty < (s.holdingTable slot).quantity →
      (sellStockInteractive s symbolRaw qty now).1.code = 1 →
      ((sellStockInteractive s symbolRaw qty now).2.holdingTable slot).status = OCCUPIED ∧
      ((sellStockInteractive s symbolRaw qty now).2.holdingTable slot).avgBuyPrice =
        (s.holdingTable slot).avgBuyPrice ∧
      ((sellStockInteractive s symbolRaw qty now).2.holdingTable slot).quantity =
        (s.holdingTable slot).quantity - qty ∧
      findHoldingSlot (sellStockInteractive s symbolRaw qty now).2.holdingTable
        (normalizeSymbol symbolRaw) = (some slot, true)) := by
  constructor
  · intro s symbolRaw qty now slot ops hinv hfind hqty hsold hops
    obtain ⟨hq, hle, hsome⟩ := (sell_success_iff s symbolRaw qty now hfind).mp hsold
    obtain ⟨⟨currentPrice, sector⟩, hsearch⟩ := Option.isSome_iff_exists.mp hsome
    obtain ⟨k, hk, -, hmatch⟩ := findHoldingSlot_found hfind
    simp only [Option.some.injEq] at hk
    subst hk
    have hzero : (s.holdingTable slot).quantity - qty = 0 := by omega
    have hstate : (sellStockInteractive s symbolRaw qty now).2.holdingTable =
        setCell s.holdingTable slot
          { (s.holdingTable slot) with
            quantity := (s.holdingTable slot).quantity - qty, status := DELETED } := by
      rw [sell_of_found _ _ _ _ hfind hmatch.1, if_neg (by omega), if_neg (by omega), hsearch]
      simp only [if_pos hzero]
    have hno : ∀ k, ¬ holdingMatches (sellStockInteractive s symbolRaw qty now).2.holdingTable
        (normalizeSymbol symbolRaw) k := by
      intro k hk
      rw [hstate] at hk
      unfold holdingMatches at hk
      by_cases hks : k = slot
      · subst hks
        rw [setCell_same] at hk
        exact EntryStatus.noConfusion hk.1
      · rw [setCell_other _ _ hks] at hk
        have := findHoldingSlot_of_match hinv (validSymbol_normalizeSymbol symbolRaw) hk
        rw [hfind] at this
        simp only [Prod.mk.injEq, Option.some.injEq, and_true] at this
        exact hks this.symm
    refine ⟨?_, ?_⟩
    · rw [hstate, setCell_same]
    · exact not_found_of_noMatch
        (fun k _ => run_noMatch _ (validSymbol_normalizeSymbol symbolRaw) ops _ hops hno k)
  · intro s symbolRaw qty now slot hfind hq hlt hsold
    obtain ⟨-, -, hsome⟩ := (sell_success_iff s symbolRaw qty now hfind).mp hsold
    obtain ⟨⟨currentPrice, sector⟩, hsearch⟩ := Option.isSome_iff_exists.mp hsome
    obtain ⟨k, hk, -, hmatch⟩ := findHoldingSlot_found hfind
    simp only [Option.some.injEq] at hk
    subst hk
    have hnz : ¬ (s.holdingTable slot).quantity - qty = 0 := by omega
    have hstate : (sellStockInteractive s symbolRaw qty now).2.holdingTable =
        setCell s.holdingTable slot
          { (s.holdingTable slot) with
            quantity := (s.holdingTable slot).quantity - qty } := by
      rw [sell_of_found _ _ _ _ hfind hmatch.1, if_neg (by omega), if_neg (by omega), hsearch]
      simp only [if_neg hnz]
    rw [hstate]
    refine ⟨?_, ?_, ?_, ?_⟩
    · rw [setCell_same]; exact hmatch.1
    · rw [setCell_same]
    · rw [setCell_same]
    · exact (findHoldingSlot_setCell_same_keys s.holdingTable slot
        { (s.holdingTable slot) with quantity := (s.holdingTable slot).quantity - qty }
        (normalizeSymbol symbolRaw) rfl rfl).trans hfind

theorem reachable_statePrice200 : Reachable statePrice200 :=
  Reachable.step _ _ (Reachable.step _ _ (Reachable.step _ _ (Reachable.step _ _ Reachable.init)))

/-- Witness for C6: with 20 AAPL held and AAPL in the catalog, selling all 20
tombstones slot 20 and AAPL stays not found through a later sell, a catalog
insert and a buy of another symbol; selling 5 leaves 15 at the same average
cost. -/
theorem sell_all_or_part_witness :
    (((sellStockInteractive statePrice200 symLowerAAPL 20 dateToken).2.holdingTable 20).status =
        DELETED ∧
      (findHoldingSlot
        (run (sellStockInteractive statePrice200 symLowerAAPL 20 dateToken).2
          laterOps).holdingTable (normalizeSymbol symLowerAAPL)).2 = false) ∧
    (((sellStockInteractive statePrice200 symLowerAAPL 5 dateToken).2.holdingTable 20).status =
        OCCUPIED ∧
      ((sellStockInteractive statePrice200 symLowerAAPL 5 dateToken).2.holdingTable
        20).avgBuyPrice = (statePrice200.holdingTable 20).avgBuyPrice ∧
      ((sellStockInteractive statePrice200 symLowerAAPL 5 dateToken).2.holdingTable
        20).quantity = (statePrice200.holdingTable 20).quantity - 5 ∧
      findHoldingSlot (sellStockInteractive statePrice200 symLowerAAPL 5 dateToken).2.holdingTable
        (normalizeSymbol symLowerAAPL) = (some 20, true)) :=
  ⟨sell_all_or_part.1 statePrice200 symLowerAAPL 20 dateToken 20 laterOps
      (reachable_holdingsInv reachable_statePrice200) (by decide) (by decide) (by decide)
      (by
        intro op hop
        simp only [laterOps, List.mem_cons, List.mem_singleton, List.not_mem_nil,
          or_false] at hop
        rcases hop with rfl | rfl | rfl
        · trivial
        · trivial
        · show normalizeSymbol symB ≠ normalizeSymbol symLowerAAPL
          decide),
   sell_all_or_part.2 statePrice200 symLowerAAPL 5 dateToken 20 (by decide) (by decide)
      (by decide) (by decide)⟩

/-! ## Selling: outcomes -/

/-- C7: in every state whose holdings table satisfies `HoldingsInv` (every
reachable state does), with `symbol` the symbol as normalised: a sell fails
with NotFound when no Occupied holding exists for the symbol; with
InsufficientHoldings when one exists and the (positive) sell quantity exceeds
its quantity; with NotFound when one exists, the quantity is in range and the
catalog has no price for the symbol; and it succeeds exactly when an Occupied
holding exists, `0 < qty ≤` held quantity, and the catalog resolves the symbol
to a price. -/
theorem sell_outcomes (s : State) (symbolRaw : CStr) (qty : Int) (now : CStr)
    (hinv : HoldingsInv s.holdingTable) :
    ((∀ k, k < TABLE_SIZE → ¬ holdingMatches s.holdingTable (normalizeSymbol symbolRaw) k) →
      (sellStockInteractive s symbolRaw qty now).1.code = 0 ∧
      (sellStockInteractive s symbolRaw qty now).1.errorKind = some ErrorKind.NotFound) ∧
    (∀ k, holdingMatches s.holdingTable (normalizeSymbol symbolRaw) k →
      0 < qty → qty > (s.holdingTable k).quantity →
      (sellStockInteractive s symbolRaw qty now).1.code = 0 ∧
      (sellStockInteractive s symbolRaw qty now).1.errorKind =
        some ErrorKind.InsufficientHoldings) ∧
    (∀ k, holdingMatches s.holdingTable (normalizeSymbol symbolRaw) k →
      0 < qty → qty ≤ (s.holdingTable k).quantity →
      searchMarketStockExact s.marketTable (normalizeSymbol symbolRaw) = none →
      (sellStockInteractive s symbolRaw qty now).1.code = 0 ∧
      (sellStockInteractive s symbolRaw qty now).1.errorKind = some ErrorKind.NotFound) ∧
    ((sellStockInteractive s symbolRaw qty now).1.code = 1 ↔
      ∃ k, holdingMatches s.holdingTable (normalizeSymbol symbolRaw) k ∧
        0 < qty ∧ qty ≤ (s.holdingTable k).quantity ∧
        (searchMarketStockExact s.marketTable (normalizeSymbol symbolRaw)).isSome = true) := by
  have hv := validSymbol_normalizeSymbol symbolRaw
  refine ⟨?_, ?_, ?_, ?_⟩
  · intro hno
    rw [sell_of_not_found _ _ _ _ (not_found_of_noMatch hno)]
    exact ⟨rfl, rfl⟩
  · intro k hm hq hgt
    have hfind := findHoldingSlot_of_match hinv hv hm
    rw [sell_of_found _ _ _ _ hfind hm.1, if_neg (by omega), if_pos hgt]
    exact ⟨rfl, rfl⟩
  · intro k hm hq hle hnone
    have hfind := findHoldingSlot_of_match hinv hv hm
    rw [sell_of_found _ _ _ _ hfind hm.1, if_neg (by omega), if_neg (by omega), hnone]
    exact ⟨rfl, rfl⟩
  · constructor
    · intro hsold
      rcases hf : findHoldingSlot s.holdingTable (normalizeSymbol symbolRaw) with ⟨slot, found⟩
      cases found with
      | false =>
        rw [sell_of_not_found _ _ _ _ (by rw [hf])] at hsold
        simp [SellResult.code] at hsold
      | true =>
        obtain ⟨k, hk, -, hm⟩ := findHoldingSlot_found hf
        subst hk
        exact ⟨k, hm, (sell_success_iff s symbolRaw qty now hf).mp hsold⟩
    · rintro ⟨k, hm, hq, hle, hsome⟩
      exact (sell_success_iff s symbolRaw qty now (findHoldingSlot_of_match hinv hv hm)).mpr
        ⟨hq, hle, hsome⟩

theorem holdingsInv_stateUnpriced : HoldingsInv stateUnpriced.holdingTable :=
  holdingsInv_of_create initHoldingTable symAAPL 20 (holdingOf symAAPL) holdingsInv_init
    (by decide) (by decide) rfl rfl

/-- Witness for C7: with 20 AAPL held and priced, selling "B" is NotFound,
selling 25 AAPL is InsufficientHoldings and selling 5 AAPL succeeds; with one
AAPL held and an empty catalog, selling it is NotFound. -/
theorem sell_outcomes_witness :
    (sellStockInteractive statePrice200 symB 1 dateToken).1.errorKind =
      some ErrorKind.NotFound ∧
    (sellStockInteractive statePrice200 symLowerAAPL 25 dateToken).1.errorKind =
      some ErrorKind.InsufficientHoldings ∧
    (sellStockInteractive statePrice200 symLowerAAPL 5 dateToken).1.code = 1 ∧
    (sellStockInteractive stateUnpriced symLowerAAPL 1 dateToken).1.errorKind =
      some ErrorKind.NotFound :=
  ⟨((sell_outcomes statePrice200 symB 1 dateToken
        (reachable_holdingsInv reachable_statePrice200)).1
      (by decide)).2,
   ((sell_outcomes statePrice200 symLowerAAPL 25 dateToken
        (reachable_holdingsInv reachable_statePrice200)).2.1 20 (by decide) (by decide)
      (by decide)).2,
   (sell_outcomes statePrice200 symLowerAAPL 5 dateToken
        (reachable_holdingsInv reachable_statePrice200)).2.2.2.mpr
      ⟨20, by decide, by decide, by decide, by decide⟩,
   ((sell_outcomes stateUnpriced symLowerAAPL 1 dateToken holdingsInv_stateUnpriced).2.2.1 20
      (by decide) (by decide) (by decide) (by decide)).2⟩

/-! ## Buying: outcomes -/

theorem findHoldingSlot_full_iff (h : HoldingTable) (symbol : CStr) :
    (∃ found, findHoldingSlot h symbol = (none, found)) ↔
      ∀ k, k < TABLE_SIZE → (h k).status ≠ EMPTY ∧ (h k).status ≠ DELETED ∧
        ¬ holdingMatches h symbol k := by
  have hfull := (probeLoop_full_iff (fun k => (h k).status)
    (fun k => equalsIgnoreCase (h k).symbol symbol) (hash symbol)).1
  rw [← findHoldingSlot_eq_probeLoop] at hfull
  constructor
  · rintro ⟨found, hf⟩
    cases found with
    | false =>
      apply hfull.mp
      rw [hf]
      exact ⟨rfl, rfl⟩
    | true =>
      obtain ⟨k, hk, -, -⟩ := findHoldingSlot_found hf
      exact absurd hk (by simp)
  · intro hall
    have := hfull.mpr hall
    rcases hf : findHoldingSlot h symbol with ⟨slot, found⟩
    rw [hf] at this
    cases slot with
    | none => exact ⟨found, rfl⟩
    | some k =>
      simp only [slotCode] at this
      omega

/-- C8 (as amended): a buy fails with NotFound when the symbol is absent
from the catalog; otherwise with InvalidInput when the quantity or the price is
not positive; otherwise with Full when no slot of the holdings table is Empty,
Deleted or an Occupied holding of the symbol; in every other case it succeeds
and adds one Buy record (type 0) that carries the symbol in normalised
(upper-case) form, the submitted quantity and price, and the submitted
date-time token or, when that token is "now", the current date-time. -/
theorem buy_outcomes (s : State) (symbolRaw : CStr) (qty : Int) (buyPrice : ℚ)
    (dateIn now : CStr) :
    (searchMarketStockExact s.marketTable symbolRaw = none →
      (buyStockInteractive s symbolRaw qty buyPrice dateIn now).1.code = 0 ∧
      (buyStockInteractive s symbolRaw qty buyPrice dateIn now).1.errorKind =
        some ErrorKind.NotFound) ∧
    ((searchMarketStockExact s.marketTable symbolRaw).isSome = true →
      (qty ≤ 0 ∨ buyPrice ≤ 0) →
      (buyStockInteractive s symbolRaw qty buyPrice dateIn now).1.code = 0 ∧
      (buyStockInteractive s symbolRaw qty buyPrice dateIn now).1.errorKind =
        some ErrorKind.InvalidInput) ∧
    ((searchMarketStockExact s.marketTable symbolRaw).isSome = true →
      0 < qty → 0 < buyPrice →
      (∀ k, k < TABLE_SIZE → (s.holdingTable k).status ≠ EMPTY ∧
        (s.holdingTable k).status ≠ DELETED ∧
        ¬ holdingMatches s.holdingTable (normalizeSymbol symbolRaw) k) →
      (buyStockInteractive s symbolRaw qty buyPrice dateIn now).1.code = 0 ∧
      (buyStockInteractive s symbolRaw qty buyPrice dateIn now).1.errorKind =
        some ErrorKind.Full) ∧
    ((searchMarketStockExact s.marketTable symbolRaw).isSome = true →
      0 < qty → 0 < buyPrice →
      ¬ (∀ k, k < TABLE_SIZE → (s.holdingTable k).status ≠ EMPTY ∧
        (s.holdingTable k).status ≠ DELETED ∧
        ¬ holdingMatches s.holdingTable (normalizeSymbol symbolRaw) k) →
      (buyStockInteractive s symbolRaw qty buyPrice dateIn now).1.code = 1 ∧
      ledgerRecords (buyStockInteractive s symbolRaw qty buyPrice dateIn now).2 =
        recordsAfterAdd (ledgerRecords s)
          { symbol := normalizeSymbol symbolRaw, quantity := qty, pricePerShare := buyPrice,
            date := if dateIn = nowKeyword then now else dateIn, type := 0 }) := by
  refine ⟨?_, ?_, ?_, ?_⟩
  · intro hnone
    rw [buy_of_absent _ _ _ _ _ _ hnone]
    exact ⟨rfl, rfl⟩
  · intro hsome hbad
    obtain ⟨v, hsearch⟩ := Option.isSome_iff_exists.mp hsome
    by_cases hq : qty ≤ 0
    · rw [buy_of_bad_quantity _ _ _ _ _ _ hsearch hq]
      exact ⟨rfl, rfl⟩
    · have hp : buyPrice ≤ 0 := hbad.resolve_left hq
      rw [buy_of_bad_price _ _ _ _ _ _ hsearch (by omega) hp]
      exact ⟨rfl, rfl⟩
  · intro hsome hq hp hfull
    obtain ⟨v, hsearch⟩ := Option.isSome_iff_exists.mp hsome
    obtain ⟨found, hf⟩ := (findHoldingSlot_full_iff _ _).mpr hfull
    rw [buy_of_full _ _ _ _ _ _ hsearch hq hp hf]
    exact ⟨rfl, rfl⟩
  · intro hsome hq hp hnfull
    obtain ⟨⟨currentPrice, sector⟩, hsearch⟩ := Option.isSome_iff_exists.mp hsome
    rcases hf : findHoldingSlot s.holdingTable (normalizeSymbol symbolRaw) with
      ⟨_ | slot, found⟩
    · exact absurd ((findHoldingSlot_full_iff _ _).mp ⟨found, hf⟩) hnfull
    · cases found with
      | false =>
        rw [buy_of_new _ _ _ _ _ _ hsearch hq hp hf]
        exact ⟨rfl, ledgerRecords_addTransaction _ _ _ _ _ _⟩
      | true =>
        rw [buy_of_held _ _ _ _ _ _ hsearch hq hp hf]
        exact ⟨rfl, ledgerRecords_addTransaction _ _ _ _ _ _⟩

/-- Witness for C8: with only AAPL in the catalog, a buy of "B" is NotFound, a
buy of 0 AAPL is InvalidInput, and a buy of 10 AAPL at 150 succeeds and adds
the Buy record. -/
theorem buy_outcomes_witness :
    (buyStockInteractive stateCatalog symB 10 150 dateToken dateToken).1.errorKind =
      some ErrorKind.NotFound ∧
    (buyStockInteractive stateCatalog symAAPL 0 150 dateToken dateToken).1.errorKind =
      some ErrorKind.InvalidInput ∧
    ((buyStockInteractive stateCatalog symAAPL 10 150 dateToken dateToken).1.code = 1 ∧
      ledgerRecords (buyStockInteractive stateCatalog symAAPL 10 150 dateToken dateToken).2 =
        recordsAfterAdd (ledgerRecords stateCatalog)
          { symbol := normalizeSymbol symAAPL, quantity := 10, pricePerShare := 150,
            date := if dateToken = nowKeyword then dateToken else dateToken, type := 0 }) :=
  ⟨((buy_outcomes stateCatalog symB 10 150 dateToken dateToken).1 (by decide)).2,
   ((buy_outcomes stateCatalog symAAPL 0 150 dateToken dateToken).2.1 (by decide)
      (Or.inl (by decide))).2,
   (buy_outcomes stateCatalog symAAPL 10 150 dateToken dateToken).2.2.2 (by decide) (by decide)
      (by norm_num) (by decide)⟩

/-- C8 as stated fails: the symbol "aapl" submitted with the date token "now"
is recorded as "AAPL" with the current date-time; the record carries neither
the submitted symbol nor the submitted token. -/
theorem buy_outcomes_counterexample :
    (buyStockInteractive stateCatalog symLowerAAPL 10 150 nowKeyword dateToken).1.code = 1 ∧
    ledgerRecords (buyStockInteractive stateCatalog symLowerAAPL 10 150 nowKeyword dateToken).2 =
      [{ symbol := symAAPL, quantity := 10, pricePerShare := 150, date := dateToken,
         type := 0 }] ∧
    symAAPL ≠ symLowerAAPL ∧ dateToken ≠ nowKeyword := by
  refine ⟨by decide, by decide!, by decide, by decide⟩

/-! ## Selling: the record and the profit -/

/-- C9: every successful sell adds exactly one record to the history, after
the records already there (less the oldest when the history was full): a Sell
record (type 1) with the normalised symbol, the sold quantity and, as price
per share, the price `searchMarketStockExact` returns for the symbol in the
catalog at that moment; the average cost of the holding does not enter. -/
theorem sell_appends_record (s : State) (symbolRaw : CStr) (qty : Int) (now : CStr)
    (hsold : (sellStockInteractive s symbolRaw qty now).1.code = 1) :
    ∃ currentPrice sector,
      searchMarketStockExact s.marketTable (normalizeSymbol symbolRaw) =
        some (currentPrice, sector) ∧
      ledgerRecords (sellStockInteractive s symbolRaw qty now).2 =
        recordsAfterAdd (ledgerRecords s)
          { symbol := normalizeSymbol symbolRaw, quantity := qty, pricePerShare := currentPrice,
            date := now, type := 1 } := by
  rcases hf : findHoldingSlot s.holdingTable (normalizeSymbol symbolRaw) with ⟨slot, found⟩
  cases found with
  | false =>
    rw [sell_of_not_found _ _ _ _ (by rw [hf])] at hsold
    simp [SellResult.code] at hsold
  | true =>
    obtain ⟨k, hk, -, hm⟩ := findHoldingSlot_found hf
    subst hk
    obtain ⟨hq, hle, hsome⟩ := (sell_success_iff s symbolRaw qty now hf).mp hsold
    obtain ⟨⟨currentPrice, sector⟩, hsearch⟩ := Option.isSome_iff_exists.mp hsome
    refine ⟨currentPrice, sector, hsearch, ?_⟩
    rw [sell_of_found _ _ _ _ hf hm.1, if_neg (by omega), if_neg (by omega), hsearch]
    exact ledgerRecords_addTransaction _ _ _ _ _ _

/-- Witness for C9: 20 AAPL are held at average cost 160 and the catalog price
is 200; selling 5 adds the Sell record at 200 after the two Buy records. -/
theorem sell_appends_record_witness :
    (statePrice200.holdingTable 20).avgBuyPrice = 160 ∧
    ledgerRecords (sellStockInteractive statePrice200 symLowerAAPL 5 dateToken).2 =
      ledgerRecords statePrice200 ++
        [{ symbol := symAAPL, quantity := 5, pricePerShare := 200, date := dateToken,
           type := 1 }] := by
  obtain ⟨currentPrice, sector, hsearch, hrec⟩ :=
    sell_appends_record statePrice200 symLowerAAPL 5 dateToken (by decide)
  have hprice : searchMarketStockExact statePrice200.marketTable (normalizeSymbol symLowerAAPL) =
      some (200, sectorTECH) := by decide!
  rw [hprice] at hsearch
  simp only [Option.some.injEq, Prod.mk.injEq] at hsearch
  rw [hrec, ← hsearch.1]
  exact ⟨by decide!, by decide!⟩

/-- C10: for every successful sell the profit line printed carries
`(currentPrice - averageCost) * sellQuantity`, with `currentPrice` the catalog
price at the sale and `averageCost` that of the holding before the sale; in
the scenario (catalog AAPL at 150, buy 10 at 150, buy 10 at 170, catalog price
set to 200, sell 5) the profit is 200, the remaining quantity is 15 and the
average cost is still 160. -/
theorem sell_reports_profit :
    (∀ (s : State) (symbolRaw : CStr) (qty : Int) (now : CStr) (currentPrice : ℚ)
        (line : ProfitLine) (remaining : Int),
      (sellStockInteractive s symbolRaw qty now).1 =
        SellResult.sold currentPrice line remaining →
      ∃ slot sector,
        findHoldingSlot s.holdingTable (normalizeSymbol symbolRaw) = (some slot, true) ∧
        searchMarketStockExact s.marketTable (normalizeSymbol symbolRaw) =
          some (currentPrice, sector) ∧
        line.signed = (currentPrice - (s.holdingTable slot).avgBuyPrice) * qty ∧
        remaining = (s.holdingTable slot).quantity - qty) ∧
    (searchMarketStockExact stateCatalog.marketTable symAAPL = some (150, sectorTECH) ∧
      (stateBought10.holdingTable 20).quantity = 10 ∧
      (stateBought10.holdingTable 20).avgBuyPrice = 150 ∧
      (stateBought20.holdingTable 20).quantity = 20 ∧
      (stateBought20.holdingTable 20).avgBuyPrice = 160 ∧
      searchMarketStockExact statePrice200.marketTable symAAPL = some (200, sectorTECH) ∧
      (sellStockInteractive statePrice200 symAAPL 5 dateToken).1 =
        SellResult.sold 200 (ProfitLine.profit 200) 15 ∧
      ((sellStockInteractive statePrice200 symAAPL 5 dateToken).2.holdingTable 20).status =
        OCCUPIED ∧
      ((sellStockInteractive statePrice200 symAAPL 5 dateToken).2.holdingTable 20).quantity =
        15 ∧
      ((sellStockInteractive statePrice200 symAAPL 5 dateToken).2.holdingTable 20).avgBuyPrice =
        160) := by
  constructor
  · intro s symbolRaw qty now currentPrice line remaining hres
    rcases hf : findHoldingSlot s.holdingTable (normalizeSymbol symbolRaw) with ⟨slot, found⟩
    cases found with
    | false =>
      rw [sell_of_not_found _ _ _ _ (by rw [hf])] at hres
      simp at hres
    | true =>
      obtain ⟨k, hk, -, hm⟩ := findHoldingSlot_found hf
      subst hk
      rw [sell_of_found _ _ _ _ hf hm.1] at hres
      by_cases h1 : qty ≤ 0
      · rw [if_pos h1] at hres
        simp at hres
      · rw [if_neg h1] at hres
        by_cases h2 : qty > (s.holdingTable k).quantity
        · rw [if_pos h2] at hres
          simp at hres
        · rw [if_neg h2] at hres
          cases hsearch : searchMarketStockExact s.marketTable (normalizeSymbol symbolRaw) with
          | none =>
            rw [hsearch] at hres
            simp at hres
          | some v =>
            obtain ⟨cp, sector⟩ := v
            rw [hsearch] at hres
            simp only [SellResult.sold.injEq] at hres
            obtain ⟨hcp, hline, hrem⟩ := hres
            subst hcp
            refine ⟨k, sector, rfl, rfl, ?_, hrem.symm⟩
            rw [← hline]
            split_ifs with h3 h4
            · rfl
            · simp [ProfitLine.signed]
            · simp only [ProfitLine.signed]
              exact (le_antisymm (not_lt.mp h3) (not_lt.mp h4)).symm
  · refine ⟨by decide!, by decide!, by decide!, by decide!, by decide!, by decide!, by decide!,
      by decide!, by decide!, by decide!⟩

/-- Witness for C10: the sell of 5 AAPL at catalog price 200 against an
average cost of 160 prints a profit of (200 - 160) * 5. -/
theorem sell_reports_profit_witness :
    ∃ slot sector,
      findHoldingSlot statePrice200.holdingTable (normalizeSymbol symAAPL) = (some slot, true) ∧
      searchMarketStockExact statePrice200.marketTable (normalizeSymbol symAAPL) =
        some (200, sector) ∧
      (ProfitLine.profit 200).signed =
        (200 - (statePrice200.holdingTable slot).avgBuyPrice) * ((5 : Int) : ℚ) ∧
      (15 : Int) = (statePrice200.holdingTable slot).quantity - 5 :=
  sell_reports_profit.1 statePrice200 symAAPL 5 dateToken 200 (ProfitLine.profit 200) 15
    (by decide!)

/-! ## Failed operations change nothing -/

/-- C19: every failed buy (symbol not in the catalog, non-positive quantity
or price, holdings table Full) and every failed sell (no Occupied holding,
non-positive quantity, quantity above the held one, no catalog price) leaves
the whole state as it was: both tables, the transaction history and its count.
In particular a buy that fails with Full adds no record: the slot is resolved
before `addTransaction` is called. -/
theorem failed_operation_unchanged :
    (∀ (s : State) (symbolRaw : CStr) (qty : Int) (buyPrice : ℚ) (dateIn now : CStr),
      (buyStockInteractive s symbolRaw qty buyPrice dateIn now).1.code = 0 →
      (buyStockInteractive s symbolRaw qty buyPrice dateIn now).2 = s) ∧
    (∀ (s : State) (symbolRaw : CStr) (qty : Int) (now : CStr),
      (sellStockInteractive s symbolRaw qty now).1.code = 0 →
      (sellStockInteractive s symbolRaw qty now).2 = s) ∧
    (∀ (s : State) (symbolRaw : CStr) (qty : Int) (buyPrice : ℚ) (dateIn now : CStr),
      (buyStockInteractive s symbolRaw qty buyPrice dateIn now).1 = BuyResult.tableFull →
      ledgerRecords (buyStockInteractive s symbolRaw qty buyPrice dateIn now).2 =
        ledgerRecords s) := by
  have hbuy : ∀ (s : State) (symbolRaw : CStr) (qty : Int) (buyPrice : ℚ) (dateIn now : CStr),
      (buyStockInteractive s symbolRaw qty buyPrice dateIn now).1.code = 0 →
      (buyStockInteractive s symbolRaw qty buyPrice dateIn now).2 = s := by
    intro s symbolRaw qty buyPrice dateIn now hfail
    cases hsearch : searchMarketStockExact s.marketTable symbolRaw with
    | none => rw [buy_of_absent _ _ _ _ _ _ hsearch]
    | some v =>
      obtain ⟨currentPrice, sector⟩ := v
      by_cases hq : qty ≤ 0
      · rw [buy_of_bad_quantity _ _ _ _ _ _ hsearch hq]
      · by_cases hp : buyPrice ≤ 0
        · rw [buy_of_bad_price _ _ _ _ _ _ hsearch (by omega) hp]
        · rcases hfind : findHoldingSlot s.holdingTable (normalizeSymbol symbolRaw) with
            ⟨_ | slot, found⟩
          · rw [buy_of_full _ _ _ _ _ _ hsearch (by omega) (not_le.mp hp) hfind]
          · cases found with
            | false =>
              rw [buy_of_new _ _ _ _ _ _ hsearch (by omega) (not_le.mp hp) hfind] at hfail
              simp [BuyResult.code] at hfail
            | true =>
              rw [buy_of_held _ _ _ _ _ _ hsearch (by omega) (not_le.mp hp) hfind] at hfail
              simp [BuyResult.code] at hfail
  refine ⟨hbuy, ?_, ?_⟩
  · intro s symbolRaw qty now hfail
    rcases hfind : findHoldingSlot s.holdingTable (normalizeSymbol symbolRaw) with
      ⟨slot, found⟩
    cases found with
    | false => rw [sell_of_not_found _ _ _ _ (by rw [hfind])]
    | true =>
      obtain ⟨k, hk, -, hmatch⟩ := findHoldingSlot_found hfind
      subst hk
      rw [sell_of_found _ _ _ _ hfind hmatch.1] at hfail ⊢
      by_cases h1 : qty ≤ 0
      · rw [if_pos h1]
      · rw [if_neg h1] at hfail ⊢
        by_cases h2 : qty > (s.holdingTable k).quantity
        · rw [if_pos h2]
        · rw [if_neg h2] at hfail ⊢
          cases hs : searchMarketStockExact s.marketTable (normalizeSymbol symbolRaw) with
          | none => rfl
          | some v =>
            obtain ⟨currentPrice, sector⟩ := v
            rw [hs] at hfail
            simp [SellResult.code] at hfail
  · intro s symbolRaw qty buyPrice dateIn now hfull
    rw [hbuy s symbolRaw qty buyPrice dateIn now (by rw [hfull]; rfl)]

/-- Witness for C19: with only AAPL in the catalog and nothing held, a buy of
"B", a buy of 0 AAPL and a sell of AAPL fail and return the state they were
given; with every holdings slot taken by "B", a buy of AAPL fails with Full
and the records are those from before. -/
theorem failed_operation_unchanged_witness :
    (buyStockInteractive stateCatalog symB 10 150 dateToken dateToken).2 = stateCatalog ∧
    (buyStockInteractive stateCatalog symAAPL 0 150 dateToken dateToken).2 = stateCatalog ∧
    (sellStockInteractive stateCatalog symAAPL 1 dateToken).2 = stateCatalog ∧
    ((buyStockInteractive stateHoldingsFull symAAPL 10 150 dateToken dateToken).1 =
        BuyResult.tableFull ∧
      ledgerRecords (buyStockInteractive stateHoldingsFull symAAPL 10 150 dateToken dateToken).2 =
        ledgerRecords stateHoldingsFull) :=
  ⟨failed_operation_unchanged.1 stateCatalog symB 10 150 dateToken dateToken (by decide),
   failed_operation_unchanged.1 stateCatalog symAAPL 0 150 dateToken dateToken (by decide),
   failed_operation_unchanged.2.1 stateCatalog symAAPL 1 dateToken (by decide),
   by decide!,
   failed_operation_unchanged.2.2 stateHoldingsFull symAAPL 10 150 dateToken dateToken
     (by decide!)⟩

/-! ## The history keeps the last `MAX_TRANSACTIONS` records -/

theorem recordsAfterAdd_length_le (records : List TransactionEntry) (entry : TransactionEntry)
    (h : records.length ≤ MAX_TRANSACTIONS) :
    (recordsAfterAdd records entry).length ≤ MAX_TRANSACTIONS := by
  unfold recordsAfterAdd
  split_ifs with hfull
  · simp only [List.length_append, List.length_take, List.length_drop, List.length_singleton]
    simp only [MAX_TRANSACTIONS] at h hfull ⊢
    omega
  · simp only [List.length_append, List.length_singleton]
    simp only [MAX_TRANSACTIONS] at h hfull ⊢
    omega

theorem drop_recordsAfterAdd (records rest : List TransactionEntry) (entry : TransactionEntry)
    (h : records.length ≤ MAX_TRANSACTIONS) :
    (recordsAfterAdd records entry ++ rest).drop
        ((recordsAfterAdd records entry ++ rest).length - MAX_TRANSACTIONS) =
      (records ++ entry :: rest).drop ((records ++ entry :: rest).length - MAX_TRANSACTIONS) := by
  unfold recordsAfterAdd
  by_cases hfull : records.length ≥ MAX_TRANSACTIONS
  · rw [if_pos hfull]
    have hlen : records.length = MAX_TRANSACTIONS := le_antisymm h hfull
    have htake : (records.drop 1).take (MAX_TRANSACTIONS - 1) = records.drop 1 := by
      apply List.take_of_length_le
      simp only [List.length_drop, hlen]
      exact le_refl _
    rw [htake]
    have hsplit : records ++ entry :: rest = records.take 1 ++ (records.drop 1 ++ entry :: rest) := by
      rw [← List.append_assoc, List.take_append_drop]
    have htl : (records.take 1).length = 1 := by
      rw [List.length_take, hlen]
      rfl
    have e1 : (records.drop 1 ++ [entry] ++ rest) = records.drop 1 ++ entry :: rest := by
      simp
    rw [e1]
    have hl1 : (records.drop 1 ++ entry :: rest).length = MAX_TRANSACTIONS + rest.length := by
      simp only [List.length_append, List.length_drop, List.length_cons, hlen]
      simp only [MAX_TRANSACTIONS]
      omega
    have hl2 : (records ++ entry :: rest).length = MAX_TRANSACTIONS + 1 + rest.length := by
      simp only [List.length_append, List.length_cons, hlen]
      omega
    rw [hl1, hl2, hsplit]
    have e2 : MAX_TRANSACTIONS + 1 + rest.length - MAX_TRANSACTIONS =
        (records.take 1).length + rest.length := by
      rw [htl]
      omega
    have e3 : MAX_TRANSACTIONS + rest.length - MAX_TRANSACTIONS = rest.length := by omega
    rw [e2, e3, List.drop_append]
  · rw [if_neg hfull]
    simp

/-- From any history of at most `MAX_TRANSACTIONS` records, adding `records`
leaves the last `MAX_TRANSACTIONS` of the old records followed by the new. -/
theorem ledgerRecords_addRecords :
    ∀ (records : List TransactionEntry) (s : State),
      s.transactionCount ≤ MAX_TRANSACTIONS →
      ledgerRecords (addRecords s records) =
        (ledgerRecords s ++ records).drop
          ((ledgerRecords s ++ records).length - MAX_TRANSACTIONS)
  | [], s, h => by
    have hl := ledgerRecords_length s
    simp only [addRecords, List.foldl_nil, List.append_nil]
    rw [hl, Nat.sub_eq_zero_of_le h, List.drop_zero]
  | r :: rs, s, h => by
    have hl := ledgerRecords_length s
    have hstep : addRecords s (r :: rs) =
        addRecords (addTransaction s r.symbol r.quantity r.pricePerShare r.date r.type) rs := rfl
    have hrec := ledgerRecords_addTransaction s r.symbol r.quantity r.pricePerShare r.date r.type
    have hle : (addTransaction s r.symbol r.quantity r.pricePerShare r.date
        r.type).transactionCount ≤ MAX_TRANSACTIONS := by
      rw [← ledgerRecords_length, hrec]
      exact recordsAfterAdd_length_le _ _ (by rw [hl]; exact h)
    rw [hstep, ledgerRecords_addRecords rs _ hle, hrec]
    exact drop_recordsAfterAdd (ledgerRecords s) rs r (by rw [hl]; exact h)

/-- C12: for every sequence of `n` records added with `addTransaction` to an
empty history (`transactionCount = 0`), the history afterwards holds exactly
`min n MAX_TRANSACTIONS` records, namely the last `min n MAX_TRANSACTIONS`
records of the sequence in their original order; for `n = MAX_TRANSACTIONS + k`
with `k ≥ 1` these are exactly `MAX_TRANSACTIONS` records. -/
theorem history_keeps_last (s : State) (records : List TransactionEntry)
    (hempty : s.transactionCount = 0) :
    ledgerRecords (addRecords s records) =
      records.drop (records.length - min records.length MAX_TRANSACTIONS) ∧
    (ledgerRecords (addRecords s records)).length = min records.length MAX_TRANSACTIONS ∧
    (addRecords s records).transactionCount = min records.length MAX_TRANSACTIONS ∧
    (∀ k, 1 ≤ k → records.length = MAX_TRANSACTIONS + k →
      (ledgerRecords (addRecords s records)).length = MAX_TRANSACTIONS) := by
  have hnil : ledgerRecords s = [] := by
    apply List.eq_nil_of_length_eq_zero
    rw [ledgerRecords_length, hempty]
  have hmain := ledgerRecords_addRecords records s (by rw [hempty]; exact Nat.zero_le _)
  rw [hnil, List.nil_append] at hmain
  have hsub : records.length - min records.length MAX_TRANSACTIONS =
      records.length - MAX_TRANSACTIONS := by omega
  have hlen : (ledgerRecords (addRecords s records)).length =
      min records.length MAX_TRANSACTIONS := by
    rw [hmain, List.length_drop]
    omega
  refine ⟨by rw [hsub]; exact hmain, hlen, ?_, ?_⟩
  · rw [← ledgerRecords_length]
    exact hlen
  · intro k hk hn
    rw [hlen, hn]
    omega

/-- Witness for C12: three records added to the history of the initial state
are all kept, in order; of 1001 records (quantities 0 to 1000) the history
keeps 1000, the oldest of them being the second one added. -/
theorem history_keeps_last_witness :
    ledgerRecords (addRecords initState [recordOf 1, recordOf 2, recordOf 3]) =
      [recordOf 1, recordOf 2, recordOf 3] ∧
    (addRecords initState [recordOf 1, recordOf 2, recordOf 3]).transactionCount = 3 ∧
    (ledgerRecords (addRecords initState ((List.range 1001).map recordOf))).length = 1000 ∧
    (ledgerRecords (addRecords initState ((List.range 1001).map recordOf))).head? =
      some (recordOf 1) := by
  have h3 := history_keeps_last initState [recordOf 1, recordOf 2, recordOf 3] rfl
  have hbig := history_keeps_last initState ((List.range 1001).map recordOf) rfl
  refine ⟨h3.1, h3.2.2.1, ?_, ?_⟩
  · exact hbig.2.2.2 1 (le_refl 1) (by simp)
  · rw [hbig.1]
    have hlen : ((List.range 1001).map recordOf).length = 1001 := by simp
    rw [hlen]
    decide!

/-! ## Prefix search -/

theorem startsWithLoop_iff (text pfx : CStr) :
    ∀ (n i : Nat), startsWithLoop text pfx n i = true ↔
      ∀ k, i ≤ k → k < i + n → tolower (text.getD k 0) = tolower (pfx.getD k 0) := by
  intro n
  induction n with
  | zero =>
    intro i
    simp only [startsWithLoop, true_iff]
    intro k h1 h2
    omega
  | succ n ih =>
    intro i
    simp only [startsWithLoop]
    by_cases hc : tolower (text.getD i 0) = tolower (pfx.getD i 0)
    · simp only [hc, ne_eq, not_true_eq_false, if_false]
      rw [ih (i + 1)]
      constructor
      · intro h k hk1 hk2
        by_cases hki : k = i
        · subst hki; exact hc
        · exact h k (by omega) (by omega)
      · intro h k hk1 hk2
        exact h k (by omega) (by omega)
    · simp only [ne_eq, hc, not_false_eq_true, if_true]
      constructor
      · intro h; exact absurd h (by decide)
      · intro h
        exact absurd (h i (le_refl i) (by omega)) hc

theorem startsWithIgnoreCase_iff (text pfx : CStr) :
    startsWithIgnoreCase text pfx = true ↔
      pfx.length ≤ text.length ∧ (text.take pfx.length).map tolower = pfx.map tolower := by
  unfold startsWithIgnoreCase
  by_cases hlen : pfx.length > text.length
  · rw [if_pos hlen]
    constructor
    · intro h; exact absurd h (by decide)
    · intro h; omega
  · rw [if_neg hlen, startsWithLoop_iff]
    have hle : pfx.length ≤ text.length := by omega
    constructor
    · intro h
      refine ⟨hle, ?_⟩
      apply List.ext_getElem
      · simp only [List.length_map, List.length_take]
        omega
      · intro k h1 h2
        simp only [List.length_map] at h2
        have := h k (Nat.zero_le _) (by omega)
        simp only [List.getElem_map, List.getElem_take]
        rw [List.getD_eq_getElem _ _ (by omega), List.getD_eq_getElem _ _ h2] at this
        exact this
    · rintro ⟨-, heq⟩ k - hk
      have hk' : k < pfx.length := by omega
      have h1 : k < ((text.take pfx.length).map tolower).length := by
        simp only [List.length_map, List.length_take]
        omega
      have h2 : k < (pfx.map tolower).length := by
        simp only [List.length_map]
        exact hk'
      have := List.getElem_of_eq heq h1
      simp only [List.getElem_map, List.getElem_take] at this
      rw [List.getD_eq_getElem _ _ (by omega), List.getD_eq_getElem _ _ hk']
      exact this

theorem prefixSearchLoop_eq (t : MarketTable) (input : CStr) :
    ∀ (n i : Nat), prefixSearchLoop t input n i =
      ((List.range' i n).filter (fun k => decide ((t k).status = OCCUPIED ∧
          startsWithIgnoreCase (t k).symbol input = true))).map
        (fun k => ((t k).symbol, (t k).sector, (t k).price)) := by
  intro n
  induction n with
  | zero => intro i; rfl
  | succ n ih =>
    intro i
    simp only [prefixSearchLoop, List.range'_succ, List.filter_cons]
    by_cases hc : (t i).status = OCCUPIED ∧ startsWithIgnoreCase (t i).symbol input = true
    · simp only [hc, and_self, if_true, decide_True, List.map_cons, ih (i + 1)]
    · simp only [hc, if_false, decide_False, ih (i + 1)]
      rfl

/-- C13: the prefix search prints exactly the entries of the Occupied slots
whose symbol satisfies `startsWithIgnoreCase` with the token, in slot order;
`startsWithIgnoreCase text pfx` holds iff `pfx` is no longer than `text` and
agrees with the first `pfx.length` characters of `text` after `tolower`; after
"aapl" is inserted into the empty catalog the prefix "AA" returns it. -/
theorem prefix_search_selects :
    (∀ (marketTable : MarketTable) (input : CStr),
      searchMarketStocksInteractive marketTable 2 input =
        SearchOutput.prefixLines
          (((List.range TABLE_SIZE).filter (fun k => decide
              ((marketTable k).status = OCCUPIED ∧
                startsWithIgnoreCase (marketTable k).symbol input = true))).map
            (fun k => ((marketTable k).symbol, (marketTable k).sector,
              (marketTable k).price)))) ∧
    (∀ (text pfx : CStr), startsWithIgnoreCase text pfx = true ↔
      pfx.length ≤ text.length ∧ (text.take pfx.length).map tolower = pfx.map tolower) ∧
    searchMarketStocksInteractive
        (insertMarketStockInteractive initState symLowerAAPL 0 (sectorTECH ++ [10])
          150).2.marketTable 2 tokenAA =
      SearchOutput.prefixLines [(symAAPL, sectorTECH, 150)] := by
  refine ⟨?_, startsWithIgnoreCase_iff, by decide!⟩
  intro t input
  simp only [searchMarketStocksInteractive]
  rw [if_neg (by decide), if_pos trivial, prefixSearchLoop_eq, List.range_eq_range']

/-! ## The probe origin and letter case -/

theorem marketInv_init : MarketInv initMarketTable := by
  intro i hi
  simp [initMarketTable] at hi

theorem findMarketSlot_setCell_same_keys (m : MarketTable) (slot : Nat) (entry : MarketEntry)
    (key : CStr) (hst : entry.status = (m slot).status) (hsym : entry.symbol = (m slot).symbol) :
    findMarketSlot (setCell m slot entry) key = findMarketSlot m key := by
  have hs : ∀ k, (setCell m slot entry k).status = (m k).status := by
    intro k
    by_cases hk : k = slot
    · subst hk; rw [setCell_same, hst]
    · rw [setCell_other _ _ hk]
  have hy : ∀ k, (setCell m slot entry k).symbol = (m k).symbol := by
    intro k
    by_cases hk : k = slot
    · subst hk; rw [setCell_same, hsym]
    · rw [setCell_other _ _ hk]
  rw [findMarketSlot_eq_probeLoop, findMarketSlot_eq_probeLoop]
  simp only [hs, hy]

/-- An overwrite that keeps the status and the symbol of the slot keeps the
catalog invariant. -/
theorem marketInv_of_same_keys (m : MarketTable) (slot : Nat) (entry : MarketEntry)
    (hinv : MarketInv m) (hst : entry.status = (m slot).status)
    (hsym : entry.symbol = (m slot).symbol) : MarketInv (setCell m slot entry) := by
  intro i hi
  have hs : (setCell m slot entry i).status = (m i).status := by
    by_cases hk : i = slot
    · subst hk; rw [setCell_same, hst]
    · rw [setCell_other _ _ hk]
  have hy : (setCell m slot entry i).symbol = (m i).symbol := by
    by_cases hk : i = slot
    · subst hk; rw [setCell_same, hsym]
    · rw [setCell_other _ _ hk]
  rw [hs] at hi
  rw [hy, findMarketSlot_setCell_same_keys m slot entry _ hst hsym]
  exact hinv i hi

/-- Creating an entry in the slot `findMarketSlot` returned as not found keeps
the catalog invariant. -/
theorem marketInv_of_create (m : MarketTable) (symbol : CStr) (slot : Nat)
    (entry : MarketEntry) (hinv : MarketInv m) (hvalid : toUpperStr symbol = symbol)
    (hfind : findMarketSlot m symbol = (some slot, false))
    (hst : entry.status = OCCUPIED) (hsym : entry.symbol = symbol) :
    MarketInv (setCell m slot entry) := by
  intro i hi
  by_cases his : i = slot
  · subst his
    rw [setCell_same, hsym]
    refine ⟨hvalid, ?_⟩
    rw [findMarketSlot_eq_probeLoop] at hfind ⊢
    obtain ⟨j, -, -, -, hres⟩ := probeLoop_after_store _
      (fun k => (setCell m i entry k).status) _
      (fun k => equalsIgnoreCase (setCell m i entry k).symbol symbol) (hash symbol) hfind
      (fun k hk => by simp [setCell_other _ _ hk])
      (by simp [setCell_same, hst]) (by simp [setCell_same, hsym, equalsIgnoreCase_refl])
    exact hres
  · rw [setCell_other _ _ his] at hi ⊢
    obtain ⟨hv, hf⟩ := hinv i hi
    refine ⟨hv, ?_⟩
    rw [findMarketSlot_eq_probeLoop] at hf ⊢
    refine probeLoop_hit_stable _ _ _ _ _ hf (by simp [setCell_other _ _ his, hi])
      (by simp [setCell_other _ _ his, equalsIgnoreCase_refl]) ?_
    intro k hk
    by_cases hks : k = slot
    · subst hks
      simp only [setCell_same, hst, hsym]
      refine ⟨fun hc => absurd hc (by decide), fun _ hm => ?_⟩
      have heq : symbol = (m i).symbol := eq_of_equalsIgnoreCase _ _ hvalid hv hm
      rw [heq, (hinv i hi).2] at hfind
      simp at hfind
    · simp only [setCell_other _ _ hks]
      exact ⟨fun hc => hc, fun h1 h2 => ⟨h1, h2⟩⟩

/-- The found flag of `findMarketSlot` is set only on an Occupied match. -/
theorem findMarketSlot_found {m : MarketTable} {symbol : CStr} {slot : Option Nat}
    (hf : findMarketSlot m symbol = (slot, true)) :
    ∃ k, slot = some k ∧ k < TABLE_SIZE ∧ marketMatches m symbol k := by
  rw [findMarketSlot_eq_probeLoop] at hf
  cases slot with
  | none =>
    rcases probeLoop_cases (fun k => (m k).status)
        (fun k => equalsIgnoreCase (m k).symbol symbol) (hash symbol) with
      ⟨j, _, _, _, _, hr⟩ | ⟨e, d, _, _, _, _, _, _, hr⟩ | ⟨e, _, _, _, _, hr⟩ |
      ⟨d, _, _, _, _, hr⟩ | ⟨_, _, hr⟩ <;> rw [hr] at hf <;> simp at hf
  | some k =>
    obtain ⟨j, -, hslot, -, hfound, -⟩ := probeLoop_result_position _ _ _ hf
    refine ⟨k, rfl, ?_, hfound rfl⟩
    rw [hslot]
    exact probeSlot_lt _ _

/-- The store step keeps the catalog invariant. -/
theorem marketInv_of_store (m newTable : MarketTable) (symbol sector : CStr) (price : ℚ)
    (found : Bool) (hinv : MarketInv m) (hvalid : toUpperStr symbol = symbol)
    (hstore : storeMarketStock m symbol sector price = some (newTable, found)) :
    MarketInv newTable := by
  unfold storeMarketStock at hstore
  rcases hfind : findMarketSlot m symbol with ⟨_ | slot, fnd⟩
  · rw [hfind] at hstore
    simp at hstore
  · rw [hfind] at hstore
    simp only [Option.some.injEq, Prod.mk.injEq] at hstore
    obtain ⟨htab, -⟩ := hstore
    subst htab
    cases fnd with
    | false => exact marketInv_of_create m symbol slot _ hinv hvalid hfind rfl rfl
    | true =>
      obtain ⟨k, hk, -, hm⟩ := findMarketSlot_found hfind
      simp only [Option.some.injEq] at hk
      subst hk
      have heq : (m slot).symbol = symbol :=
        eq_of_equalsIgnoreCase _ _ (hinv slot hm.1).1 hvalid hm.2
      exact marketInv_of_same_keys m slot _ hinv hm.1.symm heq.symm

theorem buy_marketTable (s : State) (symbolRaw : CStr) (qty : Int) (buyPrice : ℚ)
    (dateIn now : CStr) :
    (buyStockInteractive s symbolRaw qty buyPrice dateIn now).2.marketTable = s.marketTable := by
  cases hsearch : searchMarketStockExact s.marketTable symbolRaw with
  | none => rw [buy_of_absent _ _ _ _ _ _ hsearch]
  | some v =>
    obtain ⟨currentPrice, sector⟩ := v
    by_cases hq : qty ≤ 0
    · rw [buy_of_bad_quantity _ _ _ _ _ _ hsearch hq]
    · by_cases hp : buyPrice ≤ 0
      · rw [buy_of_bad_price _ _ _ _ _ _ hsearch (by omega) hp]
      · rcases hfind : findHoldingSlot s.holdingTable (normalizeSymbol symbolRaw) with
          ⟨_ | slot, found⟩
        · rw [buy_of_full _ _ _ _ _ _ hsearch (by omega) (not_le.mp hp) hfind]
        · cases found with
          | false =>
            rw [buy_of_new _ _ _ _ _ _ hsearch (by omega) (not_le.mp hp) hfind]
            simp only [(addTransaction_tables _ _ _ _ _ _).1]
          | true =>
            rw [buy_of_held _ _ _ _ _ _ hsearch (by omega) (not_le.mp hp) hfind]
            simp only [(addTransaction_tables _ _ _ _ _ _).1]

theorem sell_marketTable (s : State) (symbolRaw : CStr) (qty : Int) (now : CStr) :
    (sellStockInteractive s symbolRaw qty now).2.marketTable = s.marketTable := by
  rcases hfind : findHoldingSlot s.holdingTable (normalizeSymbol symbolRaw) with
    ⟨slot, found⟩
  cases found with
  | false => rw [sell_of_not_found _ _ _ _ (by rw [hfind])]
  | true =>
    obtain ⟨k, hk, -, hmatch⟩ := findHoldingSlot_found hfind
    subst hk
    rw [sell_of_found _ _ _ _ hfind hmatch.1]
    by_cases h1 : qty ≤ 0
    · rw [if_pos h1]
    · rw [if_neg h1]
      by_cases h2 : qty > (s.holdingTable k).quantity
      · rw [if_pos h2]
      · rw [if_neg h2]
        cases searchMarketStockExact s.marketTable (normalizeSymbol symbolRaw) with
        | none => rfl
        | some v =>
          obtain ⟨currentPrice, sector⟩ := v
          simp only [(addTransaction_tables _ _ _ _ _ _).1]

/-- What a catalog insert does to the market table: nothing, or the store
step on the upper-cased symbol. -/
theorem insert_marketTable (s : State) (symbolIn : CStr) (choice : Nat) (sectorIn : CStr)
    (price : ℚ) :
    (insertMarketStockInteractive s symbolIn choice sectorIn price).2.marketTable =
        s.marketTable ∨
      ∃ found, storeMarketStock s.marketTable (toUpperStr symbolIn)
          ((toUpperStr sectorIn).takeWhile (fun c => c ≠ 10)) price =
        some ((insertMarketStockInteractive s symbolIn choice sectorIn price).2.marketTable,
          found) := by
  unfold insertMarketStockInteractive
  simp only []
  by_cases h1 : (searchMarketStockExact s.marketTable (toUpperStr symbolIn)).isSome = true ∧
      choice ≠ 121 ∧ choice ≠ 89
  · rw [if_pos h1]
    exact Or.inl rfl
  · rw [if_neg h1]
    by_cases h2 : price ≤ 0
    · rw [if_pos h2]
      exact Or.inl rfl
    · rw [if_neg h2]
      cases hstore : storeMarketStock s.marketTable (toUpperStr symbolIn)
          ((toUpperStr sectorIn).takeWhile (fun c => c ≠ 10)) price with
      | none => exact Or.inl rfl
      | some v =>
        obtain ⟨newTable, found⟩ := v
        exact Or.inr ⟨found, rfl⟩

theorem step_marketInv (s : State) (op : Op) (hinv : MarketInv s.marketTable) :
    MarketInv (step s op).marketTable := by
  cases op with
  | insert symbolIn choice sectorIn price =>
    simp only [step]
    rcases insert_marketTable s symbolIn choice sectorIn price with h | ⟨found, h⟩
    · rw [h]; exact hinv
    · exact marketInv_of_store _ _ _ _ _ _ hinv (toUpperStr_idem _) h
  | buy symbolRaw qty buyPrice dateIn now =>
    simp only [step, buy_marketTable]
    exact hinv
  | sell symbolRaw qty now =>
    simp only [step, sell_marketTable]
    exact hinv

/-- In every reachable state the catalog invariant holds. -/
theorem reachable_marketInv {s : State} (h : Reachable s) : MarketInv s.marketTable := by
  induction h with
  | init => exact marketInv_init
  | step s op _ ih => exact step_marketInv s op ih

/-- A slot found for a key is reached along a path with no Empty slot. -/
theorem probeLoop_found_path (st : Nat → EntryStatus) (mt : Nat → Bool) (index : Nat) {i : Nat}
    (h : probeLoop st mt index TABLE_SIZE 0 none = (some i, true)) :
    ∃ p, p < TABLE_SIZE ∧ probeSlot index p = i ∧
      ∀ k, k < p → st (probeSlot index k) ≠ EMPTY := by
  obtain ⟨j, hj, hslot, hmin, -, -⟩ := probeLoop_result_position st mt index h
  exact ⟨j, hj, hslot.symm, fun k hk he => hmin k hk (Or.inl he)⟩

/-- C18: in every state reachable from the initial one through catalog
inserts, buys and sells, for both tables: for every Occupied slot `i`,
`findHoldingSlot` / `findMarketSlot` on the symbol stored in `i` returns `i`
with `found = 1`; two Occupied slots never hold symbols that are equal
ignoring case; and every Occupied slot lies on the probe path of its symbol
with no Empty slot before it (tombstones before it are walked through). -/
theorem occupied_slots_found (s : State) (hreach : Reachable s) :
    ((∀ i, (s.holdingTable i).status = OCCUPIED →
        findHoldingSlot s.holdingTable (s.holdingTable i).symbol = (some i, true)) ∧
      (∀ i j, (s.holdingTable i).status = OCCUPIED → (s.holdingTable j).status = OCCUPIED →
        equalsIgnoreCase (s.holdingTable i).symbol (s.holdingTable j).symbol = true → i = j) ∧
      (∀ i, (s.holdingTable i).status = OCCUPIED →
        ∃ p, p < TABLE_SIZE ∧ probeSlot (hash (s.holdingTable i).symbol) p = i ∧
          ∀ k, k < p →
            (s.holdingTable (probeSlot (hash (s.holdingTable i).symbol) k)).status ≠ EMPTY)) ∧
    ((∀ i, (s.marketTable i).status = OCCUPIED →
        findMarketSlot s.marketTable (s.marketTable i).symbol = (some i, true)) ∧
      (∀ i j, (s.marketTable i).status = OCCUPIED → (s.marketTable j).status = OCCUPIED →
        equalsIgnoreCase (s.marketTable i).symbol (s.marketTable j).symbol = true → i = j) ∧
      (∀ i, (s.marketTable i).status = OCCUPIED →
        ∃ p, p < TABLE_SIZE ∧ probeSlot (hash (s.marketTable i).symbol) p = i ∧
          ∀ k, k < p →
            (s.marketTable (probeSlot (hash (s.marketTable i).symbol) k)).status ≠ EMPTY)) := by
  have hh := reachable_holdingsInv hreach
  have hm := reachable_marketInv hreach
  refine ⟨⟨fun i hi => (hh i hi).2, ?_, ?_⟩, ⟨fun i hi => (hm i hi).2, ?_, ?_⟩⟩
  · intro i j hi hj heq
    have hsym := eq_of_valid_match (hh i hi).1 (hh j hj).1 heq
    have h1 := (hh i hi).2
    rw [hsym, (hh j hj).2] at h1
    simp only [Prod.mk.injEq, Option.some.injEq, and_true] at h1
    exact h1.symm
  · intro i hi
    have h1 := (hh i hi).2
    rw [findHoldingSlot_eq_probeLoop] at h1
    exact probeLoop_found_path _ _ _ h1
  · intro i j hi hj heq
    have hsym := eq_of_equalsIgnoreCase _ _ (hm i hi).1 (hm j hj).1 heq
    have h1 := (hm i hi).2
    rw [hsym, (hm j hj).2] at h1
    simp only [Prod.mk.injEq, Option.some.injEq, and_true] at h1
    exact h1.symm
  · intro i hi
    have h1 := (hm i hi).2
    rw [findMarketSlot_eq_probeLoop] at h1
    exact probeLoop_found_path _ _ _ h1

/-- Witness for C18: after the catalog insert of AAPL, two buys and the price
update, the holding and the catalog entry of AAPL, both in slot 20, are found
there. -/
theorem occupied_slots_found_witness :
    (statePrice200.holdingTable 20).status = OCCUPIED ∧
    findHoldingSlot statePrice200.holdingTable (statePrice200.holdingTable 20).symbol =
      (some 20, true) ∧
    (statePrice200.marketTable 20).status = OCCUPIED ∧
    findMarketSlot statePrice200.marketTable (statePrice200.marketTable 20).symbol =
      (some 20, true) :=
  ⟨by decide,
   (occupied_slots_found statePrice200 reachable_statePrice200).1.1 20 (by decide),
   by decide,
   (occupied_slots_found statePrice200 reachable_statePrice200).2.1 20 (by decide)⟩

/-! ## Occupied slots and positive quantities -/

theorem step_quantity_positive (s : State) (op : Op) (hop : op.inRange s)
    (hq : ∀ i, (s.holdingTable i).status = OCCUPIED ↔ 0 < (s.holdingTable i).quantity) :
    ∀ i, ((step s op).holdingTable i).status = OCCUPIED ↔
      0 < ((step s op).holdingTable i).quantity := by
  cases op with
  | insert symbolIn choice sectorIn price =>
    simp only [step, insert_holdingTable]
    exact hq
  | buy symbolRaw qty buyPrice dateIn now =>
    simp only [step]
    simp only [Op.inRange] at hop
    cases hsearch : searchMarketStockExact s.marketTable symbolRaw with
    | none => rw [buy_of_absent _ _ _ _ _ _ hsearch]; exact hq
    | some v =>
      obtain ⟨currentPrice, sector⟩ := v
      by_cases hqty : qty ≤ 0
      · rw [buy_of_bad_quantity _ _ _ _ _ _ hsearch hqty]; exact hq
      · by_cases hp : buyPrice ≤ 0
        · rw [buy_of_bad_price _ _ _ _ _ _ hsearch (by omega) hp]; exact hq
        · rcases hfind : findHoldingSlot s.holdingTable (normalizeSymbol symbolRaw) with
            ⟨_ | slot, found⟩
          · rw [buy_of_full _ _ _ _ _ _ hsearch (by omega) (not_le.mp hp) hfind]; exact hq
          · cases found with
            | false =>
              rw [buy_of_new _ _ _ _ _ _ hsearch (by omega) (not_le.mp hp) hfind]
              intro i
              by_cases his : i = slot
              · subst his
                simp only [setCell_same, true_iff]
                omega
              · simp only [setCell_other _ _ his]
                exact hq i
            | true =>
              rw [buy_of_held _ _ _ _ _ _ hsearch (by omega) (not_le.mp hp) hfind]
              obtain ⟨k, hk, -, hmatch⟩ := findHoldingSlot_found hfind
              simp only [Option.some.injEq] at hk
              subst hk
              have hold := (hq slot).mp hmatch.1
              have hsum := hop slot hfind
              have hw : wrapInt32 ((s.holdingTable slot).quantity + qty) =
                  (s.holdingTable slot).quantity + qty := wrapInt32_of_range (by omega) hsum
              intro i
              by_cases his : i = slot
              · subst his
                simp only [setCell_same, hw, hmatch.1, true_iff]
                omega
              · simp only [setCell_other _ _ his]
                exact hq i
  | sell symbolRaw qty now =>
    simp only [step]
    rcases hfind : findHoldingSlot s.holdingTable (normalizeSymbol symbolRaw) with
      ⟨slot, found⟩
    cases found with
    | false =>
      rw [sell_of_not_found _ _ _ _ (by rw [hfind])]; exact hq
    | true =>
      obtain ⟨k, hk, -, hmatch⟩ := findHoldingSlot_found hfind
      subst hk
      rw [sell_of_found _ _ _ _ hfind hmatch.1]
      by_cases h1 : qty ≤ 0
      · rw [if_pos h1]; exact hq
      · rw [if_neg h1]
        by_cases h2 : qty > (s.holdingTable k).quantity
        · rw [if_pos h2]; exact hq
        · rw [if_neg h2]
          cases searchMarketStockExact s.marketTable (normalizeSymbol symbolRaw) with
          | none => exact hq
          | some v =>
            obtain ⟨currentPrice, sector⟩ := v
            simp only []
            intro i
            by_cases his : i = k
            · subst his
              rw [setCell_same]
              by_cases h3 : (s.holdingTable i).quantity - qty = 0
              · rw [if_pos h3]
                simp only [h3]
                constructor
                · intro hc; exact EntryStatus.noConfusion hc
                · intro hc; exact absurd hc (by decide)
              · rw [if_neg h3]
                simp only [hmatch.1, true_iff]
                omega
            · rw [setCell_other _ _ his]
              exact hq i

theorem reachableInRange_quantity_positive {s : State} (h : ReachableInRange s) :
    ∀ i, (s.holdingTable i).status = OCCUPIED ↔ 0 < (s.holdingTable i).quantity := by
  induction h with
  | init =>
    intro i
    simp [initState, initHoldingTable]
  | step s op _ hop ih => exact step_quantity_positive s op hop ih

/-- C14 (as amended): in every state reached from the initial all-Empty
tables through catalog inserts, buys and sells in which no buy takes a held
quantity past `INT_MAX`, a holdings slot is Occupied if and only if its
quantity is > 0; and in every state a successful sell that brings the quantity
to exactly 0 turns the slot into Deleted, any other successful sell leaves it
Occupied. -/
theorem occupied_iff_positive :
    (∀ (s : State), ReachableInRange s →
      ∀ i, (s.holdingTable i).status = OCCUPIED ↔ 0 < (s.holdingTable i).quantity) ∧
    (∀ (s : State) (symbolRaw : CStr) (qty : Int) (now : CStr) (slot : Nat),
      findHoldingSlot s.holdingTable (normalizeSymbol symbolRaw) = (some slot, true) →
      (sellStockInteractive s symbolRaw qty now).1.code = 1 →
      ((sellStockInteractive s symbolRaw qty now).2.holdingTable slot).quantity =
        (s.holdingTable slot).quantity - qty ∧
      ((s.holdingTable slot).quantity - qty = 0 →
        ((sellStockInteractive s symbolRaw qty now).2.holdingTable slot).status = DELETED) ∧
      ((s.holdingTable slot).quantity - qty ≠ 0 →
        ((sellStockInteractive s symbolRaw qty now).2.holdingTable slot).status =
          OCCUPIED)) := by
  refine ⟨fun s h => reachableInRange_quantity_positive h, ?_⟩
  intro s symbolRaw qty now slot hfind hsold
  obtain ⟨hq, hle, hsome⟩ := (sell_success_iff s symbolRaw qty now hfind).mp hsold
  obtain ⟨⟨currentPrice, sector⟩, hsearch⟩ := Option.isSome_iff_exists.mp hsome
  obtain ⟨k, hk, -, hmatch⟩ := findHoldingSlot_found hfind
  simp only [Option.some.injEq] at hk
  subst hk
  rw [sell_of_found _ _ _ _ hfind hmatch.1, if_neg (by omega), if_neg (by omega), hsearch]
  simp only [setCell_same]
  refine ⟨?_, ?_, ?_⟩
  · by_cases h3 : (s.holdingTable slot).quantity - qty = 0
    · rw [if_pos h3]
    · rw [if_neg h3]
  · intro h3
    rw [if_pos h3]
  · intro h3
    rw [if_neg h3]
    exact hmatch.1

theorem reachableInRange_statePrice200 : ReachableInRange statePrice200 :=
  ReachableInRange.step _ _
    (ReachableInRange.step _ _
      (ReachableInRange.step _ _
        (ReachableInRange.step _ _ ReachableInRange.init trivial)
        (by
          intro slot h
          have h20 : findHoldingSlot stateCatalog.holdingTable (normalizeSymbol symLowerAAPL) =
              (some 20, false) := by decide
          rw [h20] at h
          simp at h))
      (by
        intro slot h
        have h20 : findHoldingSlot stateBought10.holdingTable (normalizeSymbol symAAPL) =
            (some 20, true) := by decide
        rw [h20] at h
        simp only [Prod.mk.injEq, Option.some.injEq, and_true] at h
        subst h
        decide))
    trivial

/-- Witness for C14: with 20 AAPL held in slot 20, the slot is Occupied and
its quantity positive; selling all 20 turns it into Deleted, selling 5 leaves
it Occupied. -/
theorem occupied_iff_positive_witness :
    ((statePrice200.holdingTable 20).status = OCCUPIED ↔
      0 < (statePrice200.holdingTable 20).quantity) ∧
    ((sellStockInteractive statePrice200 symAAPL 20 dateToken).2.holdingTable 20).status =
      DELETED ∧
    ((sellStockInteractive statePrice200 symAAPL 5 dateToken).2.holdingTable 20).status =
      OCCUPIED :=
  ⟨occupied_iff_positive.1 statePrice200 reachableInRange_statePrice200 20,
   (occupied_iff_positive.2 statePrice200 symAAPL 20 dateToken 20 (by decide)
      (by decide)).2.1 (by decide),
   (occupied_iff_positive.2 statePrice200 symAAPL 5 dateToken 20 (by decide)
      (by decide)).2.2 (by decide)⟩

theorem reachable_stateOverflow : Reachable stateOverflow :=
  Reachable.step _ _ (Reachable.step _ _ (Reachable.step _ _ Reachable.init))

/-- C14 as stated fails: after AAPL is catalogued and 1073741824 shares are
bought twice, slot 20 is Occupied and holds the quantity -2147483648. -/
theorem occupied_iff_positive_counterexample :
    Reachable stateOverflow ∧
    (stateOverflow.holdingTable 20).status = OCCUPIED ∧
    (stateOverflow.holdingTable 20).quantity = -2147483648 ∧
    ¬ 0 < (stateOverflow.holdingTable 20).quantity :=
  ⟨reachable_stateOverflow, by decide, by decide, by decide⟩

/-! ## Holdings stay within the catalog -/

theorem store_keeps_symbols (m newTable : MarketTable) (symbol sector : CStr) (price : ℚ)
    (found : Bool) (hinv : MarketInv m) (hvalid : toUpperStr symbol = symbol)
    (hstore : storeMarketStock m symbol sector price = some (newTable, found)) :
    ∀ j, (m j).status = OCCUPIED →
      (newTable j).status = OCCUPIED ∧ (newTable j).symbol = (m j).symbol := by
  unfold storeMarketStock at hstore
  rcases hfind : findMarketSlot m symbol with ⟨_ | slot, fnd⟩
  · rw [hfind] at hstore
    simp at hstore
  · rw [hfind] at hstore
    simp only [Option.some.injEq, Prod.mk.injEq] at hstore
    obtain ⟨hnew, -⟩ := hstore
    subst hnew
    intro j hj
    by_cases hjs : j = slot
    · subst hjs
      rw [setCell_same]
      refine ⟨rfl, ?_⟩
      cases fnd with
      | true =>
        obtain ⟨k, hk, -, hmatch⟩ := findMarketSlot_found hfind
        simp only [Option.some.injEq] at hk
        subst hk
        exact (eq_of_equalsIgnoreCase _ _ (hinv j hj).1 hvalid hmatch.2).symm
      | false =>
        rw [findMarketSlot_eq_probeLoop] at hfind
        obtain ⟨p, -, -, -, -, hno⟩ := probeLoop_result_position _ _ _ hfind
        exact absurd hj (hno rfl)
    · rw [setCell_other _ _ hjs]
      exact ⟨hj, rfl⟩

theorem search_some_catalogued (m : MarketTable) (symbolRaw : CStr) (hinv : MarketInv m)
    (h : (searchMarketStockExact m symbolRaw).isSome = true) :
    ∃ j, j < TABLE_SIZE ∧ (m j).status = OCCUPIED ∧ (m j).symbol = normalizeSymbol symbolRaw := by
  rw [searchMarketStockExact_eq_find] at h
  rcases hfind : findMarketSlot m (toUpperStr (strncpyBuf MAX_SYMBOL_LEN symbolRaw)) with
    ⟨slot, fnd⟩
  rw [hfind] at h
  cases fnd with
  | false => cases slot <;> simp at h
  | true =>
    obtain ⟨k, -, hk, hmatch⟩ := findMarketSlot_found hfind
    exact ⟨k, hk, hmatch.1,
      eq_of_equalsIgnoreCase _ _ (hinv k hmatch.1).1 (validSymbol_normalizeSymbol symbolRaw).2
        hmatch.2⟩

theorem catalogued_search_some (m : MarketTable) (symbolRaw : CStr) (hinv : MarketInv m)
    {j : Nat} (hocc : (m j).status = OCCUPIED) (hsym : (m j).symbol = normalizeSymbol symbolRaw) :
    (searchMarketStockExact m symbolRaw).isSome = true := by
  rw [searchMarketStockExact_eq_find]
  have h := (hinv j hocc).2
  rw [hsym] at h
  unfold normalizeSymbol at h
  rw [h]
  rfl

theorem heldInCatalog_of_subset (m : MarketTable) (h h2 : HoldingTable)
    (hc : HeldInCatalog m h)
    (hsub : ∀ i, (h2 i).status = OCCUPIED →
      ((h i).status = OCCUPIED ∧ (h2 i).symbol = (h i).symbol) ∨
      ∃ j, j < TABLE_SIZE ∧ (m j).status = OCCUPIED ∧ (m j).symbol = (h2 i).symbol) :
    HeldInCatalog m h2 := by
  intro i hi
  rcases hsub i hi with ⟨ho, hs⟩ | hex
  · rw [hs]; exact hc i ho
  · exact hex

theorem step_heldInCatalog (s : State) (op : Op) (hm : MarketInv s.marketTable)
    (hc : HeldInCatalog s.marketTable s.holdingTable) :
    HeldInCatalog (step s op).marketTable (step s op).holdingTable := by
  cases op with
  | insert symbolIn choice sectorIn price =>
    simp only [step, insert_holdingTable]
    rcases insert_marketTable s symbolIn choice sectorIn price with heq | ⟨found, hstore⟩
    · rw [heq]; exact hc
    · have hkeep := store_keeps_symbols _ _ _ _ _ _ hm (toUpperStr_idem symbolIn) hstore
      intro i hi
      obtain ⟨j, hj, hjo, hjs⟩ := hc i hi
      exact ⟨j, hj, (hkeep j hjo).1, (hkeep j hjo).2.trans hjs⟩
  | buy symbolRaw qty buyPrice dateIn now =>
    simp only [step, buy_marketTable]
    cases hsearch : searchMarketStockExact s.marketTable symbolRaw with
    | none => rw [buy_of_absent _ _ _ _ _ _ hsearch]; exact hc
    | some v =>
      obtain ⟨currentPrice, sector⟩ := v
      by_cases hqty : qty ≤ 0
      · rw [buy_of_bad_quantity _ _ _ _ _ _ hsearch hqty]; exact hc
      · by_cases hp : buyPrice ≤ 0
        · rw [buy_of_bad_price _ _ _ _ _ _ hsearch (by omega) hp]; exact hc
        · rcases hfind : findHoldingSlot s.holdingTable (normalizeSymbol symbolRaw) with
            ⟨_ | slot, found⟩
          · rw [buy_of_full _ _ _ _ _ _ hsearch (by omega) (not_le.mp hp) hfind]; exact hc
          · cases found with
            | false =>
              rw [buy_of_new _ _ _ _ _ _ hsearch (by omega) (not_le.mp hp) hfind]
              apply heldInCatalog_of_subset _ _ _ hc
              intro i hi
              by_cases his : i = slot
              · subst his
                right
                simp only [setCell_same]
                exact search_some_catalogued _ _ hm (by rw [hsearch]; rfl)
              · simp only [setCell_other _ _ his] at hi ⊢
                exact Or.inl ⟨hi, trivial⟩
            | true =>
              rw [buy_of_held _ _ _ _ _ _ hsearch (by omega) (not_le.mp hp) hfind]
              obtain ⟨k, hk, -, hmatch⟩ := findHoldingSlot_found hfind
              simp only [Option.some.injEq] at hk
              subst hk
              apply heldInCatalog_of_subset _ _ _ hc
              intro i hi
              by_cases his : i = slot
              · subst his
                simp only [setCell_same]
                exact Or.inl ⟨hmatch.1, trivial⟩
              · simp only [setCell_other _ _ his] at hi ⊢
                exact Or.inl ⟨hi, trivial⟩
  | sell symbolRaw qty now =>
    simp only [step, sell_marketTable]
    rcases hfind : findHoldingSlot s.holdingTable (normalizeSymbol symbolRaw) with
      ⟨slot, found⟩
    cases found with
    | false =>
      rw [sell_of_not_found _ _ _ _ (by rw [hfind])]; exact hc
    | true =>
      obtain ⟨k, hk, -, hmatch⟩ := findHoldingSlot_found hfind
      subst hk
      rw [sell_of_found _ _ _ _ hfind hmatch.1]
      by_cases h1 : qty ≤ 0
      · rw [if_pos h1]; exact hc
      · rw [if_neg h1]
        by_cases h2 : qty > (s.holdingTable k).quantity
        · rw [if_pos h2]; exact hc
        · rw [if_neg h2]
          cases searchMarketStockExact s.marketTable (normalizeSymbol symbolRaw) with
          | none => exact hc
          | some v =>
            obtain ⟨currentPrice, sector⟩ := v
            simp only []
            apply heldInCatalog_of_subset _ _ _ hc
            intro i hi
            by_cases his : i = k
            · subst his
              rw [setCell_same] at hi ⊢
              by_cases h3 : (s.holdingTable i).quantity - qty = 0
              · rw [if_pos h3] at hi
                exact EntryStatus.noConfusion hi
              · rw [if_neg h3]
                exact Or.inl ⟨hmatch.1, rfl⟩
            · rw [setCell_other _ _ his] at hi ⊢
              exact Or.inl ⟨hi, rfl⟩

theorem reachable_heldInCatalog {s : State} (h : Reachable s) :
    HeldInCatalog s.marketTable s.holdingTable := by
  induction h with
  | init =>
    intro i hi
    simp [initState, initHoldingTable] at hi
  | step s op hr ih => exact step_heldInCatalog s op (reachable_marketInv hr) ih

/-- With consistent tables and every holding catalogued, the search of the
holdings table for a catalogued symbol returns a slot: were all 101 slots
Occupied by other symbols, their 101 distinct symbols would fill the catalog. -/
theorem findHoldingSlot_catalogued (m : MarketTable) (h : HoldingTable) (hm : MarketInv m)
    (hh : HoldingsInv h) (hc : HeldInCatalog m h) (symbolRaw : CStr)
    (hsearch : (searchMarketStockExact m symbolRaw).isSome = true) :
    (findHoldingSlot h (normalizeSymbol symbolRaw)).1 ≠ none := by
  intro hnone
  have hflag : (findHoldingSlot h (normalizeSymbol symbolRaw)).2 = false := by
    rcases hfind : findHoldingSlot h (normalizeSymbol symbolRaw) with ⟨slot, fnd⟩
    cases fnd with
    | false => rfl
    | true =>
      obtain ⟨k, hk, -, -⟩ := findHoldingSlot_found hfind
      rw [hfind] at hnone
      simp only at hnone
      rw [hnone] at hk
      simp at hk
  rw [findHoldingSlot_eq_probeLoop] at hnone hflag
  have hfull := (probeLoop_full_iff (fun k => (h k).status)
    (fun k => equalsIgnoreCase (h k).symbol (normalizeSymbol symbolRaw))
    (hash (normalizeSymbol symbolRaw))).1.mp ⟨by rw [hnone]; rfl, hflag⟩
  have hocc : ∀ k, k < TABLE_SIZE → (h k).status = OCCUPIED := by
    intro k hk
    obtain ⟨h1, h2, -⟩ := hfull k hk
    cases hs : (h k).status with
    | EMPTY => exact absurd hs h1
    | DELETED => exact absurd hs h2
    | OCCUPIED => rfl
  obtain ⟨j0, hj0, hocc0, hsym0⟩ := search_some_catalogued m symbolRaw hm hsearch
  have hg : ∀ i, i < TABLE_SIZE →
      ((findMarketSlot m (h i).symbol).1.getD 0) < TABLE_SIZE ∧
      (m ((findMarketSlot m (h i).symbol).1.getD 0)).symbol = (h i).symbol := by
    intro i hi
    obtain ⟨j, hj, hjo, hjs⟩ := hc i (hocc i hi)
    have hf := (hm j hjo).2
    rw [hjs] at hf
    rw [hf]
    exact ⟨hj, hjs⟩
  have hinj : Function.Injective
      (fun i : Fin TABLE_SIZE =>
        (⟨(findMarketSlot m (h i.1).symbol).1.getD 0, (hg i.1 i.2).1⟩ : Fin TABLE_SIZE)) := by
    intro a b hab
    simp only [Fin.mk.injEq] at hab
    have hsym : (h a.1).symbol = (h b.1).symbol := by
      rw [← (hg a.1 a.2).2, ← (hg b.1 b.2).2, hab]
    have ha := (hh a.1 (hocc a.1 a.2)).2
    have hb := (hh b.1 (hocc b.1 b.2)).2
    rw [hsym, hb] at ha
    simp only [Prod.mk.injEq, Option.some.injEq, and_true] at ha
    exact Fin.ext ha.symm
  obtain ⟨i, hi⟩ := (Finite.injective_iff_surjective.mp hinj) ⟨j0, hj0⟩
  simp only [Fin.mk.injEq] at hi
  have hsym : (h i.1).symbol = normalizeSymbol symbolRaw := by
    rw [← (hg i.1 i.2).2, hi, hsym0]
  apply (hfull i.1 i.2).2.2
  refine ⟨hocc i.1 i.2, ?_⟩
  simp only [hsym]
  exact equalsIgnoreCase_refl _

/-- C20: in every state reached from the initial state (empty catalog, empty
holdings, empty history) through catalog inserts, buys and sells, the symbol
of every Occupied holding is the symbol of an Occupied catalog slot; and for
every catalogued symbol (the exact search succeeds, which is the case when an
Occupied catalog slot holds the normalised symbol) `findHoldingSlot` returns a
slot, not -1, so that a buy of it with positive quantity and price does not
fail with Full and succeeds. -/
theorem buy_never_full (s : State) (hreach : Reachable s) :
    (∀ i, (s.holdingTable i).status = OCCUPIED →
      ∃ j, j < TABLE_SIZE ∧ (s.marketTable j).status = OCCUPIED ∧
        (s.marketTable j).symbol = (s.holdingTable i).symbol) ∧
    (∀ (symbolRaw : CStr) (j : Nat), (s.marketTable j).status = OCCUPIED →
      (s.marketTable j).symbol = normalizeSymbol symbolRaw →
      (searchMarketStockExact s.marketTable symbolRaw).isSome = true) ∧
    (∀ (symbolRaw : CStr), (searchMarketStockExact s.marketTable symbolRaw).isSome = true →
      (findHoldingSlot s.holdingTable (normalizeSymbol symbolRaw)).1 ≠ none ∧
      slotCode (findHoldingSlot s.holdingTable (normalizeSymbol symbolRaw)).1 ≠ -1 ∧
      ∀ (qty : Int) (buyPrice : ℚ) (dateIn now : CStr), 0 < qty → 0 < buyPrice →
        (buyStockInteractive s symbolRaw qty buyPrice dateIn now).1 ≠ BuyResult.tableFull ∧
        (buyStockInteractive s symbolRaw qty buyPrice dateIn now).1.errorKind ≠
          some ErrorKind.Full ∧
        (buyStockInteractive s symbolRaw qty buyPrice dateIn now).1.code = 1) := by
  have hm := reachable_marketInv hreach
  have hh := reachable_holdingsInv hreach
  have hc := reachable_heldInCatalog hreach
  refine ⟨hc, fun symbolRaw j hocc hsym => catalogued_search_some _ _ hm hocc hsym, ?_⟩
  intro symbolRaw hsearch
  have hslot := findHoldingSlot_catalogued _ _ hm hh hc symbolRaw hsearch
  refine ⟨hslot, ?_, ?_⟩
  · rcases hfind : findHoldingSlot s.holdingTable (normalizeSymbol symbolRaw) with
      ⟨_ | slot, found⟩
    · rw [hfind] at hslot; exact absurd rfl hslot
    · simp only [slotCode]
      omega
  · intro qty buyPrice dateIn now hq hp
    obtain ⟨v, hv⟩ := Option.isSome_iff_exists.mp hsearch
    rcases hfind : findHoldingSlot s.holdingTable (normalizeSymbol symbolRaw) with
      ⟨_ | slot, found⟩
    · rw [hfind] at hslot; exact absurd rfl hslot
    · cases found with
      | false =>
        rw [buy_of_new _ _ _ _ _ _ hv hq hp hfind]
        exact ⟨by simp, by simp [BuyResult.errorKind], rfl⟩
      | true =>
        rw [buy_of_held _ _ _ _ _ _ hv hq hp hfind]
        exact ⟨by simp, by simp [BuyResult.errorKind], rfl⟩

/-- Witness for C20: after AAPL is catalogued and bought, the holding in slot
20 is in the catalog, and a further buy of "aapl" finds slot 20 and succeeds. -/
theorem buy_never_full_witness :
    Reachable statePrice200 ∧
    (∃ j, j < TABLE_SIZE ∧ (statePrice200.marketTable j).status = OCCUPIED ∧
      (statePrice200.marketTable j).symbol = (statePrice200.holdingTable 20).symbol) ∧
    (findHoldingSlot statePrice200.holdingTable (normalizeSymbol symLowerAAPL)).1 ≠ none ∧
    (buyStockInteractive statePrice200 symLowerAAPL 5 100 dateToken dateToken).1.code = 1 :=
  ⟨reachable_statePrice200,
   (buy_never_full statePrice200 reachable_statePrice200).1 20 (by decide),
   ((buy_never_full statePrice200 reachable_statePrice200).2.2 symLowerAAPL (by decide!)).1,
   (((buy_never_full statePrice200 reachable_statePrice200).2.2 symLowerAAPL
      (by decide!)).2.2 5 100 dateToken dateToken (by decide) (by decide!)).2.2⟩

/-! ## Filling the holdings table -/

/-- The holdings table `buyStockInteractive` leaves is the one `storeHolding`
computes, and the buy fails with Full exactly when `storeHolding` fails. -/
theorem buy_eq_storeHolding (s : State) (symbolRaw : CStr) (qty : Int) (buyPrice : ℚ)
    (dateIn now : CStr) {currentPrice : ℚ} {sector : CStr}
    (h : searchMarketStockExact s.marketTable symbolRaw = some (currentPrice, sector))
    (hq : 0 < qty) (hp : 0 < buyPrice) :
    match storeHolding s.holdingTable
        { symbol := normalizeSymbol symbolRaw, sector := sector, qty := qty,
          buyPrice := buyPrice, dateStr := if dateIn = nowKeyword then now else dateIn } with
    | none => buyStockInteractive s symbolRaw qty buyPrice dateIn now = (BuyResult.tableFull, s)
    | some t =>
      (buyStockInteractive s symbolRaw qty buyPrice dateIn now).1.code = 1 ∧
      (buyStockInteractive s symbolRaw qty buyPrice dateIn now).2.holdingTable = t := by
  unfold storeHolding
  rcases hfind : findHoldingSlot s.holdingTable (normalizeSymbol symbolRaw) with
    ⟨_ | slot, found⟩
  · simp only []
    exact buy_of_full _ _ _ _ _ _ h hq hp hfind
  · cases found with
    | false =>
      rw [buy_of_new _ _ _ _ _ _ h hq hp hfind]
      exact ⟨rfl, rfl⟩
    | true =>
      rw [buy_of_held _ _ _ _ _ _ h hq hp hfind]
      exact ⟨rfl, rfl⟩

theorem occupiedCount_init : occupiedCount initHoldingTable = 0 := by
  unfold occupiedCount
  rw [Finset.card_eq_zero, Finset.filter_eq_empty_iff]
  intro k _
  simp [initHoldingTable]

theorem occupiedCount_setCell (t : HoldingTable) (slot : Nat) (entry : HoldingEntry)
    (hslot : slot < TABLE_SIZE) (hfree : (t slot).status ≠ OCCUPIED)
    (hst : entry.status = OCCUPIED) :
    occupiedCount (setCell t slot entry) = occupiedCount t + 1 := by
  unfold occupiedCount
  have heq : (Finset.range TABLE_SIZE).filter
        (fun k => ((setCell t slot entry) k).status = OCCUPIED) =
      insert slot ((Finset.range TABLE_SIZE).filter (fun k => (t k).status = OCCUPIED)) := by
    ext k
    simp only [Finset.mem_filter, Finset.mem_range, Finset.mem_insert]
    by_cases hk : k = slot
    · subst hk
      simp [setCell_same, hst, hslot]
    · simp [setCell_other _ _ hk, hk]
  rw [heq, Finset.card_insert_of_not_mem]
  simp only [Finset.mem_filter, Finset.mem_range, not_and]
  exact fun _ => hfree

theorem occupied_of_count_full (t : HoldingTable) (h : occupiedCount t = TABLE_SIZE) :
    ∀ k, k < TABLE_SIZE → (t k).status = OCCUPIED := by
  intro k hk
  unfold occupiedCount at h
  have hall := Finset.filter_card_eq (by rw [h, Finset.card_range])
    k (Finset.mem_range.mpr hk)
  exact hall

theorem exists_free_of_count_lt (t : HoldingTable) (h : occupiedCount t < TABLE_SIZE) :
    ∃ k, k < TABLE_SIZE ∧ (t k).status ≠ OCCUPIED := by
  by_contra hno
  push_neg at hno
  unfold occupiedCount at h
  rw [Finset.filter_true_of_mem (fun k hk => hno k (Finset.mem_range.mp hk)),
    Finset.card_range] at h
  exact absurd h (lt_irrefl _)

/-- A key that matches no Occupied slot is not found. -/
theorem findHoldingSlot_not_found (t : HoldingTable) (key : CStr)
    (hnomatch : ∀ k, (t k).status = OCCUPIED → equalsIgnoreCase (t k).symbol key = false) :
    (findHoldingSlot t key).2 = false := by
  rcases hfind : findHoldingSlot t key with ⟨slot, fnd⟩
  cases fnd with
  | false => rfl
  | true =>
    obtain ⟨k, -, -, hmatch⟩ := findHoldingSlot_found hfind
    have := hnomatch k hmatch.1
    rw [hmatch.2] at this
    exact absurd this (by decide)

/-- In a table without tombstones and with a slot to spare, the store of a
key that matches no Occupied slot writes a new Occupied slot. -/
theorem storeHolding_fresh (t : HoldingTable) (p : Purchase)
    (hnd : ∀ k, (t k).status ≠ DELETED)
    (hnomatch : ∀ k, (t k).status = OCCUPIED → equalsIgnoreCase (t k).symbol p.symbol = false)
    (hcount : occupiedCount t < TABLE_SIZE) :
    ∃ slot entry, slot < TABLE_SIZE ∧ (t slot).status = EMPTY ∧
      entry.status = OCCUPIED ∧ entry.symbol = p.symbol ∧
      findHoldingSlot t p.symbol = (some slot, false) ∧
      storeHolding t p = some (setCell t slot entry) := by
  obtain ⟨k0, hk0, hfree⟩ := exists_free_of_count_lt t hcount
  have hempty : (t k0).status = EMPTY := by
    cases hs : (t k0).status with
    | EMPTY => rfl
    | DELETED => exact absurd hs (hnd k0)
    | OCCUPIED => exact absurd hs hfree
  have hflag := findHoldingSlot_not_found t p.symbol hnomatch
  have hnf : ¬ TableFull (fun k => (t k).status)
      (fun k => equalsIgnoreCase (t k).symbol p.symbol) := fun hfull =>
    (hfull k0 hk0).1 hempty
  have hcode := (probeLoop_full_iff (fun k => (t k).status)
    (fun k => equalsIgnoreCase (t k).symbol p.symbol) (hash p.symbol)).2 hnf
  rw [← findHoldingSlot_eq_probeLoop] at hcode
  rcases hfind : findHoldingSlot t p.symbol with ⟨_ | slot, fnd⟩
  · rw [hfind] at hcode
    simp [slotCode] at hcode
  · rw [hfind] at hflag
    simp only at hflag
    subst hflag
    have hfind2 := hfind
    rw [findHoldingSlot_eq_probeLoop] at hfind2
    obtain ⟨j, -, hj, -, -, hno⟩ := probeLoop_result_position _ _ _ hfind2
    have hse : (t slot).status = EMPTY := by
      cases hs : (t slot).status with
      | EMPTY => rfl
      | DELETED => exact absurd hs (hnd slot)
      | OCCUPIED => exact absurd hs (hno rfl)
    refine ⟨slot,
      { symbol := p.symbol, sector := p.sector, quantity := p.qty, avgBuyPrice := p.buyPrice,
        lastBuyDate := strncpyBuf MAX_DATE_LEN p.dateStr, status := OCCUPIED },
      ?_, hse, rfl, rfl, rfl, ?_⟩
    · rw [hj]; exact probeSlot_lt _ _
    · unfold storeHolding
      rw [hfind]
      rfl

/-- Stores of keys that match neither each other nor a stored key all succeed
as long as the table has room; each takes one more slot. -/
theorem storeHoldings_fresh : ∀ (ins : List Purchase) (t : HoldingTable) (ks : List CStr),
    (∀ k, (t k).status ≠ DELETED) →
    (∀ k, (t k).status = OCCUPIED → (t k).symbol ∈ ks) →
    occupiedCount t + ins.length ≤ TABLE_SIZE →
    ins.Pairwise (fun a b => equalsIgnoreCase a.symbol b.symbol = false) →
    (∀ p ∈ ins, ∀ x ∈ ks, equalsIgnoreCase x p.symbol = false) →
    ∃ t2, storeHoldings t ins = some t2 ∧ (∀ k, (t2 k).status ≠ DELETED) ∧
      (∀ k, (t2 k).status = OCCUPIED → (t2 k).symbol ∈ ks ++ ins.map (fun p => p.symbol)) ∧
      occupiedCount t2 = occupiedCount t + ins.length
  | [], t, ks, hnd, hks, _, _, _ =>
    ⟨t, rfl, hnd, fun k hk => by simpa using hks k hk, rfl⟩
  | p :: ps, t, ks, hnd, hks, hroom, hpair, hnew => by
    simp only [List.length_cons] at hroom
    obtain ⟨slot, entry, hslot, hempty, hst, hsym, -, hstore⟩ :=
      storeHolding_fresh t p hnd
        (fun k hk => hnew p (List.mem_cons_self _ _) _ (hks k hk)) (by omega)
    have hfree : (t slot).status ≠ OCCUPIED := by rw [hempty]; decide
    have hcount := occupiedCount_setCell t slot entry hslot hfree hst
    rw [List.pairwise_cons] at hpair
    obtain ⟨t2, h2, hnd2, hks2, hcount2⟩ :=
      storeHoldings_fresh ps (setCell t slot entry) (ks ++ [p.symbol])
        (by
          intro k
          by_cases hk : k = slot
          · subst hk; rw [setCell_same, hst]; decide
          · rw [setCell_other _ _ hk]; exact hnd k)
        (by
          intro k hk
          by_cases hks1 : k = slot
          · subst hks1
            rw [setCell_same, hsym]
            simp
          · rw [setCell_other _ _ hks1] at hk ⊢
            exact List.mem_append_left _ (hks k hk))
        (by rw [hcount]; omega) hpair.2
        (by
          intro q hq x hx
          rcases List.mem_append.mp hx with hx1 | hx1
          · exact hnew q (List.mem_cons_of_mem _ hq) x hx1
          · simp only [List.mem_singleton] at hx1
            subst hx1
            exact hpair.1 q hq)
    refine ⟨t2, ?_, hnd2, ?_, ?_⟩
    · simp only [storeHoldings, hstore]
      exact h2
    · intro k hk
      have := hks2 k hk
      simpa [List.append_assoc] using this
    · rw [hcount2, hcount, List.length_cons]
      omega

/-- In a table whose slots are all Occupied but one tombstone, a key that
matches no Occupied slot gets the tombstoned slot. -/
theorem findHoldingSlot_tombstone (t : HoldingTable) (d : Nat) (key : CStr)
    (hd : d < TABLE_SIZE) (hdel : (t d).status = DELETED)
    (hocc : ∀ k, k < TABLE_SIZE → k ≠ d →
      (t k).status = OCCUPIED ∧ equalsIgnoreCase (t k).symbol key = false) :
    findHoldingSlot t key = (some d, false) := by
  have hstop : ∀ k, ¬ StopsAt (fun k => (t k).status)
      (fun k => equalsIgnoreCase (t k).symbol key) (hash key) k := by
    intro k hs
    by_cases hk : probeSlot (hash key) k = d
    · rcases hs with h1 | ⟨h1, -⟩
      · simp only [hk, hdel] at h1; exact EntryStatus.noConfusion h1
      · simp only [hk, hdel] at h1; exact EntryStatus.noConfusion h1
    · rcases hs with h1 | ⟨-, h2⟩
      · simp only [(hocc _ (probeSlot_lt _ _) hk).1] at h1; exact EntryStatus.noConfusion h1
      · simp only [(hocc _ (probeSlot_lt _ _) hk).2] at h2; exact absurd h2 (by decide)
  have hdelonly : ∀ k, (t (probeSlot (hash key) k)).status = DELETED →
      probeSlot (hash key) k = d := by
    intro k hk
    by_contra hne
    rw [(hocc _ (probeSlot_lt _ _) hne).1] at hk
    exact EntryStatus.noConfusion hk
  rw [findHoldingSlot_eq_probeLoop]
  rcases probeLoop_cases (fun k => (t k).status) (fun k => equalsIgnoreCase (t k).symbol key)
      (hash key) with
    ⟨j, -, h1, h2, -, -⟩ | ⟨e, _, -, -, h1, -, -, -, -⟩ | ⟨e, -, h1, -, -, -⟩ |
    ⟨d2, -, -, h1, -, hres⟩ | ⟨-, hnod, -⟩
  · exact absurd (Or.inr ⟨h1, h2⟩) (hstop j)
  · exact absurd (Or.inl h1) (hstop e)
  · exact absurd (Or.inl h1) (hstop e)
  · rw [hres, hdelonly d2 h1]
  · obtain ⟨j, hj, hjd⟩ := probeSlot_surj (hash key) hd
    exact absurd (by simp only [hjd]; exact hdel) (hnod j hj)

/-- C11: starting from the all-Empty holdings table and storing 102 pairwise
distinct upper-case symbols one after the other (`findHoldingSlot` followed by
the Occupied write, nothing deleted in between), the first 101 stores all
succeed and leave every slot Occupied, and the 102nd finds no slot (-1, not
found) and fails with Full; after any one slot of that table is then marked
Deleted, `findHoldingSlot` returns that slot for a new key and the store of the
new key succeeds, writing it there as Occupied. -/
theorem capacity_then_full (ins : List Purchase)
    (hupper : ∀ p ∈ ins, toUpperStr p.symbol = p.symbol)
    (hdist : (ins.map (fun p => p.symbol)).Nodup)
    (hlen : ins.length = TABLE_SIZE + 1) :
    ∃ t, storeHoldings initHoldingTable (ins.take TABLE_SIZE) = some t ∧
      (∀ k, k < TABLE_SIZE → (t k).status = OCCUPIED) ∧
      (∀ p ∈ ins.drop TABLE_SIZE,
        findHoldingSlot t p.symbol = (none, false) ∧ storeHolding t p = none) ∧
      (∀ (d : Nat) (tombstone : HoldingEntry) (p : Purchase), d < TABLE_SIZE →
        tombstone.status = DELETED → toUpperStr p.symbol = p.symbol →
        p.symbol ∉ (ins.take TABLE_SIZE).map (fun q => q.symbol) →
        findHoldingSlot (setCell t d tombstone) p.symbol = (some d, false) ∧
        ∃ t2, storeHolding (setCell t d tombstone) p = some t2 ∧
          (t2 d).status = OCCUPIED ∧ (t2 d).symbol = p.symbol ∧
          ∀ k, k ≠ d → t2 k = t k) := by
  have hpair : ins.Pairwise (fun a b => equalsIgnoreCase a.symbol b.symbol = false) := by
    have h1 : ins.Pairwise (fun a b => a.symbol ≠ b.symbol) := List.pairwise_map.mp hdist
    refine List.Pairwise.imp_of_mem ?_ h1
    intro a b ha hb hab
    cases hm : equalsIgnoreCase a.symbol b.symbol with
    | false => rfl
    | true => exact absurd (eq_of_equalsIgnoreCase _ _ (hupper a ha) (hupper b hb) hm) hab
  have hsplit : ins = ins.take TABLE_SIZE ++ ins.drop TABLE_SIZE := (List.take_append_drop _ _).symm
  rw [hsplit, List.pairwise_append] at hpair
  obtain ⟨hpair1, -, hcross⟩ := hpair
  have hlen1 : (ins.take TABLE_SIZE).length = TABLE_SIZE := by
    rw [List.length_take, hlen]; rfl
  obtain ⟨t, hstore, hnd, hks, hcount⟩ :=
    storeHoldings_fresh (ins.take TABLE_SIZE) initHoldingTable []
      (by intro k; simp [initHoldingTable])
      (by intro k hk; simp [initHoldingTable] at hk)
      (by rw [occupiedCount_init, hlen1]; omega) hpair1
      (by intro p _ x hx; simp at hx)
  rw [occupiedCount_init, hlen1, Nat.zero_add] at hcount
  have hocc := occupied_of_count_full t hcount
  have hstored : ∀ k, k < TABLE_SIZE →
      ∃ q, q ∈ ins.take TABLE_SIZE ∧ q.symbol = (t k).symbol := by
    intro k hk
    have := hks k (hocc k hk)
    simp only [List.nil_append, List.mem_map] at this
    exact this
  refine ⟨t, hstore, hocc, ?_, ?_⟩
  · intro p hp
    have hfull : TableFull (fun k => (t k).status)
        (fun k => equalsIgnoreCase (t k).symbol p.symbol) := by
      intro k hk
      refine ⟨by simp only [hocc k hk]; decide, by simp only [hocc k hk]; decide, ?_⟩
      rintro ⟨-, hm⟩
      obtain ⟨q, hq, hqs⟩ := hstored k hk
      have := hcross q hq p hp
      rw [hqs] at this
      simp only at hm
      rw [hm] at this
      exact absurd this (by decide)
    have hres := (probeLoop_full_iff (fun k => (t k).status)
      (fun k => equalsIgnoreCase (t k).symbol p.symbol) (hash p.symbol)).1.mpr hfull
    rw [← findHoldingSlot_eq_probeLoop] at hres
    have hfind : findHoldingSlot t p.symbol = (none, false) := by
      rcases hf : findHoldingSlot t p.symbol with ⟨_ | slot, fnd⟩
      · rw [hf] at hres
        simp only at hres
        rw [hres.2]
      · rw [hf] at hres
        simp only [slotCode] at hres
        omega
    refine ⟨hfind, ?_⟩
    unfold storeHolding
    rw [hfind]
  · intro d tombstone p hd hdel hup hnew
    have hfind : findHoldingSlot (setCell t d tombstone) p.symbol = (some d, false) := by
      apply findHoldingSlot_tombstone _ d _ hd
      · rw [setCell_same]; exact hdel
      · intro k hkl hk
        rw [setCell_other _ _ hk]
        refine ⟨hocc k hkl, ?_⟩
        obtain ⟨q, hq, hqs⟩ := hstored k hkl
        cases hm : equalsIgnoreCase (t k).symbol p.symbol with
        | false => rfl
        | true =>
          have hqu : toUpperStr q.symbol = q.symbol :=
            hupper q (List.mem_of_mem_take hq)
          rw [← hqs] at hm
          have heq := eq_of_equalsIgnoreCase _ _ hqu hup hm
          exact absurd (List.mem_map.mpr ⟨q, hq, heq⟩) hnew
    refine ⟨hfind, ?_⟩
    unfold storeHolding
    rw [hfind]
    refine ⟨_, rfl, ?_, ?_, ?_⟩
    · rw [setCell_same]
    · rw [setCell_same]
    · intro k hk
      rw [setCell_other _ _ hk, setCell_other _ _ hk]

/-- Witness for C11: the 102 symbols "A0", "A1", ..., "K1" are upper-case and
pairwise distinct; storing the first 101 fills the table, "K1" then fails with
Full, and once a slot is tombstoned `findHoldingSlot` returns it for a new
key. -/
theorem capacity_then_full_witness :
    (∀ p ∈ purchases102, toUpperStr p.symbol = p.symbol) ∧
    (purchases102.map (fun p => p.symbol)).Nodup ∧
    purchases102.length = TABLE_SIZE + 1 ∧
    ∃ t, storeHoldings initHoldingTable (purchases102.take TABLE_SIZE) = some t ∧
      (∀ k, k < TABLE_SIZE → (t k).status = OCCUPIED) ∧
      (∀ p ∈ purchases102.drop TABLE_SIZE,
        findHoldingSlot t p.symbol = (none, false) ∧ storeHolding t p = none) ∧
      (∀ (d : Nat) (tombstone : HoldingEntry) (p : Purchase), d < TABLE_SIZE →
        tombstone.status = DELETED → toUpperStr p.symbol = p.symbol →
        p.symbol ∉ (purchases102.take TABLE_SIZE).map (fun q => q.symbol) →
        findHoldingSlot (setCell t d tombstone) p.symbol = (some d, false) ∧
        ∃ t2, storeHolding (setCell t d tombstone) p = some t2 ∧
          (t2 d).status = OCCUPIED ∧ (t2 d).symbol = p.symbol ∧
          ∀ k, k ≠ d → t2 k = t k) :=
  ⟨by decide, by decide, by decide,
   capacity_then_full purchases102 (by decide) (by decide) (by decide)⟩

/-! ## The statistics loop -/

/-- The accumulators after the first `n` slots. -/
theorem statsLoop_succ (m : MarketTable) (h : HoldingTable) :
    ∀ (n i : Nat) (acc : StatsAcc),
      statsLoop m h (n + 1) i acc = statsBody m h (statsLoop m h n i acc) (i + n)
  | 0, i, acc => by simp [statsLoop]
  | n + 1, i, acc => by
    have ih := statsLoop_succ m h n (i + 1) (statsBody m h acc i)
    rw [statsLoop, ih, statsLoop]
    congr 1
    omega

theorem statsBody_count (s : State) (acc : StatsAcc) (i : Nat) :
    (statsBody s.marketTable s.holdingTable acc i).count =
      acc.count + (if (s.holdingTable i).status = OCCUPIED then 1 else 0) := by
  unfold statsBody
  by_cases ho : (s.holdingTable i).status = OCCUPIED
  · rw [if_pos ho, if_pos ho]
    cases searchMarketStockExact s.marketTable (s.holdingTable i).symbol with
    | none => rfl
    | some v =>
      obtain ⟨currentPrice, sector⟩ := v
      simp only []
      split_ifs <;> rfl
  · rw [if_neg ho, if_neg ho, add_zero]

theorem statsBody_best (s : State) (acc : StatsAcc) (i : Nat) :
    ((statsBody s.marketTable s.holdingTable acc i).bestStock,
      (statsBody s.marketTable s.holdingTable acc i).bestProfit) =
      match profitOf s i with
      | some profit =>
        if profit > acc.bestProfit then ((s.holdingTable i).symbol, profit)
        else (acc.bestStock, acc.bestProfit)
      | none => (acc.bestStock, acc.bestProfit) := by
  unfold statsBody profitOf
  by_cases ho : (s.holdingTable i).status = OCCUPIED
  · rw [if_pos ho, if_pos ho]
    cases searchMarketStockExact s.marketTable (s.holdingTable i).symbol with
    | none => rfl
    | some v =>
      obtain ⟨currentPrice, sector⟩ := v
      simp only []
      split_ifs <;> rfl
  · rw [if_neg ho, if_neg ho]

theorem statsBody_worst (s : State) (acc : StatsAcc) (i : Nat) :
    ((statsBody s.marketTable s.holdingTable acc i).worstStock,
      (statsBody s.marketTable s.holdingTable acc i).worstProfit) =
      match profitOf s i with
      | some profit =>
        if profit < acc.worstProfit then ((s.holdingTable i).symbol, profit)
        else (acc.worstStock, acc.worstProfit)
      | none => (acc.worstStock, acc.worstProfit) := by
  unfold statsBody profitOf
  by_cases ho : (s.holdingTable i).status = OCCUPIED
  · rw [if_pos ho, if_pos ho]
    cases searchMarketStockExact s.marketTable (s.holdingTable i).symbol with
    | none => rfl
    | some v =>
      obtain ⟨currentPrice, sector⟩ := v
      simp only []
      split_ifs <;> rfl
  · rw [if_neg ho, if_neg ho]

theorem stats_count (s : State) : ∀ n,
    (statsLoop s.marketTable s.holdingTable n 0 statsInit).count =
      ∑ k in Finset.range n, (if (s.holdingTable k).status = OCCUPIED then 1 else 0)
  | 0 => rfl
  | n + 1 => by
    rw [statsLoop_succ, statsBody_count, stats_count s n, Finset.sum_range_succ, Nat.zero_add]

theorem stats_count_eq_card (s : State) :
    (statsLoop s.marketTable s.holdingTable TABLE_SIZE 0 statsInit).count =
      (occupiedSlots s.holdingTable).card := by
  rw [stats_count, occupiedSlots, Finset.card_filter]

theorem occupied_of_profitOf {s : State} {k : Nat} {y : ℚ} (h : profitOf s k = some y) :
    (s.holdingTable k).status = OCCUPIED := by
  unfold profitOf at h
  by_contra ho
  rw [if_neg ho] at h
  exact Option.noConfusion h

theorem stats_count_pos (s : State) {k : Nat} (hk : k < TABLE_SIZE)
    (ho : (s.holdingTable k).status = OCCUPIED) :
    0 < (statsLoop s.marketTable s.holdingTable TABLE_SIZE 0 statsInit).count := by
  rw [stats_count_eq_card]
  apply Finset.card_pos.mpr
  exact ⟨k, by simp [occupiedSlots, hk, ho]⟩

/-- After the first `n` slots, `bestProfit` bounds the profit of every priced
holding seen, and is either still the initial -1e9 with the empty name, or the
profit of the first slot that attains it. -/
theorem stats_best_inv (s : State) : ∀ n,
    (∀ k, k < n → ∀ y, profitOf s k = some y →
      y ≤ (statsLoop s.marketTable s.holdingTable n 0 statsInit).bestProfit) ∧
    (((statsLoop s.marketTable s.holdingTable n 0 statsInit).bestProfit = -1000000000 ∧
        (statsLoop s.marketTable s.holdingTable n 0 statsInit).bestStock = []) ∨
      ∃ b, b < n ∧
        profitOf s b =
          some (statsLoop s.marketTable s.holdingTable n 0 statsInit).bestProfit ∧
        (statsLoop s.marketTable s.holdingTable n 0 statsInit).bestStock =
          (s.holdingTable b).symbol ∧
        ∀ k, k < b → ∀ y, profitOf s k = some y →
          y < (statsLoop s.marketTable s.holdingTable n 0 statsInit).bestProfit)
  | 0 => ⟨fun k hk => absurd hk (Nat.not_lt_zero k), Or.inl ⟨rfl, rfl⟩⟩
  | n + 1 => by
    obtain ⟨ih1, ih2⟩ := stats_best_inv s n
    have hb := statsBody_best s (statsLoop s.marketTable s.holdingTable n 0 statsInit) n
    rw [statsLoop_succ, Nat.zero_add]
    generalize statsLoop s.marketTable s.holdingTable n 0 statsInit = acc at ih1 ih2 hb ⊢
    cases hp : profitOf s n with
    | none =>
      rw [hp] at hb
      simp only [Prod.mk.injEq] at hb
      rw [hb.1, hb.2]
      refine ⟨?_, ?_⟩
      · intro k hk y hy
        rcases Nat.lt_succ_iff_lt_or_eq.mp hk with hlt | heq
        · exact ih1 k hlt y hy
        · subst heq; rw [hp] at hy; exact Option.noConfusion hy
      · rcases ih2 with h0 | ⟨b, hbn, h1, h2, h3⟩
        · exact Or.inl h0
        · exact Or.inr ⟨b, Nat.lt_succ_of_lt hbn, h1, h2, h3⟩
    | some p =>
      rw [hp] at hb
      simp only at hb
      by_cases hgt : p > acc.bestProfit
      · rw [if_pos hgt] at hb
        simp only [Prod.mk.injEq] at hb
        rw [hb.1, hb.2]
        refine ⟨?_, Or.inr ⟨n, Nat.lt_succ_self n, hp, rfl, ?_⟩⟩
        · intro k hk y hy
          rcases Nat.lt_succ_iff_lt_or_eq.mp hk with hlt | heq
          · exact le_of_lt (lt_of_le_of_lt (ih1 k hlt y hy) hgt)
          · subst heq
            rw [hp] at hy
            simp only [Option.some.injEq] at hy
            exact le_of_eq hy.symm
        · intro k hk y hy
          exact lt_of_le_of_lt (ih1 k hk y hy) hgt
      · rw [if_neg hgt] at hb
        simp only [Prod.mk.injEq] at hb
        rw [hb.1, hb.2]
        refine ⟨?_, ?_⟩
        · intro k hk y hy
          rcases Nat.lt_succ_iff_lt_or_eq.mp hk with hlt | heq
          · exact ih1 k hlt y hy
          · subst heq
            rw [hp] at hy
            simp only [Option.some.injEq] at hy
            rw [← hy]
            exact not_lt.mp hgt
        · rcases ih2 with h0 | ⟨b, hbn, h1, h2, h3⟩
          · exact Or.inl h0
          · exact Or.inr ⟨b, Nat.lt_succ_of_lt hbn, h1, h2, h3⟩

/-- After the first `n` slots, `worstProfit` bounds the profit of every priced
holding seen from below, and is either still the initial 1e9 with the empty
name, or the profit of the first slot that attains it. -/
theorem stats_worst_inv (s : State) : ∀ n,
    (∀ k, k < n → ∀ y, profitOf s k = some y →
      (statsLoop s.marketTable s.holdingTable n 0 statsInit).worstProfit ≤ y) ∧
    (((statsLoop s.marketTable s.holdingTable n 0 statsInit).worstProfit = 1000000000 ∧
        (statsLoop s.marketTable s.holdingTable n 0 statsInit).worstStock = []) ∨
      ∃ b, b < n ∧
        profitOf s b =
          some (statsLoop s.marketTable s.holdingTable n 0 statsInit).worstProfit ∧
        (statsLoop s.marketTable s.holdingTable n 0 statsInit).worstStock =
          (s.holdingTable b).symbol ∧
        ∀ k, k < b → ∀ y, profitOf s k = some y →
          (statsLoop s.marketTable s.holdingTable n 0 statsInit).worstProfit < y)
  | 0 => ⟨fun k hk => absurd hk (Nat.not_lt_zero k), Or.inl ⟨rfl, rfl⟩⟩
  | n + 1 => by
    obtain ⟨ih1, ih2⟩ := stats_worst_inv s n
    have hb := statsBody_worst s (statsLoop s.marketTable s.holdingTable n 0 statsInit) n
    rw [statsLoop_succ, Nat.zero_add]
    generalize statsLoop s.marketTable s.holdingTable n 0 statsInit = acc at ih1 ih2 hb ⊢
    cases hp : profitOf s n with
    | none =>
      rw [hp] at hb
      simp only [Prod.mk.injEq] at hb
      rw [hb.1, hb.2]
      refine ⟨?_, ?_⟩
      · intro k hk y hy
        rcases Nat.lt_succ_iff_lt_or_eq.mp hk with hlt | heq
        · exact ih1 k hlt y hy
        · subst heq; rw [hp] at hy; exact Option.noConfusion hy
      · rcases ih2 with h0 | ⟨b, hbn, h1, h2, h3⟩
        · exact Or.inl h0
        · exact Or.inr ⟨b, Nat.lt_succ_of_lt hbn, h1, h2, h3⟩
    | some p =>
      rw [hp] at hb
      simp only at hb
      by_cases hlt : p < acc.worstProfit
      · rw [if_pos hlt] at hb
        simp only [Prod.mk.injEq] at hb
        rw [hb.1, hb.2]
        refine ⟨?_, Or.inr ⟨n, Nat.lt_succ_self n, hp, rfl, ?_⟩⟩
        · intro k hk y hy
          rcases Nat.lt_succ_iff_lt_or_eq.mp hk with hkn | heq
          · exact le_of_lt (lt_of_lt_of_le hlt (ih1 k hkn y hy))
          · subst heq
            rw [hp] at hy
            simp only [Option.some.injEq] at hy
            exact le_of_eq hy
        · intro k hk y hy
          exact lt_of_lt_of_le hlt (ih1 k hk y hy)
      · rw [if_neg hlt] at hb
        simp only [Prod.mk.injEq] at hb
        rw [hb.1, hb.2]
        refine ⟨?_, ?_⟩
        · intro k hk y hy
          rcases Nat.lt_succ_iff_lt_or_eq.mp hk with hkn | heq
          · exact ih1 k hkn y hy
          · subst heq
            rw [hp] at hy
            simp only [Option.some.injEq] at hy
            rw [← hy]
            exact not_lt.mp hlt
        · rcases ih2 with h0 | ⟨b, hbn, h1, h2, h3⟩
          · exact Or.inl h0
          · exact Or.inr ⟨b, Nat.lt_succ_of_lt hbn, h1, h2, h3⟩

/-! ## Holdings of reachable states: priced; within the `int` range, with a
non-negative investment -/

theorem reachable_priced {s : State} (hreach : Reachable s) :
    ∀ k, (s.holdingTable k).status = OCCUPIED →
      ∃ j, j < TABLE_SIZE ∧ (s.marketTable j).status = OCCUPIED ∧
        (s.marketTable j).symbol = (s.holdingTable k).symbol ∧
        searchMarketStockExact s.marketTable (s.holdingTable k).symbol =
          some ((s.marketTable j).price, (s.marketTable j).sector) := by
  intro k ho
  obtain ⟨j, hj, hjo, hjs⟩ := reachable_heldInCatalog hreach k ho
  refine ⟨j, hj, hjo, hjs, ?_⟩
  have hvalid := (reachable_holdingsInv hreach k ho).1
  have hfind := (reachable_marketInv hreach j hjo).2
  rw [hjs] at hfind
  rw [searchMarketStockExact_eq_find, normalize_of_validSymbol hvalid, hfind]

theorem reachable_run : ∀ (ops : List Op) (s : State), Reachable s → Reachable (run s ops)
  | [], _, h => h
  | op :: ops, s, h => reachable_run ops (step s op) (Reachable.step s op h)

theorem reachable_stateCatalog : Reachable stateCatalog :=
  Reachable.step _ _ Reachable.init

/-- C16 (as amended): for every holdings table and catalog, when some Occupied
holding with a catalog price has a signed profit (current price times quantity
minus average cost times quantity) above -1e9, the best performer printed is
an Occupied holding with a catalog price whose profit is the maximum over the
Occupied holdings with a catalog price, the one in the lowest slot among those
that attain it; when some has a profit below 1e9, the worst performer is
likewise the lowest slot that attains the minimum; and in every state reached
from the initial one through catalog inserts, buys and sells every Occupied
holding has a catalog price. -/
theorem best_worst_performer :
    (∀ s : State, (∃ k, k < TABLE_SIZE ∧ ∃ y, profitOf s k = some y ∧ -1000000000 < y) →
      ∃ b x, b < TABLE_SIZE ∧ (s.holdingTable b).status = OCCUPIED ∧ profitOf s b = some x ∧
        (∀ k, k < TABLE_SIZE → ∀ y, profitOf s k = some y → y ≤ x) ∧
        (∀ k, k < b → ∀ y, profitOf s k = some y → y < x) ∧
        (showPortfolioStatistics s).best = some ((s.holdingTable b).symbol, x)) ∧
    (∀ s : State, (∃ k, k < TABLE_SIZE ∧ ∃ y, profitOf s k = some y ∧ y < 1000000000) →
      ∃ b x, b < TABLE_SIZE ∧ (s.holdingTable b).status = OCCUPIED ∧ profitOf s b = some x ∧
        (∀ k, k < TABLE_SIZE → ∀ y, profitOf s k = some y → x ≤ y) ∧
        (∀ k, k < b → ∀ y, profitOf s k = some y → x < y) ∧
        (showPortfolioStatistics s).worst = some ((s.holdingTable b).symbol, x)) ∧
    (∀ s : State, Reachable s → ∀ k, (s.holdingTable k).status = OCCUPIED →
      ∃ y, profitOf s k = some y) := by
  refine ⟨?_, ?_, ?_⟩
  · rintro s ⟨k0, hk0, y0, hy0, hgt⟩
    obtain ⟨h1, h2⟩ := stats_best_inv s TABLE_SIZE
    rcases h2 with ⟨hs, -⟩ | ⟨b, hb, hpb, hstock, hfirst⟩
    · have := h1 k0 hk0 y0 hy0
      rw [hs] at this
      exact absurd hgt (not_lt.mpr this)
    · refine ⟨b, _, hb, occupied_of_profitOf hpb, hpb, h1, hfirst, ?_⟩
      simp only [showPortfolioStatistics]
      rw [if_pos (stats_count_pos s hb (occupied_of_profitOf hpb)), hstock]
  · rintro s ⟨k0, hk0, y0, hy0, hlt⟩
    obtain ⟨h1, h2⟩ := stats_worst_inv s TABLE_SIZE
    rcases h2 with ⟨hs, -⟩ | ⟨b, hb, hpb, hstock, hfirst⟩
    · have := h1 k0 hk0 y0 hy0
      rw [hs] at this
      exact absurd hlt (not_lt.mpr this)
    · refine ⟨b, _, hb, occupied_of_profitOf hpb, hpb, h1, hfirst, ?_⟩
      simp only [showPortfolioStatistics]
      rw [if_pos (stats_count_pos s hb (occupied_of_profitOf hpb)), hstock]
  · intro s hreach k ho
    obtain ⟨j, -, -, -, hsearch⟩ := reachable_priced hreach k ho
    unfold profitOf
    rw [if_pos ho, hsearch]
    exact ⟨_, rfl⟩

/-- Witness for C16: with "A" (slot 65) and "B" (slot 66) both at profit 5,
"A" is printed as best and as worst; with profits 5 ("A"), 7 ("B") and -20
(AAPL, slot 20), "B" is the best and AAPL the worst. -/
theorem best_worst_performer_witness :
    (∃ b x, b < TABLE_SIZE ∧ (stateTie.holdingTable b).status = OCCUPIED ∧
        profitOf stateTie b = some x ∧
        (∀ k, k < TABLE_SIZE → ∀ y, profitOf stateTie k = some y → y ≤ x) ∧
        (∀ k, k < b → ∀ y, profitOf stateTie k = some y → y < x) ∧
        (showPortfolioStatistics stateTie).best = some ((stateTie.holdingTable b).symbol, x)) ∧
    profitOf stateTie 65 = some 5 ∧ profitOf stateTie 66 = some 5 ∧
    (showPortfolioStatistics stateTie).best = some (symA, 5) ∧
    (showPortfolioStatistics stateTie).worst = some (symA, 5) ∧
    (showPortfolioStatistics stateThree).best = some (symB, 7) ∧
    (showPortfolioStatistics stateThree).worst = some (symAAPL, -20) :=
  ⟨best_worst_performer.1 stateTie ⟨65, by decide, 5, by decide!, by norm_num⟩,
   by decide!, by decide!, by decide!, by decide!, by decide!, by decide!⟩

/-- C16 as stated fails: with one share of AAPL held and no catalog entry for
it, there is an Occupied holding, and the best performer printed is the empty
name with -1e9, the worst the empty name with 1e9; no Occupied holding has the
empty symbol. -/
theorem best_worst_performer_counterexample :
    (stateUnpriced.holdingTable 20).status = OCCUPIED ∧
    (showPortfolioStatistics stateUnpriced).best = some ([], -1000000000) ∧
    (showPortfolioStatistics stateUnpriced).worst = some ([], 1000000000) ∧
    ∀ k, k < TABLE_SIZE → (stateUnpriced.holdingTable k).status = OCCUPIED →
      (stateUnpriced.holdingTable k).symbol ≠ [] := by
  refine ⟨by decide, by decide!, by decide!, by decide⟩

/-- The initial value -1e9 of `bestProfit` hides a holding whose loss is
larger: in a reachable state where the only holding has profit -1200000000,
the best performer printed is the empty name with -1e9. -/
theorem sentinel_hides_large_loss :
    Reachable stateBigLoss ∧
    profitOf stateBigLoss 20 = some (-1200000000) ∧
    (showPortfolioStatistics stateBigLoss).best = some ([], -1000000000) ∧
    (showPortfolioStatistics stateBigLoss).worst = some (symAAPL, -1200000000) :=
  ⟨reachable_run _ _ reachable_stateCatalog, by decide!, by decide!, by decide!⟩

/-! ## Totals and ROI -/

end StockPortfolio
